import Mathlib

/-!
# Weighted-grid construction and loading (`ll_tessellation.c`)

A shallow embedding of `construct_grid`, `load_grid`, `f_tessellate_area` and
of `tessellate_area` from the data that `read_traj` and `rd_index` deliver.

* `rvec **x` with the counts `nframes`, `natoms` is embedded as a function
  `x : ℕ → ℕ → rvec` (frame index, atom index) together with the two counts.
* The buffer `grid->weights` is a `List ℚ`; a write through the pointer
  `weights + i` outside the allocated block has no defined behaviour in C and is
  embedded as `none`.

The arithmetic of the source is read in two ways; the names tell which one a
statement is about.

* The exact reading (`construct_grid`, `cell_index`, `deposits`, `load_grid`,
  `f_tessellate_area`): a `real` is an exact number and every operation on it
  is exact; an `int` is an unbounded integer and the cast `(int)` truncates
  toward zero. It describes the program as long as no operation rounds and no
  `int` leaves its range. Division by the cell width `0` is `0` in `ℚ`; no
  statement depends on the value of such a quotient.
* The machine reading (the definitions whose names end in `_f32`): a `real` is
  an IEEE binary32 number, every operation is rounded to nearest with ties to
  even, an `int` has 32 bits, and whatever C leaves undefined has the result
  `none`.

The scan of the extrema and the index filter only compare and copy, so they are
the same in both readings.
-/

namespace LLTessellation

/-- The GROMACS type `rvec` is `real[3]`, addressed with `XX`, `YY`, `ZZ`. -/
structure rvec where
  XX : ℚ
  YY : ℚ
  ZZ : ℚ
deriving DecidableEq, Repr

/-- The constant `FLT_MAX` of `<float.h>`: the largest finite `float`,
`(2^24 - 1) * 2^104`. -/
def FLT_MAX : ℚ := (2 ^ 24 - 1) * 2 ^ 104

/-- The constant `FLT_MIN` of `<float.h>`: the smallest positive normalised
`float`, `2^(-126)`. -/
def FLT_MIN : ℚ := 1 / 2 ^ 126

/-- The C conversion `(int) r` of a real to an integer: the fractional part is
discarded (truncation toward zero). The range of `int` is checked in the
machine reading, `int_cast_f32`. -/
def int_cast (r : ℚ) : ℤ := if 0 ≤ r then ⌊r⌋ else ⌈r⌉

/-- Modelled from the spec: `distance2` of the GROMACS header `vec.h`, which is
not part of this repository; it is the squared Euclidean distance of two
points. -/
def distance2 (a b : rvec) : ℚ :=
  (a.XX - b.XX) * (a.XX - b.XX) + (a.YY - b.YY) * (a.YY - b.YY)
    + (a.ZZ - b.ZZ) * (a.ZZ - b.ZZ)

/-- Modelled from the spec: `snew` of the GROMACS header `smalloc.h`, which is
not part of this repository; it allocates a zero-initialised block of `nelem`
elements. The spec says nothing of a negative count; the exact reading gives it
the empty block, and no statement about a block depends on that (the machine
reading, `snew_f32`, leaves it undefined). -/
def snew (nelem : ℤ) : List ℚ := List.replicate nelem.toNat 0

/-- The record `struct weighted_grid` as `construct_grid` and `load_grid` use
it (its declaration is in the header `ll_tessellation.h`). -/
structure weighted_grid where
  weights : List ℚ
  dimx : ℤ
  dimy : ℤ
  dimz : ℤ
  cell_width : ℚ
  minx : ℚ
  miny : ℚ
  minz : ℚ
deriving DecidableEq, Repr

/-- The six running extrema `minx, miny, minz, maxx, maxy, maxz` that
`construct_grid` keeps as local variables. -/
structure extrema where
  minx : ℚ
  miny : ℚ
  minz : ℚ
  maxx : ℚ
  maxy : ℚ
  maxz : ℚ
deriving DecidableEq, Repr

/-- The initial values of the running extrema: every minimum starts at
`FLT_MAX`, every maximum at `FLT_MIN`. -/
def extrema_init : extrema :=
  { minx := FLT_MAX, miny := FLT_MAX, minz := FLT_MAX,
    maxx := FLT_MIN, maxy := FLT_MIN, maxz := FLT_MIN }

/-- The body of the inner loop of `construct_grid`, for the atom `p`: six
independent conditional updates. -/
def scan_atom (e : extrema) (p : rvec) : extrema :=
  { minx := if p.XX < e.minx then p.XX else e.minx,
    maxx := if p.XX > e.maxx then p.XX else e.maxx,
    miny := if p.YY < e.miny then p.YY else e.miny,
    maxy := if p.YY > e.maxy then p.YY else e.maxy,
    minz := if p.ZZ < e.minz then p.ZZ else e.minz,
    maxz := if p.ZZ > e.maxz then p.ZZ else e.maxz }

/-- The two nested `for` loops of `construct_grid`: frames `0 .. nframes-1`
outside, atoms `0 .. natoms-1` inside. -/
def scan_extrema (x : ℕ → ℕ → rvec) (nframes natoms : ℕ) : extrema :=
  (List.range nframes).foldl
    (fun e fr => (List.range natoms).foldl (fun e a => scan_atom e (x fr a)) e)
    extrema_init

/-- The function `construct_grid` in the exact reading: scans the extrema,
derives the three dimensions, allocates the zeroed buffer and fills in the
record. -/
def construct_grid (x : ℕ → ℕ → rvec) (nframes natoms : ℕ) (cell_width : ℚ) :
    weighted_grid :=
  let e := scan_extrema x nframes natoms
  let dimx := int_cast ((e.maxx - e.minx) / cell_width) + 2
  let dimy := int_cast ((e.maxy - e.miny) / cell_width) + 2
  let dimz := int_cast ((e.maxz - e.minz) / cell_width) + 2
  { weights := snew (dimx * dimy * dimz),
    dimx := dimx, dimy := dimy, dimz := dimz,
    cell_width := cell_width,
    minx := e.minx, miny := e.miny, minz := e.minz }

/-- The statement `*(weights + i) += v` in the exact reading: defined only when
`i` addresses an element of the allocated block. -/
def add_at (weights : List ℚ) (i : ℤ) (v : ℚ) : Option (List ℚ) :=
  if 0 ≤ i ∧ i.toNat < weights.length then
    some (weights.set i.toNat (weights.getD i.toNat 0 + v))
  else none

/-- The indices `(xi, yi, zi)` that `load_grid` computes for the atom `p`, in
the exact reading. -/
def cell_index (grid : weighted_grid) (p : rvec) : ℤ × ℤ × ℤ :=
  (int_cast ((p.XX - grid.minx) / grid.cell_width),
   int_cast ((p.YY - grid.miny) / grid.cell_width),
   int_cast ((p.ZZ - grid.minz) / grid.cell_width))

/-- The eight updates that the body of the inner loop of `load_grid` performs
for the atom `p`, in program order and in the exact reading: each is the offset
added to `weights` and the value added there. `grid_point` is moved by
`± cell_width` along one axis between two consecutive updates, exactly as in
the source. -/
def deposits (grid : weighted_grid) (p : rvec) : List (ℤ × ℚ) :=
  let dimy := grid.dimy
  let dimz := grid.dimz
  let cell_width := grid.cell_width
  let diag_sq := 3 * cell_width * cell_width
  let dimyz := dimy * dimz
  let xi := (cell_index grid p).1
  let yi := (cell_index grid p).2.1
  let zi := (cell_index grid p).2.2
  let gp0 : rvec :=
    { XX := grid.minx + xi * cell_width,
      YY := grid.miny + yi * cell_width,
      ZZ := grid.minz + zi * cell_width }
  let w0 := (xi * dimyz + yi * dimz + zi, diag_sq - distance2 p gp0)
  let gp1 := { gp0 with XX := gp0.XX + cell_width }
  let w1 := ((xi + 1) * dimyz + yi * dimz + zi, diag_sq - distance2 p gp1)
  let gp2 := { gp1 with YY := gp1.YY + cell_width }
  let w2 := ((xi + 1) * dimyz + (yi + 1) * dimz + zi, diag_sq - distance2 p gp2)
  let gp3 := { gp2 with XX := gp2.XX - cell_width }
  let w3 := (xi * dimyz + (yi + 1) * dimz + zi, diag_sq - distance2 p gp3)
  let gp4 := { gp3 with ZZ := gp3.ZZ + cell_width }
  let w4 := (xi * dimyz + (yi + 1) * dimz + zi + 1, diag_sq - distance2 p gp4)
  let gp5 := { gp4 with YY := gp4.YY - cell_width }
  let w5 := (xi * dimyz + yi * dimz + zi + 1, diag_sq - distance2 p gp5)
  let gp6 := { gp5 with XX := gp5.XX + cell_width }
  let w6 := ((xi + 1) * dimyz + yi * dimz + zi + 1, diag_sq - distance2 p gp6)
  let gp7 := { gp6 with YY := gp6.YY + cell_width }
  let w7 := ((xi + 1) * dimyz + (yi + 1) * dimz + zi + 1, diag_sq - distance2 p gp7)
  [w0, w1, w2, w3, w4, w5, w6, w7]

/-- A run of `+=` statements on the buffer, stopping at the first one that
leaves the allocated block. -/
def apply_deposits (weights : List ℚ) (ds : List (ℤ × ℚ)) : Option (List ℚ) :=
  ds.foldlM (fun w d => add_at w d.1 d.2) weights

/-- The body of the inner loop of `load_grid` for the atom `p`. -/
def load_atom (grid : weighted_grid) (weights : List ℚ) (p : rvec) :
    Option (List ℚ) :=
  apply_deposits weights (deposits grid p)

/-- The two nested `for` loops of `load_grid` acting on the buffer. -/
def load_weights (x : ℕ → ℕ → rvec) (nframes natoms : ℕ) (grid : weighted_grid) :
    Option (List ℚ) :=
  (List.range nframes).foldlM
    (fun w fr => (List.range natoms).foldlM (fun w a => load_atom grid w (x fr a)) w)
    grid.weights

/-- The function `load_grid`: it reads the dimensions, the cell width and the
origin of the grid and updates the buffer in place; no other field is
written. -/
def load_grid (x : ℕ → ℕ → rvec) (nframes natoms : ℕ) (grid : weighted_grid) :
    Option weighted_grid :=
  (load_weights x nframes natoms grid).map (fun w => { grid with weights := w })

/-- The function `f_tessellate_area` up to the call of `free_grid`: the grid is
built from `x` and loaded with the same `x`. The result is the grid as it is
just before it is released. -/
def f_tessellate_area (x : ℕ → ℕ → rvec) (nframes natoms : ℕ) (cell_width : ℚ) :
    Option weighted_grid :=
  load_grid x nframes natoms (construct_grid x nframes natoms cell_width)

/-- The atoms `x[fr][a]` in the order in which both pairs of nested loops visit
them. It is not part of the source; the loops are compared with it. -/
def atoms (x : ℕ → ℕ → rvec) (nframes natoms : ℕ) : List rvec :=
  (List.range nframes).flatMap (fun fr => (List.range natoms).map (x fr))

/-- The row-major offset `x * dimy * dimz + y * dimz + z` of the vertex
`(x, y, z)`, as the data model of the specification states it. -/
def flat_index (grid : weighted_grid) (x y z : ℤ) : ℤ :=
  x * (grid.dimy * grid.dimz) + y * grid.dimz + z

/-- The coordinates of the lattice vertex `(i, j, k)` of a grid, as the
specification states them: `cell_width` times the index away from the origin. -/
def vertex (grid : weighted_grid) (i j k : ℤ) : rvec :=
  { XX := grid.minx + i * grid.cell_width,
    YY := grid.miny + j * grid.cell_width,
    ZZ := grid.minz + k * grid.cell_width }

/-- The sum of the values that a run of updates adds at the offset `n`; used to
state what a run leaves in the buffer. -/
def total_at (ds : List (ℤ × ℚ)) (n : ℕ) : ℚ :=
  ((ds.filter (fun d => decide (d.1 = (n : ℤ)))).map Prod.snd).sum

/-- The update of the vertex at offset `(a, b, c)` from the cell origin of the
atom `p`: its flat offset and the value `3 * cell_width^2` minus the squared
distance from `p` to that vertex. -/
def corner_deposit (grid : weighted_grid) (p : rvec) (a b c : ℤ) : ℤ × ℚ :=
  (flat_index grid ((cell_index grid p).1 + a) ((cell_index grid p).2.1 + b)
      ((cell_index grid p).2.2 + c),
   3 * grid.cell_width * grid.cell_width
     - distance2 p (vertex grid ((cell_index grid p).1 + a)
         ((cell_index grid p).2.1 + b) ((cell_index grid p).2.2 + c)))

/-- Two atoms in one frame, used to instantiate the general statements. -/
def sample_x : ℕ → ℕ → rvec :=
  fun _ a => if a = 0 then ⟨0, 0, 0⟩ else ⟨1, 2, 3⟩

/-- One frame with one atom at `(-5, -5, -5)`. -/
def below_zero_x : ℕ → ℕ → rvec := fun _ _ => ⟨-5, -5, -5⟩

/-- Frames in which every atom is at `(-1, -1, -1)`. -/
def repeated_x : ℕ → ℕ → rvec := fun _ _ => ⟨-1, -1, -1⟩

/-- One frame with one atom at `(1/2, 1/2, 1/2)`. -/
def centre_x : ℕ → ℕ → rvec := fun _ _ => ⟨1 / 2, 1 / 2, 1 / 2⟩

/-- The grid of two vertices per axis with origin `(1/2, 1/2, 1/2)` and cell
width `1`, holding the buffer `w`. -/
def centre_grid (w : List ℚ) : weighted_grid :=
  { weights := w, dimx := 2, dimy := 2, dimz := 2, cell_width := 1,
    minx := 1 / 2, miny := 1 / 2, minz := 1 / 2 }

/-- The sequence of a single frame `A`. -/
def one_frame (A : ℕ → rvec) : ℕ → ℕ → rvec := fun _ => A

/-- The sequence of the two frames `A`, `B`, in this order. -/
def two_frames (A B : ℕ → rvec) : ℕ → ℕ → rvec := fun fr => if fr = 0 then A else B

/-- The successive values of `grid_point` in the body of the inner loop of
`load_grid` for the atom `p`, each paired with the offset that is written while
`grid_point` holds it, in program order. -/
def walk (grid : weighted_grid) (p : rvec) : List (ℤ × rvec) :=
  let dimz := grid.dimz
  let cell_width := grid.cell_width
  let dimyz := grid.dimy * grid.dimz
  let xi := (cell_index grid p).1
  let yi := (cell_index grid p).2.1
  let zi := (cell_index grid p).2.2
  let gp0 : rvec :=
    { XX := grid.minx + xi * cell_width,
      YY := grid.miny + yi * cell_width,
      ZZ := grid.minz + zi * cell_width }
  let gp1 := { gp0 with XX := gp0.XX + cell_width }
  let gp2 := { gp1 with YY := gp1.YY + cell_width }
  let gp3 := { gp2 with XX := gp2.XX - cell_width }
  let gp4 := { gp3 with ZZ := gp3.ZZ + cell_width }
  let gp5 := { gp4 with YY := gp4.YY - cell_width }
  let gp6 := { gp5 with XX := gp5.XX + cell_width }
  let gp7 := { gp6 with YY := gp6.YY + cell_width }
  [(xi * dimyz + yi * dimz + zi, gp0),
   ((xi + 1) * dimyz + yi * dimz + zi, gp1),
   ((xi + 1) * dimyz + (yi + 1) * dimz + zi, gp2),
   (xi * dimyz + (yi + 1) * dimz + zi, gp3),
   (xi * dimyz + (yi + 1) * dimz + zi + 1, gp4),
   (xi * dimyz + yi * dimz + zi + 1, gp5),
   ((xi + 1) * dimyz + yi * dimz + zi + 1, gp6),
   ((xi + 1) * dimyz + (yi + 1) * dimz + zi + 1, gp7)]

/-- The eight offsets `(a, b, c)` in `{0, 1}^3` of the corners of a cell from the
origin of the cell. -/
def corners : List (ℤ × ℤ × ℤ) :=
  [(0, 0, 0), (0, 0, 1), (0, 1, 0), (0, 1, 1), (1, 0, 0), (1, 0, 1), (1, 1, 0), (1, 1, 1)]

/-- The deposit of one atom as the specification words it: for each of the
eight corners of the cell of `p`, the value `diagSq` minus the squared distance
from `p` to the coordinates of that corner, added at the row-major offset of
that corner. -/
def reference_deposits (grid : weighted_grid) (p : rvec) : List (ℤ × ℚ) :=
  corners.map (fun t => corner_deposit grid p t.1 t.2.1 t.2.2)

/-- The part of `tessellate_area` between the calls of `read_traj` and of
`f_tessellate_area`: the sequence, the number of frames and the number of atoms
that are handed to `f_tessellate_area`. `pre_x`, `nframes`, `natoms` are what
`read_traj` delivered; `ndx` is `none` when `ndx_fname` is `NULL`, else the size
`isize[0]` and the identifiers `indx[0]` that `rd_index` delivered. Reading
`pre_x[i][id]` with `id` outside the frame has no defined behaviour in C and is
embedded as `none`. -/
def core_input (pre_x : ℕ → ℕ → rvec) (nframes natoms : ℕ)
    (ndx : Option (ℕ × (ℕ → ℤ))) : Option ((ℕ → ℕ → rvec) × ℕ × ℕ) :=
  match ndx with
  | some (isize, indx) =>
    if nframes = 0 ∨ ∀ j, j < isize → 0 ≤ indx j ∧ indx j < (natoms : ℤ) then
      some (fun i j => pre_x i (indx j).toNat, nframes, isize)
    else none
  | none => some (pre_x, nframes, natoms)

/-- The function `tessellate_area`, from the data delivered by `read_traj` and
`rd_index` on: the optional filter, the call of `f_tessellate_area`, whose
result is discarded, and `return 0`. -/
def tessellate_area (pre_x : ℕ → ℕ → rvec) (nframes natoms : ℕ)
    (ndx : Option (ℕ × (ℕ → ℤ))) (cell_width : ℚ) : Option ℚ :=
  (core_input pre_x nframes natoms ndx).bind
    (fun c => (f_tessellate_area c.1 c.2.1 c.2.2 cell_width).map (fun _ => 0))

/-- The sequence `x` with its frames reordered by `s` and the atoms of the frame
`fr` reordered by `t fr`. -/
def reorder (x : ℕ → ℕ → rvec) (s : ℕ → ℕ) (t : ℕ → ℕ → ℕ) : ℕ → ℕ → rvec :=
  fun fr a => x (s fr) (t fr a)

/-- One frame with one atom at `(5, 5, 5)`. -/
def far_x : ℕ → ℕ → rvec := fun _ _ => ⟨5, 5, 5⟩

/-- Two frames of three atoms each, all different. -/
def traj_x : ℕ → ℕ → rvec := fun fr a => ⟨fr + 1, a + 1, fr + a + 1⟩

/-- The identifiers `2, 0, 2`. -/
def sample_indx : ℕ → ℤ := fun j => if j = 1 then 0 else 2

/-- The offsets `(a, b, c)` of the corners in the order in which the body of
the inner loop of `load_grid` visits them. -/
def program_order : List (ℤ × ℤ × ℤ) :=
  [(0, 0, 0), (1, 0, 0), (1, 1, 0), (0, 1, 0), (0, 1, 1), (0, 0, 1), (1, 0, 1), (1, 1, 1)]

/-- The number `M` is the largest value of the coordinate `c` over all atoms of
all frames. -/
def is_largest (x : ℕ → ℕ → rvec) (nframes natoms : ℕ) (c : rvec → ℚ) (M : ℚ) : Prop :=
  (∀ fr a, fr < nframes → a < natoms → c (x fr a) ≤ M)
    ∧ ∃ fr a, fr < nframes ∧ a < natoms ∧ c (x fr a) = M

/-- The number `m` is the smallest value of the coordinate `c` over all atoms of
all frames. -/
def is_smallest (x : ℕ → ℕ → rvec) (nframes natoms : ℕ) (c : rvec → ℚ) (m : ℚ) : Prop :=
  (∀ fr a, fr < nframes → a < natoms → m ≤ c (x fr a))
    ∧ ∃ fr a, fr < nframes ∧ a < natoms ∧ c (x fr a) = m

/-! ## The machine reading: binary32 reals and 32-bit `int`

The definitions above read `real` as an exact number and `int` as an unbounded
integer. The definitions below read the same statements of the source with
`real` as an IEEE binary32 number (every operation rounded to nearest, ties to
even, no excess precision and no contraction) and `int` as a 32-bit two's
complement integer. A binary32 number is kept as the rational number it
denotes. The result `none` stands for behaviour that C leaves undefined (a cast
or an `int` operation out of range, an access outside the block) and for a
result that is not a finite number (an infinity or a NaN); nothing is stated
about the program after that. -/

/-- The constant `INT_MAX` of `<limits.h>` for a 32-bit `int`. -/
def INT_MAX : ℤ := 2 ^ 31 - 1

/-- The constant `INT_MIN` of `<limits.h>` for a 32-bit `int`. -/
def INT_MIN : ℤ := -2 ^ 31

/-- The result of an `int` operation whose mathematical value is `n`: defined
when `n` is representable. -/
def int_result (n : ℤ) : Option ℤ :=
  if INT_MIN ≤ n ∧ n ≤ INT_MAX then some n else none

/-- Rounding of a number to the nearest integer, ties to the even one. -/
def round_even (y : ℚ) : ℤ :=
  if y - ⌊y⌋ < 1 / 2 then ⌊y⌋
  else if 1 / 2 < y - ⌊y⌋ then ⌊y⌋ + 1
  else if ⌊y⌋ % 2 = 0 then ⌊y⌋ else ⌊y⌋ + 1

/-- The number of halvings that bring `n` below `2`, with `fuel` bounding the
number of steps. -/
def floor_log2_fuel : ℕ → ℕ → ℕ
  | 0, _ => 0
  | fuel + 1, n => if 2 ≤ n then floor_log2_fuel fuel (n / 2) + 1 else 0

/-- The binary logarithm of `n` rounded down (`0` for `n = 0`). -/
def floor_log2 (n : ℕ) : ℕ := floor_log2_fuel n n

/-- The exponent `e` with `2^e <= |x| < 2^(e+1)` of a number other than `0`,
found from the bit lengths of its numerator and denominator. -/
def binade32 (x : ℚ) : ℤ :=
  if (2 : ℚ) ^ ((floor_log2 x.num.natAbs : ℤ) - (floor_log2 x.den : ℤ)) ≤ |x| then
    (floor_log2 x.num.natAbs : ℤ) - (floor_log2 x.den : ℤ)
  else (floor_log2 x.num.natAbs : ℤ) - (floor_log2 x.den : ℤ) - 1

/-- The spacing of the binary32 numbers around `x`: `2^(e - 23)` where
`2^e <= |x| < 2^(e+1)`, and `2^(-149)` below the normalised numbers. -/
def ulp32 (x : ℚ) : ℚ := 2 ^ (max (binade32 x) (-126) - 23)

/-- The binary32 number nearest to `x`, ties to even, with no bound on the
exponent from above. -/
def fl32 (x : ℚ) : ℚ := round_even (x / ulp32 x) * ulp32 x

/-- The result of a binary32 operation whose exact value is `x`: the rounded
value when that is finite, that is at most `FLT_MAX` in magnitude. -/
def float_result (x : ℚ) : Option ℚ :=
  if |fl32 x| ≤ FLT_MAX then some (fl32 x) else none

/-- The quotient `a / b` of two binary32 numbers; a division by zero gives an
infinity or a NaN. -/
def fdiv (a b : ℚ) : Option ℚ := if b = 0 then none else float_result (a / b)

/-- The conversion `(int) r` of a binary32 number: the value truncated toward
zero when that is representable. -/
def int_cast_f32 (r : ℚ) : Option ℤ := int_result (int_cast r)

/-- One of the three statements `dim = ((int)((max - min)/cell_width) + 2)` of
`construct_grid`. -/
def axis_dim_f32 (mx mn cell_width : ℚ) : Option ℤ :=
  (float_result (mx - mn)).bind fun d =>
  (fdiv d cell_width).bind fun q =>
  (int_cast_f32 q).bind fun c =>
  int_result (c + 2)

/-- Modelled from the spec: `snew` applied to an `int` count. A block of a
negative number of elements does not exist. -/
def snew_f32 (nelem : ℤ) : Option (List ℚ) :=
  if 0 ≤ nelem then some (List.replicate nelem.toNat 0) else none

/-- The function `construct_grid` in the machine reading. The scan only compares
and copies, so it is the scan above. -/
def construct_grid_f32 (x : ℕ → ℕ → rvec) (nframes natoms : ℕ) (cell_width : ℚ) :
    Option weighted_grid :=
  let e := scan_extrema x nframes natoms
  (axis_dim_f32 e.maxx e.minx cell_width).bind fun dimx =>
  (axis_dim_f32 e.maxy e.miny cell_width).bind fun dimy =>
  (axis_dim_f32 e.maxz e.minz cell_width).bind fun dimz =>
  (int_result (dimx * dimy)).bind fun n =>
  (int_result (n * dimz)).bind fun nelem =>
  (snew_f32 nelem).bind fun w =>
  some { weights := w, dimx := dimx, dimy := dimy, dimz := dimz,
         cell_width := cell_width,
         minx := e.minx, miny := e.miny, minz := e.minz }

/-- One of the three statements `xi = (int)((x - minx)/cell_width)` of
`load_grid`. -/
def axis_index_f32 (c mn cell_width : ℚ) : Option ℤ :=
  (float_result (c - mn)).bind fun d =>
  (fdiv d cell_width).bind fun q =>
  int_cast_f32 q

/-- The indices `(xi, yi, zi)` that `load_grid` computes for the atom `p`. -/
def cell_index_f32 (grid : weighted_grid) (p : rvec) : Option (ℤ × ℤ × ℤ) :=
  (axis_index_f32 p.XX grid.minx grid.cell_width).bind fun xi =>
  (axis_index_f32 p.YY grid.miny grid.cell_width).bind fun yi =>
  (axis_index_f32 p.ZZ grid.minz grid.cell_width).bind fun zi =>
  some (xi, yi, zi)

/-- An offset `x * dimyz + y * dimz + z` as `load_grid` forms it: the two
products are `int` products, the sums are steps of the pointer `weights`. -/
def offset_f32 (dimyz dimz x y z : ℤ) : Option ℤ :=
  (int_result (x * dimyz)).bind fun a =>
  (int_result (y * dimz)).bind fun b =>
  some (a + b + z)

/-- The eight offsets written for an atom with the cell indices `c`, in program
order; `dimyz` is the local variable of `load_grid`. The sums `xi+1` and `yi+1`
are `int` sums, the final `+1` after `zi` is a step of the pointer. -/
def offsets_f32 (dimyz dimz : ℤ) (c : ℤ × ℤ × ℤ) : Option (List ℤ) :=
  (int_result (c.1 + 1)).bind fun x1 =>
  (int_result (c.2.1 + 1)).bind fun y1 =>
  (offset_f32 dimyz dimz c.1 c.2.1 c.2.2).bind fun o0 =>
  (offset_f32 dimyz dimz x1 c.2.1 c.2.2).bind fun o1 =>
  (offset_f32 dimyz dimz x1 y1 c.2.2).bind fun o2 =>
  (offset_f32 dimyz dimz c.1 y1 c.2.2).bind fun o3 =>
  some [o0, o1, o2, o3, o3 + 1, o0 + 1, o1 + 1, o2 + 1]

/-- One coordinate `min + i * cell_width` of the first value of `grid_point`:
the index is converted to binary32, multiplied and added. -/
def axis_origin_f32 (mn : ℚ) (i : ℤ) (cell_width : ℚ) : Option ℚ :=
  (float_result (i : ℚ)).bind fun f =>
  (float_result (f * cell_width)).bind fun m =>
  float_result (mn + m)

/-- The eight successive values of `grid_point` for an atom with the cell
indices `c`, in program order. -/
def walk_f32 (grid : weighted_grid) (c : ℤ × ℤ × ℤ) : Option (List rvec) :=
  (axis_origin_f32 grid.minx c.1 grid.cell_width).bind fun x0 =>
  (axis_origin_f32 grid.miny c.2.1 grid.cell_width).bind fun y0 =>
  (axis_origin_f32 grid.minz c.2.2 grid.cell_width).bind fun z0 =>
  (float_result (x0 + grid.cell_width)).bind fun x1 =>
  (float_result (y0 + grid.cell_width)).bind fun y2 =>
  (float_result (x1 - grid.cell_width)).bind fun x3 =>
  (float_result (z0 + grid.cell_width)).bind fun z4 =>
  (float_result (y2 - grid.cell_width)).bind fun y5 =>
  (float_result (x3 + grid.cell_width)).bind fun x6 =>
  (float_result (y5 + grid.cell_width)).bind fun y7 =>
  some [⟨x0, y0, z0⟩, ⟨x1, y0, z0⟩, ⟨x1, y2, z0⟩, ⟨x3, y2, z0⟩,
        ⟨x3, y2, z4⟩, ⟨x3, y5, z4⟩, ⟨x6, y5, z4⟩, ⟨x6, y7, z4⟩]

/-- Modelled from the spec: `distance2` of the GROMACS header `vec.h` in the
machine reading: the three squared differences, summed from left to right. -/
def distance2_f32 (a b : rvec) : Option ℚ :=
  (float_result (b.XX - a.XX)).bind fun dx =>
  (float_result (dx * dx)).bind fun sx =>
  (float_result (b.YY - a.YY)).bind fun dy =>
  (float_result (dy * dy)).bind fun sy =>
  (float_result (b.ZZ - a.ZZ)).bind fun dz =>
  (float_result (dz * dz)).bind fun sz =>
  (float_result (sx + sy)).bind fun s =>
  float_result (s + sz)

/-- The statement `diag_sq = 3 * cell_width * cell_width`. -/
def diag_sq_f32 (cell_width : ℚ) : Option ℚ :=
  (float_result (3 * cell_width)).bind fun t => float_result (t * cell_width)

/-- The value `diag_sq - distance2(x[fr][a], grid_point)`. -/
def value_f32 (diag_sq : ℚ) (p gp : rvec) : Option ℚ :=
  (distance2_f32 p gp).bind fun d => float_result (diag_sq - d)

/-- The eight updates for the atom `p` in the machine reading: offsets and
values, in program order; `dimyz` and `diag_sq` are the local variables of
`load_grid`. -/
def deposits_f32 (grid : weighted_grid) (dimyz : ℤ) (diag_sq : ℚ) (p : rvec) :
    Option (List (ℤ × ℚ)) :=
  (cell_index_f32 grid p).bind fun c =>
  (offsets_f32 dimyz grid.dimz c).bind fun os =>
  (walk_f32 grid c).bind fun gps =>
  (gps.mapM (value_f32 diag_sq p)).bind fun vs =>
  some (os.zip vs)

/-- The statement `*(weights + i) += v` in the machine reading. -/
def add_at_f32 (weights : List ℚ) (i : ℤ) (v : ℚ) : Option (List ℚ) :=
  if 0 ≤ i ∧ i.toNat < weights.length then
    (float_result (weights.getD i.toNat 0 + v)).map fun s => weights.set i.toNat s
  else none

/-- A run of `+=` statements in the machine reading. -/
def apply_deposits_f32 (weights : List ℚ) (ds : List (ℤ × ℚ)) : Option (List ℚ) :=
  ds.foldlM (fun w d => add_at_f32 w d.1 d.2) weights

/-- The body of the inner loop of `load_grid` in the machine reading. -/
def load_atom_f32 (grid : weighted_grid) (dimyz : ℤ) (diag_sq : ℚ) (weights : List ℚ)
    (p : rvec) : Option (List ℚ) :=
  (deposits_f32 grid dimyz diag_sq p).bind (apply_deposits_f32 weights)

/-- The two nested `for` loops of `load_grid` in the machine reading. -/
def load_weights_f32 (x : ℕ → ℕ → rvec) (nframes natoms : ℕ) (grid : weighted_grid)
    (dimyz : ℤ) (diag_sq : ℚ) (weights : List ℚ) : Option (List ℚ) :=
  (List.range nframes).foldlM
    (fun w fr => (List.range natoms).foldlM
      (fun w a => load_atom_f32 grid dimyz diag_sq w (x fr a)) w)
    weights

/-- The function `load_grid` in the machine reading: `diag_sq` and `dimyz` are
computed once, then the loops run. -/
def load_grid_f32 (x : ℕ → ℕ → rvec) (nframes natoms : ℕ) (grid : weighted_grid) :
    Option weighted_grid :=
  (diag_sq_f32 grid.cell_width).bind fun diag_sq =>
  (int_result (grid.dimy * grid.dimz)).bind fun dimyz =>
  (load_weights_f32 x nframes natoms grid dimyz diag_sq grid.weights).map
    fun w => { grid with weights := w }

/-- The function `f_tessellate_area` in the machine reading, up to the call of
`free_grid`. -/
def f_tessellate_area_f32 (x : ℕ → ℕ → rvec) (nframes natoms : ℕ) (cell_width : ℚ) :
    Option weighted_grid :=
  (construct_grid_f32 x nframes natoms cell_width).bind (load_grid_f32 x nframes natoms)

/-- One frame holding the atoms `(0, 0, 0)` and `(2000, 2000, 2000)`. -/
def apart_x : ℕ → ℕ → rvec :=
  fun _ a => if a = 0 then ⟨0, 0, 0⟩ else ⟨2000, 2000, 2000⟩

/-- The binary32 number nearest to `1/10`, written `0.1f` in C. -/
def tenth : ℚ := 13421773 / 134217728

/-- The binary32 number nearest to `9/10`, written `0.9f` in C. -/
def nine_tenths : ℚ := 7549747 / 8388608

/-- One frame holding the atoms `(0, 0, 0)` and `(0.9f, 0, 0)`. -/
def tenths_x : ℕ → ℕ → rvec :=
  fun _ a => if a = 0 then ⟨0, 0, 0⟩ else ⟨nine_tenths, 0, 0⟩

/-- The grid with origin `(0, 0, 0)`, cell width `0.1f` and `11 x 2 x 2`
vertices, holding the buffer `w`. -/
def tenths_grid (w : List ℚ) : weighted_grid :=
  { weights := w, dimx := 11, dimy := 2, dimz := 2, cell_width := tenth,
    minx := 0, miny := 0, minz := 0 }

/-- The binary32 number nearest to `3/10`, written `0.3f` in C. -/
def three_tenths : ℚ := 5033165 / 16777216

/-- The grid with origin `(0, 0, 0)`, cell width `0.3f` and `18 x 2 x 2`
vertices, holding the buffer `w`. -/
def thirds_grid (w : List ℚ) : weighted_grid :=
  { weights := w, dimx := 18, dimy := 2, dimz := 2, cell_width := three_tenths,
    minx := 0, miny := 0, minz := 0 }

/-- The grid with origin `(0, 0, 0)`, cell width `1` and `3 x 3 x 3` vertices,
holding the buffer `w`. -/
def unit_grid (w : List ℚ) : weighted_grid :=
  { weights := w, dimx := 3, dimy := 3, dimz := 3, cell_width := 1,
    minx := 0, miny := 0, minz := 0 }

/-- A frame whose atoms all lie on the vertex `(1, 1, 1)` of `unit_grid`. -/
def frame_A : ℕ → rvec := fun _ => ⟨1, 1, 1⟩

/-- A frame whose atoms all lie at `(2^(-23), 0, 0)`. -/
def frame_B : ℕ → rvec := fun _ => ⟨1 / 8388608, 0, 0⟩

/-- One frame holding the atoms `(0, 1, 1)` and `(0.9f, 1, 1)`. -/
def tenths_up_x : ℕ → ℕ → rvec :=
  fun _ a => if a = 0 then ⟨0, 1, 1⟩ else ⟨nine_tenths, 1, 1⟩

/-- One frame holding the atoms `(0, 0, 0)` and `(10, 0, 0)`. -/
def ten_apart_x : ℕ → ℕ → rvec :=
  fun _ a => if a = 0 then ⟨0, 0, 0⟩ else ⟨10, 0, 0⟩

/-! ## The cast to `int` -/

theorem int_cast_of_nonneg {r : ℚ} (h : 0 ≤ r) : int_cast r = ⌊r⌋ := by
  simp [int_cast, h]

theorem int_cast_nonneg {r : ℚ} (h : 0 ≤ r) : 0 ≤ int_cast r := by
  rw [int_cast_of_nonneg h]
  exact Int.floor_nonneg.mpr h

theorem int_cast_mono {r s : ℚ} (h : 0 ≤ r) (hrs : r ≤ s) : int_cast r ≤ int_cast s := by
  rw [int_cast_of_nonneg h, int_cast_of_nonneg (le_trans h hrs)]
  exact Int.floor_le_floor hrs

theorem int_cast_zero : int_cast 0 = 0 := by
  simp [int_cast]

/-! ## The scan of the extrema -/

theorem mem_atoms {x : ℕ → ℕ → rvec} {nframes natoms : ℕ} {p : rvec} :
    p ∈ atoms x nframes natoms ↔ ∃ fr, fr < nframes ∧ ∃ a, a < natoms ∧ x fr a = p := by
  simp [atoms, List.mem_flatMap, List.mem_map, List.mem_range]

theorem atoms_succ (x : ℕ → ℕ → rvec) (nframes natoms : ℕ) :
    atoms x (nframes + 1) natoms
      = atoms x nframes natoms ++ (List.range natoms).map (x nframes) := by
  simp [atoms, List.range_succ, List.flatMap_append]

theorem scan_extrema_eq_foldl (x : ℕ → ℕ → rvec) (nframes natoms : ℕ) :
    scan_extrema x nframes natoms
      = (atoms x nframes natoms).foldl scan_atom extrema_init := by
  induction nframes with
  | zero => simp [scan_extrema, atoms]
  | succ n ih =>
    rw [atoms_succ, List.foldl_append, ← ih]
    simp [scan_extrema, List.range_succ, List.foldl_append, List.foldl_map]

theorem scan_atom_minx (e : extrema) (p : rvec) : (scan_atom e p).minx = min e.minx p.XX := by
  simp only [scan_atom]; split_ifs with h
  · exact (min_eq_right h.le).symm
  · exact (min_eq_left (not_lt.mp h)).symm

theorem scan_atom_miny (e : extrema) (p : rvec) : (scan_atom e p).miny = min e.miny p.YY := by
  simp only [scan_atom]; split_ifs with h
  · exact (min_eq_right h.le).symm
  · exact (min_eq_left (not_lt.mp h)).symm

theorem scan_atom_minz (e : extrema) (p : rvec) : (scan_atom e p).minz = min e.minz p.ZZ := by
  simp only [scan_atom]; split_ifs with h
  · exact (min_eq_right h.le).symm
  · exact (min_eq_left (not_lt.mp h)).symm

theorem scan_atom_maxx (e : extrema) (p : rvec) : (scan_atom e p).maxx = max e.maxx p.XX := by
  simp only [scan_atom]; split_ifs with h
  · exact (max_eq_right (le_of_lt h)).symm
  · exact (max_eq_left (not_lt.mp h)).symm

theorem scan_atom_maxy (e : extrema) (p : rvec) : (scan_atom e p).maxy = max e.maxy p.YY := by
  simp only [scan_atom]; split_ifs with h
  · exact (max_eq_right (le_of_lt h)).symm
  · exact (max_eq_left (not_lt.mp h)).symm

theorem scan_atom_maxz (e : extrema) (p : rvec) : (scan_atom e p).maxz = max e.maxz p.ZZ := by
  simp only [scan_atom]; split_ifs with h
  · exact (max_eq_right (le_of_lt h)).symm
  · exact (max_eq_left (not_lt.mp h)).symm

/-- The running extrema after a scan bound the seed and every scanned atom. -/
theorem scan_foldl_bounds (l : List rvec) (e : extrema) :
    let r := l.foldl scan_atom e
    (r.minx ≤ e.minx ∧ r.miny ≤ e.miny ∧ r.minz ≤ e.minz
      ∧ e.maxx ≤ r.maxx ∧ e.maxy ≤ r.maxy ∧ e.maxz ≤ r.maxz)
    ∧ ∀ p ∈ l, r.minx ≤ p.XX ∧ r.miny ≤ p.YY ∧ r.minz ≤ p.ZZ
        ∧ p.XX ≤ r.maxx ∧ p.YY ≤ r.maxy ∧ p.ZZ ≤ r.maxz := by
  induction l generalizing e with
  | nil => simp
  | cons q t ih =>
    obtain ⟨⟨h1, h2, h3, h4, h5, h6⟩, hall⟩ := ih (scan_atom e q)
    rw [scan_atom_minx] at h1
    rw [scan_atom_miny] at h2
    rw [scan_atom_minz] at h3
    rw [scan_atom_maxx] at h4
    rw [scan_atom_maxy] at h5
    rw [scan_atom_maxz] at h6
    simp only [List.foldl_cons]
    refine ⟨⟨le_trans h1 (min_le_left _ _), le_trans h2 (min_le_left _ _),
      le_trans h3 (min_le_left _ _), le_trans (le_max_left _ _) h4,
      le_trans (le_max_left _ _) h5, le_trans (le_max_left _ _) h6⟩, ?_⟩
    intro p hp
    rcases List.mem_cons.mp hp with rfl | hp
    · exact ⟨le_trans h1 (min_le_right _ _), le_trans h2 (min_le_right _ _),
        le_trans h3 (min_le_right _ _), le_trans (le_max_right _ _) h4,
        le_trans (le_max_right _ _) h5, le_trans (le_max_right _ _) h6⟩
    · exact hall p hp

/-- Each running extremum after a scan is the seed or a scanned coordinate. -/
theorem scan_foldl_attained (l : List rvec) (e : extrema) :
    let r := l.foldl scan_atom e
    (r.minx = e.minx ∨ ∃ p ∈ l, r.minx = p.XX)
    ∧ (r.miny = e.miny ∨ ∃ p ∈ l, r.miny = p.YY)
    ∧ (r.minz = e.minz ∨ ∃ p ∈ l, r.minz = p.ZZ)
    ∧ (r.maxx = e.maxx ∨ ∃ p ∈ l, r.maxx = p.XX)
    ∧ (r.maxy = e.maxy ∨ ∃ p ∈ l, r.maxy = p.YY)
    ∧ (r.maxz = e.maxz ∨ ∃ p ∈ l, r.maxz = p.ZZ) := by
  induction l generalizing e with
  | nil => simp
  | cons q t ih =>
    obtain ⟨h1, h2, h3, h4, h5, h6⟩ := ih (scan_atom e q)
    rw [scan_atom_minx] at h1
    rw [scan_atom_miny] at h2
    rw [scan_atom_minz] at h3
    rw [scan_atom_maxx] at h4
    rw [scan_atom_maxy] at h5
    rw [scan_atom_maxz] at h6
    simp only [List.foldl_cons, List.mem_cons, exists_eq_or_imp]
    refine ⟨?_, ?_, ?_, ?_, ?_, ?_⟩
    · rcases h1 with h | ⟨p, hp, h⟩
      · rcases min_choice e.minx q.XX with c | c
        · exact Or.inl (h.trans c)
        · exact Or.inr (Or.inl (h.trans c))
      · exact Or.inr (Or.inr ⟨p, hp, h⟩)
    · rcases h2 with h | ⟨p, hp, h⟩
      · rcases min_choice e.miny q.YY with c | c
        · exact Or.inl (h.trans c)
        · exact Or.inr (Or.inl (h.trans c))
      · exact Or.inr (Or.inr ⟨p, hp, h⟩)
    · rcases h3 with h | ⟨p, hp, h⟩
      · rcases min_choice e.minz q.ZZ with c | c
        · exact Or.inl (h.trans c)
        · exact Or.inr (Or.inl (h.trans c))
      · exact Or.inr (Or.inr ⟨p, hp, h⟩)
    · rcases h4 with h | ⟨p, hp, h⟩
      · rcases max_choice e.maxx q.XX with c | c
        · exact Or.inl (h.trans c)
        · exact Or.inr (Or.inl (h.trans c))
      · exact Or.inr (Or.inr ⟨p, hp, h⟩)
    · rcases h5 with h | ⟨p, hp, h⟩
      · rcases max_choice e.maxy q.YY with c | c
        · exact Or.inl (h.trans c)
        · exact Or.inr (Or.inl (h.trans c))
      · exact Or.inr (Or.inr ⟨p, hp, h⟩)
    · rcases h6 with h | ⟨p, hp, h⟩
      · rcases max_choice e.maxz q.ZZ with c | c
        · exact Or.inl (h.trans c)
        · exact Or.inr (Or.inl (h.trans c))
      · exact Or.inr (Or.inr ⟨p, hp, h⟩)

/-! ## Updates of the buffer -/

theorem add_at_eq_some {w w' : List ℚ} {i : ℤ} {v : ℚ} (h : add_at w i v = some w') :
    (0 ≤ i ∧ i.toNat < w.length) ∧ w'.length = w.length
      ∧ ∀ n : ℕ, w'.getD n 0 = w.getD n 0 + (if i = (n : ℤ) then v else 0) := by
  unfold add_at at h
  split_ifs at h with hb
  injection h with h
  subst h
  refine ⟨hb, by simp, ?_⟩
  intro n
  by_cases hn : i = (n : ℤ)
  · subst hn
    have hl : n < w.length := by simpa using hb.2
    simp [List.getD_eq_getElem?_getD, List.getElem?_set, hl]
  · have hne : i.toNat ≠ n := by
      intro hc
      apply hn
      rw [← hc]
      exact (Int.toNat_of_nonneg hb.1).symm
    simp [List.getD_eq_getElem?_getD, List.getElem?_set, hne, hn]

theorem add_at_of_bounds {w : List ℚ} {i : ℤ} (v : ℚ) (h : 0 ≤ i ∧ i.toNat < w.length) :
    ∃ w', add_at w i v = some w' := by
  unfold add_at
  rw [if_pos h]
  exact ⟨_, rfl⟩

theorem apply_deposits_nil (w : List ℚ) : apply_deposits w [] = some w := rfl

theorem apply_deposits_cons (w : List ℚ) (d : ℤ × ℚ) (ds : List (ℤ × ℚ)) :
    apply_deposits w (d :: ds)
      = (add_at w d.1 d.2).bind (fun w' => apply_deposits w' ds) := by
  simp [apply_deposits, List.foldlM_cons]

theorem apply_deposits_append (w : List ℚ) (ds es : List (ℤ × ℚ)) :
    apply_deposits w (ds ++ es)
      = (apply_deposits w ds).bind (fun w' => apply_deposits w' es) := by
  simp [apply_deposits, List.foldlM_append]

theorem total_at_nil (n : ℕ) : total_at [] n = 0 := rfl

theorem total_at_cons (d : ℤ × ℚ) (ds : List (ℤ × ℚ)) (n : ℕ) :
    total_at (d :: ds) n = (if d.1 = (n : ℤ) then d.2 else 0) + total_at ds n := by
  unfold total_at
  by_cases h : d.1 = (n : ℤ)
  · simp [List.filter_cons, h]
  · simp [List.filter_cons, h]

theorem total_at_append (ds es : List (ℤ × ℚ)) (n : ℕ) :
    total_at (ds ++ es) n = total_at ds n + total_at es n := by
  simp [total_at, List.filter_append]

/-- What a completed run of updates leaves in the buffer. -/
theorem apply_deposits_eq_some {ds : List (ℤ × ℚ)} {w w' : List ℚ}
    (h : apply_deposits w ds = some w') :
    w'.length = w.length ∧ (∀ d ∈ ds, 0 ≤ d.1 ∧ d.1.toNat < w.length)
      ∧ ∀ n : ℕ, w'.getD n 0 = w.getD n 0 + total_at ds n := by
  induction ds generalizing w with
  | nil =>
    rw [apply_deposits_nil] at h
    injection h with h
    subst h
    simp [total_at_nil]
  | cons d t ih =>
    rw [apply_deposits_cons] at h
    cases hd : add_at w d.1 d.2 with
    | none => rw [hd] at h; simp at h
    | some w1 =>
      rw [hd] at h
      simp only [Option.some_bind] at h
      obtain ⟨hb, hl, hg⟩ := add_at_eq_some hd
      obtain ⟨hl2, hb2, hg2⟩ := ih h
      refine ⟨hl2.trans hl, ?_, ?_⟩
      · intro e he
        rcases List.mem_cons.mp he with rfl | he
        · exact hb
        · have := hb2 e he
          rwa [hl] at this
      · intro n
        rw [hg2 n, hg n, total_at_cons]
        ring

/-- A run of updates completes when every offset lies inside the buffer. -/
theorem apply_deposits_of_bounds {ds : List (ℤ × ℚ)} {w : List ℚ}
    (h : ∀ d ∈ ds, 0 ≤ d.1 ∧ d.1.toNat < w.length) :
    ∃ w', apply_deposits w ds = some w' := by
  induction ds generalizing w with
  | nil => exact ⟨w, rfl⟩
  | cons d t ih =>
    obtain ⟨w1, hw1⟩ := add_at_of_bounds d.2 (h d (List.mem_cons_self _ _))
    have hl := (add_at_eq_some hw1).2.1
    obtain ⟨w2, hw2⟩ := ih (w := w1) (by
      intro e he
      rw [hl]
      exact h e (List.mem_cons_of_mem _ he))
    exact ⟨w2, by rw [apply_deposits_cons, hw1]; simpa using hw2⟩

theorem apply_deposits_isSome_iff (ds : List (ℤ × ℚ)) (w : List ℚ) :
    (apply_deposits w ds).isSome ↔ ∀ d ∈ ds, 0 ≤ d.1 ∧ d.1.toNat < w.length := by
  constructor
  · intro h
    obtain ⟨w', hw'⟩ := Option.isSome_iff_exists.mp h
    exact (apply_deposits_eq_some hw').2.1
  · intro h
    obtain ⟨w', hw'⟩ := apply_deposits_of_bounds h
    simp [hw']

/-- Buffers of equal length with equal entries are equal. -/
theorem buffer_ext {w v : List ℚ} (hl : w.length = v.length)
    (h : ∀ n : ℕ, w.getD n 0 = v.getD n 0) : w = v := by
  apply List.ext_getElem hl
  intro n h1 h2
  have := h n
  simpa [List.getD_eq_getElem?_getD, h1, h2] using this

/-- All updates that `load_grid` performs, in program order. -/
theorem load_weights_eq (x : ℕ → ℕ → rvec) (nframes natoms : ℕ) (grid : weighted_grid) :
    load_weights x nframes natoms grid
      = apply_deposits grid.weights ((atoms x nframes natoms).flatMap (deposits grid)) := by
  have inner : ∀ (l : List rvec) (w : List ℚ),
      l.foldlM (fun w p => load_atom grid w p) w
        = apply_deposits w (l.flatMap (deposits grid)) := by
    intro l
    induction l with
    | nil => intro w; rfl
    | cons p t ih =>
      intro w
      rw [List.foldlM_cons, List.flatMap_cons, apply_deposits_append]
      simp only [load_atom]
      congr 1
      funext w1
      exact ih w1
  unfold load_weights
  generalize grid.weights = w0
  induction nframes with
  | zero => simp [atoms, apply_deposits_nil]
  | succ n ih =>
    rw [atoms_succ, List.flatMap_append, apply_deposits_append, ← ih,
      List.range_succ, List.foldlM_append]
    congr 1
    funext w1
    simp only [List.foldlM_cons, List.foldlM_nil]
    rw [← inner, List.foldlM_map]
    simp

/-! ## Geometry of the grid -/

/-- The eight updates of `load_grid` for one atom address the eight corners of
its cell, each with the coordinates of that very corner. -/
theorem deposits_eq (grid : weighted_grid) (p : rvec) :
    deposits grid p
      = [corner_deposit grid p 0 0 0, corner_deposit grid p 1 0 0,
         corner_deposit grid p 1 1 0, corner_deposit grid p 0 1 0,
         corner_deposit grid p 0 1 1, corner_deposit grid p 0 0 1,
         corner_deposit grid p 1 0 1, corner_deposit grid p 1 1 1] := by
  simp only [deposits, corner_deposit, flat_index, vertex, distance2, List.cons.injEq,
    Prod.mk.injEq, and_true]
  push_cast
  refine ⟨⟨?_, ?_⟩, ⟨?_, ?_⟩, ⟨?_, ?_⟩, ⟨?_, ?_⟩, ⟨?_, ?_⟩, ⟨?_, ?_⟩, ⟨?_, ?_⟩, ⟨?_, ?_⟩⟩ <;> ring

theorem mem_deposits {grid : weighted_grid} {p : rvec} {d : ℤ × ℚ} (h : d ∈ deposits grid p) :
    ∃ a b c : ℤ, (a = 0 ∨ a = 1) ∧ (b = 0 ∨ b = 1) ∧ (c = 0 ∨ c = 1)
      ∧ d = corner_deposit grid p a b c := by
  rw [deposits_eq] at h
  simp only [List.mem_cons, List.mem_singleton, List.not_mem_nil, or_false] at h
  rcases h with h | h | h | h | h | h | h | h
  · exact ⟨0, 0, 0, by simp, by simp, by simp, h⟩
  · exact ⟨1, 0, 0, by simp, by simp, by simp, h⟩
  · exact ⟨1, 1, 0, by simp, by simp, by simp, h⟩
  · exact ⟨0, 1, 0, by simp, by simp, by simp, h⟩
  · exact ⟨0, 1, 1, by simp, by simp, by simp, h⟩
  · exact ⟨0, 0, 1, by simp, by simp, by simp, h⟩
  · exact ⟨1, 0, 1, by simp, by simp, by simp, h⟩
  · exact ⟨1, 1, 1, by simp, by simp, by simp, h⟩

/-- Row-major offsets of in-range vertices lie inside the block. -/
theorem flat_index_bounds {X Y Z a b c : ℤ} (ha : 0 ≤ a) (haX : a + 1 ≤ X)
    (hb : 0 ≤ b) (hbY : b + 1 ≤ Y) (hc : 0 ≤ c) (hcZ : c + 1 ≤ Z) :
    0 ≤ a * (Y * Z) + b * Z + c ∧ a * (Y * Z) + b * Z + c < X * Y * Z := by
  have hY : 0 ≤ Y := by linarith
  have hZ : 0 ≤ Z := by linarith
  have hYZ : 0 ≤ Y * Z := mul_nonneg hY hZ
  have h1 : 0 ≤ a * (Y * Z) := mul_nonneg ha hYZ
  have h2 : 0 ≤ b * Z := mul_nonneg hb hZ
  have h3 : (a + 1) * (Y * Z) ≤ X * (Y * Z) := mul_le_mul_of_nonneg_right haX hYZ
  have h4 : (b + 1) * Z ≤ Y * Z := mul_le_mul_of_nonneg_right hbY hZ
  constructor
  · linarith
  · nlinarith

/-- Along one axis: a coordinate between the scanned minimum and maximum falls
in a cell whose two vertices exist. -/
theorem axis_index_bounds {mn mx c cw : ℚ} (hcw : 0 < cw) (h1 : mn ≤ c) (h2 : c ≤ mx) :
    0 ≤ int_cast ((c - mn) / cw)
      ∧ int_cast ((c - mn) / cw) + 1 ≤ (int_cast ((mx - mn) / cw) + 2) - 1 := by
  have h0 : 0 ≤ (c - mn) / cw := div_nonneg (by linarith) hcw.le
  have hle : (c - mn) / cw ≤ (mx - mn) / cw :=
    div_le_div_of_nonneg_right (by linarith) hcw.le
  have := int_cast_mono h0 hle
  exact ⟨int_cast_nonneg h0, by linarith⟩

/-- Every atom of the scanned sequence lies between the scanned extrema. -/
theorem scan_extrema_bounds {x : ℕ → ℕ → rvec} {nframes natoms fr a : ℕ}
    (hfr : fr < nframes) (ha : a < natoms) :
    let e := scan_extrema x nframes natoms
    e.minx ≤ (x fr a).XX ∧ e.miny ≤ (x fr a).YY ∧ e.minz ≤ (x fr a).ZZ
      ∧ (x fr a).XX ≤ e.maxx ∧ (x fr a).YY ≤ e.maxy ∧ (x fr a).ZZ ≤ e.maxz := by
  intro e
  have hm : x fr a ∈ atoms x nframes natoms := mem_atoms.mpr ⟨fr, hfr, a, ha, rfl⟩
  have := (scan_foldl_bounds (atoms x nframes natoms) extrema_init).2 (x fr a) hm
  rw [← scan_extrema_eq_foldl] at this
  exact this

/-- The cell of an atom of the sequence that sized the grid has all of its
vertices inside the grid. -/
theorem cell_index_in_grid {x : ℕ → ℕ → rvec} {nframes natoms fr a : ℕ} {cw : ℚ}
    (hcw : 0 < cw) (hfr : fr < nframes) (ha : a < natoms) :
    let g := construct_grid x nframes natoms cw
    let c := cell_index g (x fr a)
    (0 ≤ c.1 ∧ c.1 + 1 ≤ g.dimx - 1) ∧ (0 ≤ c.2.1 ∧ c.2.1 + 1 ≤ g.dimy - 1)
      ∧ (0 ≤ c.2.2 ∧ c.2.2 + 1 ≤ g.dimz - 1) := by
  obtain ⟨h1, h2, h3, h4, h5, h6⟩ := scan_extrema_bounds (x := x) hfr ha
  exact ⟨axis_index_bounds hcw h1 h4, axis_index_bounds hcw h2 h5,
    axis_index_bounds hcw h3 h6⟩

/-- The offset of a corner of a cell whose vertices are inside the grid. -/
theorem corner_deposit_bounds {g : weighted_grid} {p : rvec} {a b c : ℤ}
    (hx : 0 ≤ (cell_index g p).1 ∧ (cell_index g p).1 + 1 ≤ g.dimx - 1)
    (hy : 0 ≤ (cell_index g p).2.1 ∧ (cell_index g p).2.1 + 1 ≤ g.dimy - 1)
    (hz : 0 ≤ (cell_index g p).2.2 ∧ (cell_index g p).2.2 + 1 ≤ g.dimz - 1)
    (ha : a = 0 ∨ a = 1) (hb : b = 0 ∨ b = 1) (hc : c = 0 ∨ c = 1) :
    0 ≤ (corner_deposit g p a b c).1
      ∧ (corner_deposit g p a b c).1 < g.dimx * g.dimy * g.dimz := by
  simp only [corner_deposit, flat_index]
  apply flat_index_bounds
  · rcases ha with rfl | rfl <;> linarith [hx.1]
  · rcases ha with rfl | rfl <;> linarith [hx.2]
  · rcases hb with rfl | rfl <;> linarith [hy.1]
  · rcases hb with rfl | rfl <;> linarith [hy.2]
  · rcases hc with rfl | rfl <;> linarith [hz.1]
  · rcases hc with rfl | rfl <;> linarith [hz.2]

theorem construct_grid_length (x : ℕ → ℕ → rvec) (nframes natoms : ℕ) (cw : ℚ) :
    let g := construct_grid x nframes natoms cw
    g.weights.length = (g.dimx * g.dimy * g.dimz).toNat := by
  simp [construct_grid, snew]

/-- Every update that `load_grid` makes for the sequence that sized the grid
stays inside the block that `construct_grid` allocated. -/
theorem sized_deposits_bounds {x : ℕ → ℕ → rvec} {nframes natoms : ℕ} {cw : ℚ}
    (hcw : 0 < cw) :
    let g := construct_grid x nframes natoms cw
    ∀ d ∈ (atoms x nframes natoms).flatMap (deposits g),
      0 ≤ d.1 ∧ d.1 < g.dimx * g.dimy * g.dimz ∧ d.1.toNat < g.weights.length := by
  intro g d hd
  obtain ⟨p, hp, hdp⟩ := List.mem_flatMap.mp hd
  obtain ⟨fr, hfr, a, ha, rfl⟩ := mem_atoms.mp hp
  obtain ⟨i, j, k, hi, hj, hk, rfl⟩ := mem_deposits hdp
  obtain ⟨hx, hy, hz⟩ := cell_index_in_grid (x := x) hcw hfr ha
  have hb := corner_deposit_bounds hx hy hz hi hj hk
  refine ⟨hb.1, hb.2, ?_⟩
  have hlen : g.weights.length = (g.dimx * g.dimy * g.dimz).toNat :=
    construct_grid_length x nframes natoms cw
  rw [hlen]
  have h1 := hb.1
  have h2 := hb.2
  exact (Int.toNat_lt_toNat (lt_of_le_of_lt h1 h2)).mpr h2

theorem int_cast_eq_of {r : ℚ} {z : ℤ} (h0 : 0 ≤ r) (h1 : (z : ℚ) ≤ r) (h2 : r < z + 1) :
    int_cast r = z := by
  rw [int_cast_of_nonneg h0]
  exact Int.floor_eq_iff.mpr ⟨h1, h2⟩

/-- Along one axis: the atom is at most one cell width away from both vertices
of its cell. -/
theorem axis_offset_sq_le {mn c cw : ℚ} (hcw : 0 < cw) (h : mn ≤ c) {a : ℤ}
    (ha : a = 0 ∨ a = 1) :
    (c - (mn + ((int_cast ((c - mn) / cw) + a : ℤ) : ℚ) * cw))
        * (c - (mn + ((int_cast ((c - mn) / cw) + a : ℤ) : ℚ) * cw)) ≤ cw * cw := by
  have h0 : 0 ≤ (c - mn) / cw := div_nonneg (by linarith) hcw.le
  rw [int_cast_of_nonneg h0]
  have hlo : (⌊(c - mn) / cw⌋ : ℚ) ≤ (c - mn) / cw := Int.floor_le _
  have hhi : (c - mn) / cw < ⌊(c - mn) / cw⌋ + 1 := Int.lt_floor_add_one _
  have hc : c - mn = (c - mn) / cw * cw := by field_simp
  set t := (c - mn) / cw with ht
  set k : ℚ := (⌊t⌋ : ℚ) with hk
  have e : c - (mn + ((⌊t⌋ + a : ℤ) : ℚ) * cw) = (t - k - a) * cw := by
    push_cast
    linear_combination hc
  rw [e]
  have hb : (t - k - a) * (t - k - a) ≤ 1 := by
    rcases ha with rfl | rfl
    · push_cast; nlinarith
    · push_cast; nlinarith
  have hcc : 0 ≤ cw * cw := mul_nonneg hcw.le hcw.le
  calc (t - k - a) * cw * ((t - k - a) * cw)
      = ((t - k - a) * (t - k - a)) * (cw * cw) := by ring
    _ ≤ 1 * (cw * cw) := mul_le_mul_of_nonneg_right hb hcc
    _ = cw * cw := one_mul _

/-- The value added at a corner of the cell of an atom that is not below the
origin of the grid is not negative. -/
theorem corner_deposit_nonneg {g : weighted_grid} {p : rvec} (hcw : 0 < g.cell_width)
    (hx : g.minx ≤ p.XX) (hy : g.miny ≤ p.YY) (hz : g.minz ≤ p.ZZ) {a b c : ℤ}
    (ha : a = 0 ∨ a = 1) (hb : b = 0 ∨ b = 1) (hc : c = 0 ∨ c = 1) :
    0 ≤ (corner_deposit g p a b c).2 := by
  have h1 := axis_offset_sq_le hcw hx ha
  have h2 := axis_offset_sq_le hcw hy hb
  have h3 := axis_offset_sq_le hcw hz hc
  simp only [corner_deposit, distance2, vertex, cell_index]
  linarith

theorem total_at_nonneg {ds : List (ℤ × ℚ)} (h : ∀ d ∈ ds, 0 ≤ d.2) (n : ℕ) :
    0 ≤ total_at ds n := by
  induction ds with
  | nil => simp [total_at_nil]
  | cons d t ih =>
    rw [total_at_cons]
    have h1 := h d (List.mem_cons_self _ _)
    have h2 := ih (fun e he => h e (List.mem_cons_of_mem _ he))
    split_ifs <;> linarith

theorem snew_getD (k : ℤ) (n : ℕ) : (snew k).getD n 0 = 0 := by
  simp only [snew, List.getD_eq_getElem?_getD, List.getElem?_replicate]
  split_ifs <;> rfl

theorem load_grid_eq_some {x : ℕ → ℕ → rvec} {nframes natoms : ℕ} {g g' : weighted_grid}
    (h : load_grid x nframes natoms g = some g') :
    apply_deposits g.weights ((atoms x nframes natoms).flatMap (deposits g)) = some g'.weights
      ∧ g' = { g with weights := g'.weights } := by
  unfold load_grid at h
  rw [load_weights_eq] at h
  cases hw : apply_deposits g.weights ((atoms x nframes natoms).flatMap (deposits g)) with
  | none => rw [hw] at h; simp at h
  | some w =>
    rw [hw] at h
    simp only [Option.map_some'] at h
    injection h with h
    subst h
    exact ⟨rfl, rfl⟩

/-- Loading the grid with the sequence that sized it completes. -/
theorem load_sized_grid {x : ℕ → ℕ → rvec} {nframes natoms : ℕ} {cw : ℚ} (hcw : 0 < cw) :
    ∃ g', load_grid x nframes natoms (construct_grid x nframes natoms cw) = some g' := by
  obtain ⟨w, hw⟩ := apply_deposits_of_bounds
    (w := (construct_grid x nframes natoms cw).weights)
    (fun d hd => ⟨(sized_deposits_bounds (x := x) hcw d hd).1,
      (sized_deposits_bounds (x := x) hcw d hd).2.2⟩)
  exact ⟨_, by rw [load_grid, load_weights_eq, hw]; rfl⟩

/-! ## Evaluation at concrete inputs, frames, lattice vertices -/

theorem construct_grid_centre :
    construct_grid centre_x 1 1 1 = centre_grid [0, 0, 0, 0, 0, 0, 0, 0] := by
  have h : scan_extrema centre_x 1 1 = ⟨1 / 2, 1 / 2, 1 / 2, 1 / 2, 1 / 2, 1 / 2⟩ := by
    simp [scan_extrema, scan_atom, extrema_init, FLT_MAX, FLT_MIN, List.range_succ,
      centre_x]
    norm_num
  simp only [construct_grid, h]
  simp [int_cast_zero, snew, List.replicate, centre_grid]

theorem f_tessellate_area_centre :
    f_tessellate_area centre_x 1 1 1 = some (centre_grid [3, 2, 2, 1, 2, 1, 1, 0]) := by
  rw [f_tessellate_area, construct_grid_centre]
  simp [centre_grid, centre_x, load_grid, load_weights, load_atom, deposits, cell_index,
    int_cast_zero, apply_deposits, add_at, distance2, List.range_succ]
  norm_num

theorem atoms_one_frame (A : ℕ → rvec) (natoms : ℕ) :
    atoms (one_frame A) 1 natoms = (List.range natoms).map A := by
  simp [atoms, one_frame, List.range_succ]

theorem atoms_two_frames (A B : ℕ → rvec) (natoms : ℕ) :
    atoms (two_frames A B) 2 natoms
      = atoms (one_frame A) 1 natoms ++ atoms (one_frame B) 1 natoms := by
  simp [atoms, one_frame, two_frames, List.range_succ]

theorem load_grid_eq (x : ℕ → ℕ → rvec) (nframes natoms : ℕ) (g : weighted_grid) :
    load_grid x nframes natoms g
      = (apply_deposits g.weights ((atoms x nframes natoms).flatMap (deposits g))).map
          (fun w => { g with weights := w }) := by
  rw [load_grid, load_weights_eq]

theorem zero_buffer_getD {w : List ℚ} (hz : ∀ v ∈ w, v = 0) (n : ℕ) : w.getD n 0 = 0 := by
  by_cases hn : n < w.length
  · have : w.getD n 0 = w[n] := by simp [List.getD_eq_getElem?_getD, hn]
    rw [this]
    exact hz _ (List.getElem_mem hn)
  · simp [List.getD_eq_getElem?_getD, List.getElem?_eq_none (not_lt.mp hn)]

theorem int_cast_intCast (z : ℤ) : int_cast (z : ℚ) = z := by
  unfold int_cast
  split_ifs <;> simp

theorem cell_index_vertex (g : weighted_grid) (hcw : 0 < g.cell_width) (i j k : ℤ) :
    cell_index g (vertex g i j k) = (i, j, k) := by
  have hne : g.cell_width ≠ 0 := ne_of_gt hcw
  have e : ∀ (m : ℚ) (z : ℤ), (m + z * g.cell_width - m) / g.cell_width = z := by
    intro m z
    field_simp
  simp only [cell_index, vertex, e, int_cast_intCast]

theorem total_at_eq_zero {ds : List (ℤ × ℚ)} {n : ℕ} (h : ∀ d ∈ ds, d.1 ≠ (n : ℤ)) :
    total_at ds n = 0 := by
  induction ds with
  | nil => rfl
  | cons d t ih =>
    rw [total_at_cons, if_neg (h d (List.mem_cons_self _ _)),
      ih (fun e he => h e (List.mem_cons_of_mem _ he)), add_zero]

/-- When no two updates of a run share an offset, the run adds at the offset of
each update exactly the value of that update. -/
theorem total_at_of_nodup {ds : List (ℤ × ℚ)} (hn : (ds.map Prod.fst).Nodup) {d : ℤ × ℚ}
    (hd : d ∈ ds) (h0 : 0 ≤ d.1) : total_at ds d.1.toNat = d.2 := by
  have hcast : ((d.1.toNat : ℕ) : ℤ) = d.1 := Int.toNat_of_nonneg h0
  induction ds with
  | nil => simp at hd
  | cons e t ih =>
    rw [List.map_cons, List.nodup_cons] at hn
    rw [total_at_cons, hcast]
    rcases List.mem_cons.mp hd with rfl | hd
    · rw [if_pos rfl, total_at_eq_zero, add_zero]
      intro f hf hc
      rw [hcast] at hc
      exact hn.1 (List.mem_map.mpr ⟨f, hf, hc⟩)
    · have hne : e.1 ≠ d.1 := by
        intro hc
        exact hn.1 (List.mem_map.mpr ⟨d, hd, hc.symm⟩)
      rw [if_neg hne, ih hn.2 hd, zero_add]

/-- The eight offsets written for one atom are pairwise different as soon as
the grid has two vertices along `y` and along `z`. -/
theorem deposits_nodup (g : weighted_grid) (p : rvec) (hy : 2 ≤ g.dimy) (hz : 2 ≤ g.dimz) :
    ((deposits g p).map Prod.fst).Nodup := by
  rw [deposits_eq]
  simp only [List.map_cons, List.map_nil, corner_deposit, flat_index]
  have hm : 2 * g.dimz ≤ g.dimy * g.dimz := mul_le_mul_of_nonneg_right hy (by linarith)
  generalize g.dimy * g.dimz = m at hm
  generalize (cell_index g p).1 = xi
  generalize (cell_index g p).2.1 = yi
  generalize (cell_index g p).2.2 = zi
  have e1 : (xi + 1) * m = xi * m + m := by ring
  have e2 : (yi + 1) * g.dimz = yi * g.dimz + g.dimz := by ring
  simp only [add_zero, e1, e2]
  generalize xi * m = P
  generalize yi * g.dimz = Q
  generalize g.dimz = Z at hz hm
  simp only [List.nodup_cons, List.mem_cons, List.mem_singleton, List.not_mem_nil,
    List.nodup_nil, not_or, not_false_eq_true, and_true]
  refine ⟨⟨?_, ?_, ?_, ?_, ?_, ?_, ?_⟩, ⟨?_, ?_, ?_, ?_, ?_, ?_⟩, ⟨?_, ?_, ?_, ?_, ?_⟩,
    ⟨?_, ?_, ?_, ?_⟩, ⟨?_, ?_, ?_⟩, ⟨?_, ?_⟩, ?_⟩ <;> omega

theorem atoms_of_empty (x : ℕ → ℕ → rvec) {nframes natoms : ℕ}
    (h : nframes = 0 ∨ natoms = 0) : atoms x nframes natoms = [] := by
  rcases h with rfl | rfl
  · simp [atoms]
  · simp [atoms]

theorem scan_extrema_of_empty (x : ℕ → ℕ → rvec) {nframes natoms : ℕ}
    (h : nframes = 0 ∨ natoms = 0) : scan_extrema x nframes natoms = extrema_init := by
  rw [scan_extrema_eq_foldl, atoms_of_empty x h]
  rfl

theorem total_at_perm {ds es : List (ℤ × ℚ)} (h : ds.Perm es) (n : ℕ) :
    total_at ds n = total_at es n := by
  unfold total_at
  exact ((h.filter _).map _).sum_eq

/-- The order of a run of updates is irrelevant, both for whether the run stays
inside the buffer and for what it leaves there. -/
theorem apply_deposits_perm {ds es : List (ℤ × ℚ)} (h : ds.Perm es) (w : List ℚ) :
    apply_deposits w ds = apply_deposits w es := by
  cases hd : apply_deposits w ds with
  | none =>
    cases he : apply_deposits w es with
    | none => rfl
    | some v =>
      exfalso
      obtain ⟨u, hu⟩ := @apply_deposits_of_bounds ds w
        (fun d hd' => (apply_deposits_eq_some he).2.1 d (h.mem_iff.mp hd'))
      rw [hu] at hd
      exact Option.noConfusion hd
  | some u =>
    obtain ⟨hl, hb, hg⟩ := apply_deposits_eq_some hd
    obtain ⟨v, hv⟩ := @apply_deposits_of_bounds es w
      (fun d hd' => hb d (h.mem_iff.mpr hd'))
    obtain ⟨hl2, -, hg2⟩ := apply_deposits_eq_some hv
    rw [hv]
    congr 1
    apply buffer_ext (hl.trans hl2.symm)
    intro n
    rw [hg n, hg2 n, total_at_perm h n]

theorem load_grid_perm {x y : ℕ → ℕ → rvec} {nf na mf ma : ℕ}
    (h : (atoms x nf na).Perm (atoms y mf ma)) (g : weighted_grid) :
    load_grid x nf na g = load_grid y mf ma g := by
  rw [load_grid_eq, load_grid_eq, apply_deposits_perm (h.flatMap_right (deposits g))]

/-- A map of `0 .. n-1` into itself without repetition lists `0 .. n-1` in
another order. -/
theorem range_map_perm {n : ℕ} {s : ℕ → ℕ} (hs : ∀ i, i < n → s i < n)
    (hinj : ∀ i, i < n → ∀ j, j < n → s i = s j → i = j) :
    ((List.range n).map s).Perm (List.range n) := by
  have hnd : ((List.range n).map s).Nodup := by
    apply List.Nodup.map_on _ (List.nodup_range n)
    intro i hi j hj hij
    exact hinj i (List.mem_range.mp hi) j (List.mem_range.mp hj) hij
  have hsub : (List.range n).map s ⊆ List.range n := by
    intro k hk
    obtain ⟨i, hi, rfl⟩ := List.mem_map.mp hk
    exact List.mem_range.mpr (hs i (List.mem_range.mp hi))
  exact (hnd.subperm hsub).perm_of_length_le (by simp)

theorem atoms_reorder_perm (x : ℕ → ℕ → rvec) {nframes natoms : ℕ} {s : ℕ → ℕ}
    {t : ℕ → ℕ → ℕ} (hs : ∀ i, i < nframes → s i < nframes)
    (hsinj : ∀ i, i < nframes → ∀ j, j < nframes → s i = s j → i = j)
    (ht : ∀ fr, fr < nframes → ∀ a, a < natoms → t fr a < natoms)
    (htinj : ∀ fr, fr < nframes → ∀ a, a < natoms → ∀ b, b < natoms →
      t fr a = t fr b → a = b) :
    (atoms (reorder x s t) nframes natoms).Perm (atoms x nframes natoms) := by
  have h1 : (atoms (reorder x s t) nframes natoms).Perm
      ((List.range nframes).flatMap (fun fr => (List.range natoms).map (x (s fr)))) := by
    unfold atoms
    apply List.Perm.flatMap_left
    intro fr hfr
    have hfr' := List.mem_range.mp hfr
    have := (range_map_perm (ht fr hfr') (htinj fr hfr')).map (x (s fr))
    rw [List.map_map] at this
    exact this
  have h2 : (List.range nframes).flatMap (fun fr => (List.range natoms).map (x (s fr)))
      = ((List.range nframes).map s).flatMap (fun fr => (List.range natoms).map (x fr)) := by
    rw [List.flatMap_map]
  refine h1.trans ?_
  rw [h2]
  exact (range_map_perm hs hsinj).flatMap_right _

theorem total_at_flatMap (l : List rvec) (f : rvec → List (ℤ × ℚ)) (n : ℕ) :
    total_at (l.flatMap f) n = (l.map (fun p => total_at (f p) n)).sum := by
  induction l with
  | nil => rfl
  | cons p t ih => rw [List.flatMap_cons, total_at_append, ih, List.map_cons, List.sum_cons]

theorem core_input_filter {pre_x : ℕ → ℕ → rvec} {nframes natoms isize : ℕ} {indx : ℕ → ℤ}
    (hid : ∀ j, j < isize → 0 ≤ indx j ∧ indx j < (natoms : ℤ)) :
    core_input pre_x nframes natoms (some (isize, indx))
      = some (fun i j => pre_x i (indx j).toNat, nframes, isize) := by
  simp only [core_input]
  rw [if_pos (Or.inr hid)]

theorem program_order_perm : program_order.Perm corners := by
  decide

theorem deposits_eq_program_order (g : weighted_grid) (p : rvec) :
    deposits g p = program_order.map (fun t => corner_deposit g p t.1 t.2.1 t.2.2) := by
  rw [deposits_eq]
  rfl

theorem deposits_perm_reference (g : weighted_grid) (p : rvec) :
    (deposits g p).Perm (reference_deposits g p) := by
  rw [deposits_eq_program_order]
  exact program_order_perm.map _

/-- While an offset is written, `grid_point` holds the coordinates of the
vertex with that offset. -/
theorem walk_eq (g : weighted_grid) (p : rvec) :
    walk g p = program_order.map (fun t =>
      (flat_index g ((cell_index g p).1 + t.1) ((cell_index g p).2.1 + t.2.1)
          ((cell_index g p).2.2 + t.2.2),
       vertex g ((cell_index g p).1 + t.1) ((cell_index g p).2.1 + t.2.1)
          ((cell_index g p).2.2 + t.2.2))) := by
  simp only [walk, program_order, List.map_cons, List.map_nil, flat_index, vertex,
    List.cons.injEq, Prod.mk.injEq, rvec.mk.injEq, and_true]
  push_cast
  refine ⟨⟨?_, ?_, ?_, ?_⟩, ⟨?_, ?_, ?_, ?_⟩, ⟨?_, ?_, ?_, ?_⟩, ⟨?_, ?_, ?_, ?_⟩,
    ⟨?_, ?_, ?_, ?_⟩, ⟨?_, ?_, ?_, ?_⟩, ⟨?_, ?_, ?_, ?_⟩, ⟨?_, ?_, ?_, ?_⟩⟩ <;> ring

theorem deposits_eq_walk (g : weighted_grid) (p : rvec) :
    deposits g p
      = (walk g p).map (fun s => (s.1, 3 * g.cell_width * g.cell_width - distance2 p s.2)) := by
  rfl

theorem mem_corners {a b c : ℤ} :
    (a, b, c) ∈ corners ↔ (a = 0 ∨ a = 1) ∧ (b = 0 ∨ b = 1) ∧ (c = 0 ∨ c = 1) := by
  simp only [corners, List.mem_cons, Prod.mk.injEq, List.mem_singleton, List.not_mem_nil,
    or_false]
  constructor
  · intro h
    rcases h with h | h | h | h | h | h | h | h <;>
      (obtain ⟨ha, hb, hc⟩ := h; subst ha hb hc; simp)
  · rintro ⟨rfl | rfl, rfl | rfl, rfl | rfl⟩ <;> simp

theorem corner_deposit_mem {g : weighted_grid} {p : rvec} {a b c : ℤ}
    (ha : a = 0 ∨ a = 1) (hb : b = 0 ∨ b = 1) (hc : c = 0 ∨ c = 1) :
    corner_deposit g p a b c ∈ deposits g p := by
  rw [deposits_eq]
  rcases ha with rfl | rfl <;> rcases hb with rfl | rfl <;> rcases hc with rfl | rfl <;> simp

/-- The effect of the eight updates for an atom whose cell lies inside the grid:
they complete, each corner of the cell receives the value of its own update on
top of its previous weight, and every other entry keeps its weight. -/
theorem load_atom_in_bounds {g : weighted_grid} {p : rvec} {w : List ℚ}
    (hx : 0 ≤ (cell_index g p).1 ∧ (cell_index g p).1 + 1 ≤ g.dimx - 1)
    (hy : 0 ≤ (cell_index g p).2.1 ∧ (cell_index g p).2.1 + 1 ≤ g.dimy - 1)
    (hz : 0 ≤ (cell_index g p).2.2 ∧ (cell_index g p).2.2 + 1 ≤ g.dimz - 1)
    (hw : w.length = (g.dimx * g.dimy * g.dimz).toNat) :
    ∃ w', load_atom g w p = some w' ∧ w'.length = w.length
      ∧ (∀ a b c : ℤ, (a = 0 ∨ a = 1) → (b = 0 ∨ b = 1) → (c = 0 ∨ c = 1) →
          w'.getD (corner_deposit g p a b c).1.toNat 0
            = w.getD (corner_deposit g p a b c).1.toNat 0 + (corner_deposit g p a b c).2)
      ∧ (∀ n : ℕ, (∀ a b c : ℤ, (a = 0 ∨ a = 1) → (b = 0 ∨ b = 1) → (c = 0 ∨ c = 1) →
            (corner_deposit g p a b c).1 ≠ (n : ℤ)) → w'.getD n 0 = w.getD n 0)
      ∧ ∀ n : ℕ, w'.getD n 0 = w.getD n 0 + total_at (deposits g p) n := by
  have hbounds : ∀ d ∈ deposits g p, 0 ≤ d.1 ∧ d.1.toNat < w.length := by
    intro d hd
    obtain ⟨a, b, c, ha, hb, hc, rfl⟩ := mem_deposits hd
    have hb := corner_deposit_bounds hx hy hz ha hb hc
    rw [hw]
    exact ⟨hb.1, (Int.toNat_lt_toNat (lt_of_le_of_lt hb.1 hb.2)).mpr hb.2⟩
  obtain ⟨w', hw'⟩ := apply_deposits_of_bounds hbounds
  obtain ⟨hl, -, hg⟩ := apply_deposits_eq_some hw'
  have hnd := deposits_nodup g p (by linarith [hy.1, hy.2]) (by linarith [hz.1, hz.2])
  refine ⟨w', hw', hl, ?_, ?_, hg⟩
  · intro a b c ha hb hc
    rw [hg, total_at_of_nodup hnd (corner_deposit_mem ha hb hc)
      (corner_deposit_bounds hx hy hz ha hb hc).1]
  · intro n hn
    rw [hg, total_at_eq_zero, add_zero]
    intro d hd
    obtain ⟨a, b, c, ha, hb, hc, rfl⟩ := mem_deposits hd
    exact hn a b c ha hb hc

theorem extremum_eq_max {l : List rvec} {c : rvec → ℚ} {r s M : ℚ} (hs : s ≤ r)
    (hall : ∀ p ∈ l, c p ≤ r) (hatt : r = s ∨ ∃ p ∈ l, r = c p)
    (hM : ∀ p ∈ l, c p ≤ M) (hMatt : ∃ p ∈ l, c p = M) : r = max s M := by
  obtain ⟨q, hq, hqM⟩ := hMatt
  apply le_antisymm
  · rcases hatt with h | ⟨p, hp, h⟩
    · rw [h]; exact le_max_left _ _
    · rw [h]; exact le_trans (hM p hp) (le_max_right _ _)
  · exact max_le hs (hqM ▸ hall q hq)

theorem extremum_eq_min {l : List rvec} {c : rvec → ℚ} {r s m : ℚ} (hs : r ≤ s)
    (hall : ∀ p ∈ l, r ≤ c p) (hatt : r = s ∨ ∃ p ∈ l, r = c p)
    (hm : ∀ p ∈ l, m ≤ c p) (hmatt : ∃ p ∈ l, c p = m) : r = min s m := by
  obtain ⟨q, hq, hqm⟩ := hmatt
  apply le_antisymm
  · exact le_min hs (hqm ▸ hall q hq)
  · rcases hatt with h | ⟨p, hp, h⟩
    · rw [h]; exact min_le_left _ _
    · rw [h]; exact le_trans (min_le_right _ _) (hm p hp)

theorem is_largest_atoms {x : ℕ → ℕ → rvec} {nframes natoms : ℕ} {c : rvec → ℚ} {M : ℚ}
    (h : is_largest x nframes natoms c M) :
    (∀ p ∈ atoms x nframes natoms, c p ≤ M) ∧ ∃ p ∈ atoms x nframes natoms, c p = M := by
  constructor
  · intro p hp
    obtain ⟨fr, hfr, a, ha, rfl⟩ := mem_atoms.mp hp
    exact h.1 fr a hfr ha
  · obtain ⟨fr, a, hfr, ha, hM⟩ := h.2
    exact ⟨x fr a, mem_atoms.mpr ⟨fr, hfr, a, ha, rfl⟩, hM⟩

theorem is_smallest_atoms {x : ℕ → ℕ → rvec} {nframes natoms : ℕ} {c : rvec → ℚ} {m : ℚ}
    (h : is_smallest x nframes natoms c m) :
    (∀ p ∈ atoms x nframes natoms, m ≤ c p) ∧ ∃ p ∈ atoms x nframes natoms, c p = m := by
  constructor
  · intro p hp
    obtain ⟨fr, hfr, a, ha, rfl⟩ := mem_atoms.mp hp
    exact h.1 fr a hfr ha
  · obtain ⟨fr, a, hfr, ha, hM⟩ := h.2
    exact ⟨x fr a, mem_atoms.mpr ⟨fr, hfr, a, ha, rfl⟩, hM⟩

/-- The maxima that `construct_grid` computes are the larger of the seed
`FLT_MIN` and the largest coordinate. -/
theorem scan_extrema_max {x : ℕ → ℕ → rvec} {nframes natoms : ℕ} {Mx My Mz : ℚ}
    (hx : is_largest x nframes natoms rvec.XX Mx)
    (hy : is_largest x nframes natoms rvec.YY My)
    (hz : is_largest x nframes natoms rvec.ZZ Mz) :
    (scan_extrema x nframes natoms).maxx = max FLT_MIN Mx
      ∧ (scan_extrema x nframes natoms).maxy = max FLT_MIN My
      ∧ (scan_extrema x nframes natoms).maxz = max FLT_MIN Mz := by
  obtain ⟨⟨-, -, -, s4, s5, s6⟩, hall⟩ :=
    scan_foldl_bounds (atoms x nframes natoms) extrema_init
  obtain ⟨-, -, -, a4, a5, a6⟩ := scan_foldl_attained (atoms x nframes natoms) extrema_init
  rw [← scan_extrema_eq_foldl] at s4 s5 s6 hall a4 a5 a6
  exact ⟨extremum_eq_max s4 (fun p hp => (hall p hp).2.2.2.1) a4
      (is_largest_atoms hx).1 (is_largest_atoms hx).2,
    extremum_eq_max s5 (fun p hp => (hall p hp).2.2.2.2.1) a5
      (is_largest_atoms hy).1 (is_largest_atoms hy).2,
    extremum_eq_max s6 (fun p hp => (hall p hp).2.2.2.2.2) a6
      (is_largest_atoms hz).1 (is_largest_atoms hz).2⟩

/-- The minima that `construct_grid` computes are the smaller of the seed
`FLT_MAX` and the smallest coordinate. -/
theorem scan_extrema_min {x : ℕ → ℕ → rvec} {nframes natoms : ℕ} {mx my mz : ℚ}
    (hx : is_smallest x nframes natoms rvec.XX mx)
    (hy : is_smallest x nframes natoms rvec.YY my)
    (hz : is_smallest x nframes natoms rvec.ZZ mz) :
    (scan_extrema x nframes natoms).minx = min FLT_MAX mx
      ∧ (scan_extrema x nframes natoms).miny = min FLT_MAX my
      ∧ (scan_extrema x nframes natoms).minz = min FLT_MAX mz := by
  obtain ⟨⟨s1, s2, s3, -, -, -⟩, hall⟩ :=
    scan_foldl_bounds (atoms x nframes natoms) extrema_init
  obtain ⟨a1, a2, a3, -, -, -⟩ := scan_foldl_attained (atoms x nframes natoms) extrema_init
  rw [← scan_extrema_eq_foldl] at s1 s2 s3 hall a1 a2 a3
  exact ⟨extremum_eq_min s1 (fun p hp => (hall p hp).1) a1
      (is_smallest_atoms hx).1 (is_smallest_atoms hx).2,
    extremum_eq_min s2 (fun p hp => (hall p hp).2.1) a2
      (is_smallest_atoms hy).1 (is_smallest_atoms hy).2,
    extremum_eq_min s3 (fun p hp => (hall p hp).2.2.1) a3
      (is_smallest_atoms hz).1 (is_smallest_atoms hz).2⟩

theorem smallest_le_largest {x : ℕ → ℕ → rvec} {nframes natoms : ℕ} {c : rvec → ℚ} {m M : ℚ}
    (hm : is_smallest x nframes natoms c m) (hM : is_largest x nframes natoms c M) :
    m ≤ M := by
  obtain ⟨fr, a, hfr, ha, h⟩ := hm.2
  rw [← h]
  exact hM.1 fr a hfr ha

/-- Along one axis: the cast of a non-negative quotient is its floor, and the
cell it selects encloses the coordinate. -/
theorem axis_enclosure {mn c cw : ℚ} (hcw : 0 < cw) (h : mn ≤ c) :
    int_cast ((c - mn) / cw) = ⌊(c - mn) / cw⌋
      ∧ mn + (int_cast ((c - mn) / cw) : ℚ) * cw ≤ c
      ∧ c < mn + ((int_cast ((c - mn) / cw) : ℚ) + 1) * cw := by
  have h0 : 0 ≤ (c - mn) / cw := div_nonneg (by linarith) hcw.le
  rw [int_cast_of_nonneg h0]
  have hlo : (⌊(c - mn) / cw⌋ : ℚ) ≤ (c - mn) / cw := Int.floor_le _
  have hhi : (c - mn) / cw < ⌊(c - mn) / cw⌋ + 1 := Int.lt_floor_add_one _
  refine ⟨rfl, ?_, ?_⟩
  · have := (le_div_iff₀ hcw).mp hlo
    linarith
  · have := (div_lt_iff₀ hcw).mp hhi
    linarith

/-- Every value that `load_grid` adds for an atom of the sequence that sized
the grid is non-negative. -/
theorem sized_deposits_nonneg {x : ℕ → ℕ → rvec} {nframes natoms fr a : ℕ} {cw : ℚ}
    (hcw : 0 < cw) (hfr : fr < nframes) (ha : a < natoms) :
    ∀ d ∈ deposits (construct_grid x nframes natoms cw) (x fr a), 0 ≤ d.2 := by
  intro d hd
  obtain ⟨i, j, k, hi, hj, hk, rfl⟩ := mem_deposits hd
  obtain ⟨h1, h2, h3, -⟩ := scan_extrema_bounds (x := x) hfr ha
  exact corner_deposit_nonneg (g := construct_grid x nframes natoms cw) hcw h1 h2 h3 hi hj hk

theorem load_grid_none_of_mem {x : ℕ → ℕ → rvec} {nframes natoms fr a : ℕ}
    {g : weighted_grid} {d : ℤ × ℚ} (hfr : fr < nframes) (ha : a < natoms)
    (hd : d ∈ deposits g (x fr a)) (hout : d.1 < 0 ∨ (g.weights.length : ℤ) ≤ d.1) :
    load_grid x nframes natoms g = none := by
  cases h : load_grid x nframes natoms g with
  | none => rfl
  | some g' =>
    exfalso
    obtain ⟨hap, -⟩ := load_grid_eq_some h
    obtain ⟨-, hb, -⟩ := apply_deposits_eq_some hap
    have := hb d (List.mem_flatMap.mpr ⟨x fr a, mem_atoms.mpr ⟨fr, hfr, a, ha, rfl⟩, hd⟩)
    rcases hout with h1 | h2
    · linarith [this.1]
    · have h3 : d.1 = (d.1.toNat : ℤ) := (Int.toNat_of_nonneg this.1).symm
      have h4 : (d.1.toNat : ℤ) < (g.weights.length : ℤ) := by exact_mod_cast this.2
      linarith

/-- Two numbers with the same quotient and remainder by `Z` are equal, stated
on the representation `a * Z + z` with `0 <= z < Z`. -/
theorem pair_inj {Z a z b y : ℤ} (hz : 0 ≤ z) (hzZ : z < Z) (hy : 0 ≤ y) (hyZ : y < Z)
    (h : a * Z + z = b * Z + y) : a = b ∧ z = y := by
  have hab : a = b := by
    rcases lt_trichotomy a b with hlt | heq | hgt
    · exfalso
      have : (a + 1) * Z ≤ b * Z := mul_le_mul_of_nonneg_right (by linarith) (by linarith)
      nlinarith
    · exact heq
    · exfalso
      have : (b + 1) * Z ≤ a * Z := mul_le_mul_of_nonneg_right (by linarith) (by linarith)
      nlinarith
  subst hab
  exact ⟨rfl, by linarith⟩

theorem flat_index_inj {g : weighted_grid} {x y z u v w : ℤ}
    (hy : 0 ≤ y ∧ y < g.dimy) (hz : 0 ≤ z ∧ z < g.dimz)
    (hv : 0 ≤ v ∧ v < g.dimy) (hw : 0 ≤ w ∧ w < g.dimz)
    (h : flat_index g x y z = flat_index g u v w) : x = u ∧ y = v ∧ z = w := by
  simp only [flat_index] at h
  have h' : (x * g.dimy + y) * g.dimz + z = (u * g.dimy + v) * g.dimz + w := by
    linear_combination h
  obtain ⟨h1, h2⟩ := pair_inj hz.1 hz.2 hw.1 hw.2 h'
  obtain ⟨h3, h4⟩ := pair_inj hy.1 hy.2 hv.1 hv.2 h1
  exact ⟨h3, h4, h2⟩

/-! ## Rounding to binary32 -/

theorem round_even_bounds (y : ℚ) : ⌊y⌋ ≤ round_even y ∧ round_even y ≤ ⌊y⌋ + 1 := by
  unfold round_even
  split_ifs <;> constructor <;> omega

theorem round_even_mono {y z : ℚ} (h : y ≤ z) : round_even y ≤ round_even z := by
  have hf : ⌊y⌋ ≤ ⌊z⌋ := Int.floor_le_floor h
  rcases eq_or_lt_of_le hf with he | hl
  · unfold round_even
    rw [he]
    have hd : y - ⌊z⌋ ≤ z - ⌊z⌋ := by linarith
    split_ifs <;> first | omega | (exfalso; linarith)
  · have h1 := (round_even_bounds y).2
    have h2 := (round_even_bounds z).1
    omega

theorem round_even_intCast (n : ℤ) : round_even (n : ℚ) = n := by
  unfold round_even
  simp

theorem round_even_zero : round_even 0 = 0 := by
  have := round_even_intCast 0
  simpa using this

theorem ulp32_pos (x : ℚ) : 0 < ulp32 x := by
  unfold ulp32
  positivity

theorem floor_log2_fuel_eq : ∀ (fuel n : ℕ), n ≤ fuel → floor_log2_fuel fuel n = Nat.log2 n := by
  intro fuel
  induction fuel with
  | zero =>
    intro n hn
    have : n = 0 := by omega
    subst this
    simp [floor_log2_fuel, Nat.log2_zero]
  | succ f ih =>
    intro n hn
    rw [floor_log2_fuel, Nat.log2]
    by_cases h : 2 ≤ n
    · rw [if_pos h, if_pos h, ih (n / 2) (by omega)]
    · rw [if_neg h, if_neg h]

theorem floor_log2_eq (n : ℕ) : floor_log2 n = Nat.log2 n :=
  floor_log2_fuel_eq n n (le_refl n)

/-- The exponent computed from the bit lengths is the binary logarithm rounded
down. -/
theorem binade32_spec {x : ℚ} (hx : x ≠ 0) :
    (2 : ℚ) ^ binade32 x ≤ |x| ∧ |x| < (2 : ℚ) ^ (binade32 x + 1) := by
  have hn : x.num.natAbs ≠ 0 := by
    intro h
    exact hx (Rat.num_eq_zero.mp (Int.natAbs_eq_zero.mp h))
  have hd : x.den ≠ 0 := x.den_nz
  have hdpos : (0 : ℚ) < x.den := by exact_mod_cast Nat.pos_of_ne_zero hd
  have habs : |x| = (x.num.natAbs : ℚ) / (x.den : ℚ) := by
    have h1 : x = (x.num : ℚ) / (x.den : ℚ) := (Rat.num_div_den x).symm
    have h2 : |(x.num : ℚ)| = (x.num.natAbs : ℚ) := by
      rw [Nat.cast_natAbs, Int.cast_abs]
    calc |x| = |(x.num : ℚ) / (x.den : ℚ)| := by rw [← h1]
      _ = |(x.num : ℚ)| / (x.den : ℚ) := by rw [abs_div, abs_of_pos hdpos]
      _ = (x.num.natAbs : ℚ) / (x.den : ℚ) := by rw [h2]
  have n1 : ((2 : ℚ) ^ (Nat.log2 x.num.natAbs : ℤ)) ≤ (x.num.natAbs : ℚ) := by
    rw [zpow_natCast]
    exact_mod_cast Nat.log2_self_le hn
  have n2 : (x.num.natAbs : ℚ) < (2 : ℚ) ^ ((Nat.log2 x.num.natAbs : ℤ) + 1) := by
    have : x.num.natAbs < 2 ^ (Nat.log2 x.num.natAbs + 1) := Nat.lt_log2_self
    have e : ((Nat.log2 x.num.natAbs : ℤ) + 1) = ((Nat.log2 x.num.natAbs + 1 : ℕ) : ℤ) := by
      push_cast
      rfl
    rw [e, zpow_natCast]
    exact_mod_cast this
  have d1 : ((2 : ℚ) ^ (Nat.log2 x.den : ℤ)) ≤ (x.den : ℚ) := by
    rw [zpow_natCast]
    exact_mod_cast Nat.log2_self_le hd
  have d2 : (x.den : ℚ) < (2 : ℚ) ^ ((Nat.log2 x.den : ℤ) + 1) := by
    have : x.den < 2 ^ (Nat.log2 x.den + 1) := Nat.lt_log2_self
    have e : ((Nat.log2 x.den : ℤ) + 1) = ((Nat.log2 x.den + 1 : ℕ) : ℤ) := by
      push_cast
      rfl
    rw [e, zpow_natCast]
    exact_mod_cast this
  have two : (2 : ℚ) ≠ 0 := by norm_num
  have pa : (0 : ℚ) < (2 : ℚ) ^ (Nat.log2 x.num.natAbs : ℤ) := by positivity
  have pb : (0 : ℚ) < (2 : ℚ) ^ (Nat.log2 x.den : ℤ) := by positivity
  -- |x| < 2^(a - b + 1) and 2^(a - b - 1) < |x|
  have up : |x| < (2 : ℚ) ^ ((Nat.log2 x.num.natAbs : ℤ) - (Nat.log2 x.den : ℤ) + 1) := by
    rw [habs, div_lt_iff₀ hdpos]
    have e : (2 : ℚ) ^ ((Nat.log2 x.num.natAbs : ℤ) - (Nat.log2 x.den : ℤ) + 1)
        = (2 : ℚ) ^ ((Nat.log2 x.num.natAbs : ℤ) + 1) / (2 : ℚ) ^ (Nat.log2 x.den : ℤ) := by
      rw [← zpow_sub₀ two]
      congr 1
      ring
    rw [e, div_mul_eq_mul_div, lt_div_iff₀ pb]
    calc (x.num.natAbs : ℚ) * (2 : ℚ) ^ (Nat.log2 x.den : ℤ)
        ≤ (x.num.natAbs : ℚ) * (x.den : ℚ) :=
          mul_le_mul_of_nonneg_left d1 (by positivity)
      _ < (2 : ℚ) ^ ((Nat.log2 x.num.natAbs : ℤ) + 1) * (x.den : ℚ) :=
          mul_lt_mul_of_pos_right n2 hdpos
  have lo : (2 : ℚ) ^ ((Nat.log2 x.num.natAbs : ℤ) - (Nat.log2 x.den : ℤ) - 1) ≤ |x| := by
    rw [habs, le_div_iff₀ hdpos]
    have e : (2 : ℚ) ^ ((Nat.log2 x.num.natAbs : ℤ) - (Nat.log2 x.den : ℤ) - 1)
        = (2 : ℚ) ^ (Nat.log2 x.num.natAbs : ℤ) / (2 : ℚ) ^ ((Nat.log2 x.den : ℤ) + 1) := by
      rw [← zpow_sub₀ two]
      congr 1
      ring
    have pb1 : (0 : ℚ) < (2 : ℚ) ^ ((Nat.log2 x.den : ℤ) + 1) := by positivity
    rw [e, div_mul_eq_mul_div, div_le_iff₀ pb1]
    calc (2 : ℚ) ^ (Nat.log2 x.num.natAbs : ℤ) * (x.den : ℚ)
        ≤ (x.num.natAbs : ℚ) * (x.den : ℚ) := mul_le_mul_of_nonneg_right n1 hdpos.le
      _ ≤ (x.num.natAbs : ℚ) * (2 : ℚ) ^ ((Nat.log2 x.den : ℤ) + 1) :=
          mul_le_mul_of_nonneg_left d2.le (by positivity)
  unfold binade32
  rw [floor_log2_eq, floor_log2_eq]
  split_ifs with h
  · exact ⟨h, up⟩
  · refine ⟨lo, ?_⟩
    have : (Nat.log2 x.num.natAbs : ℤ) - (Nat.log2 x.den : ℤ) - 1 + 1
        = (Nat.log2 x.num.natAbs : ℤ) - (Nat.log2 x.den : ℤ) := by ring
    rw [this]
    exact not_le.mp h

theorem binade32_eq_log {x : ℚ} (hx : x ≠ 0) : binade32 x = Int.log 2 |x| := by
  obtain ⟨h1, h2⟩ := binade32_spec hx
  have hpos : 0 < |x| := abs_pos.mpr hx
  apply le_antisymm
  · exact (Int.zpow_le_iff_le_log (b := 2) (by norm_num) hpos).mp (by exact_mod_cast h1)
  · have := (Int.lt_zpow_iff_log_lt (b := 2) (by norm_num) hpos).mp (by exact_mod_cast h2)
    omega

theorem ulp32_eq {x : ℚ} (hx : x ≠ 0) :
    ulp32 x = (2 : ℚ) ^ (max (Int.log 2 |x|) (-126) - 23) := by
  unfold ulp32
  rw [binade32_eq_log hx]

theorem fl32_zero : fl32 0 = 0 := by
  simp [fl32, round_even_zero]

theorem fl32_nonneg {x : ℚ} (h : 0 ≤ x) : 0 ≤ fl32 x := by
  unfold fl32
  have h1 : 0 ≤ x / ulp32 x := div_nonneg h (ulp32_pos x).le
  have h2 : round_even 0 ≤ round_even (x / ulp32 x) := round_even_mono h1
  rw [round_even_zero] at h2
  exact mul_nonneg (by exact_mod_cast h2) (ulp32_pos x).le

theorem fl32_nonpos {x : ℚ} (h : x ≤ 0) : fl32 x ≤ 0 := by
  unfold fl32
  have h1 : x / ulp32 x ≤ 0 := div_nonpos_of_nonpos_of_nonneg h (ulp32_pos x).le
  have h2 : round_even (x / ulp32 x) ≤ round_even 0 := round_even_mono h1
  rw [round_even_zero] at h2
  exact mul_nonpos_of_nonpos_of_nonneg (by exact_mod_cast h2) (ulp32_pos x).le

/-- Rounding to binary32 preserves the order of non-negative numbers. -/
theorem fl32_mono {x y : ℚ} (h0 : 0 ≤ x) (h : x ≤ y) : fl32 x ≤ fl32 y := by
  rcases eq_or_lt_of_le h0 with hx0 | hxpos
  · rw [← hx0, fl32_zero]
    exact fl32_nonneg (le_trans h0 h)
  have hypos : 0 < y := lt_of_lt_of_le hxpos h
  have hlog : Int.log 2 |x| ≤ Int.log 2 |y| := by
    rw [abs_of_pos hxpos, abs_of_pos hypos]
    exact Int.log_mono_right hxpos h
  have he : max (Int.log 2 |x|) (-126) ≤ max (Int.log 2 |y|) (-126) :=
    max_le_max hlog (le_refl _)
  rcases eq_or_lt_of_le he with heq | hlt
  · have hu : ulp32 x = ulp32 y := by
      rw [ulp32_eq (ne_of_gt hxpos), ulp32_eq (ne_of_gt hypos), heq]
    unfold fl32
    rw [hu]
    have hq : x / ulp32 y ≤ y / ulp32 y := div_le_div_of_nonneg_right h (ulp32_pos y).le
    have := round_even_mono hq
    exact mul_le_mul_of_nonneg_right (by exact_mod_cast this) (ulp32_pos y).le
  · -- the binades differ: a power of two separates the two rounded values
    set ex := max (Int.log 2 |x|) (-126) with hex
    set ey := max (Int.log 2 |y|) (-126) with hey
    have hey' : ey = Int.log 2 |y| := by
      have : (-126 : ℤ) ≤ ex := le_max_right _ _
      have h126 : (-126 : ℤ) < ey := lt_of_le_of_lt this hlt
      rcases max_choice (Int.log 2 |y|) (-126) with hc | hc
      · exact hc
      · exfalso
        rw [← hey] at hc
        omega
    have hylow : (2 : ℚ) ^ ey ≤ y := by
      rw [hey', abs_of_pos hypos]
      exact_mod_cast Int.zpow_log_le_self (b := 2) (by norm_num) hypos
    have hxup : x ≤ (2 : ℚ) ^ (ex + 1) := by
      have h1 : x < (2 : ℚ) ^ (Int.log 2 x + 1) := by
        exact_mod_cast Int.lt_zpow_succ_log_self (b := 2) (by norm_num) x
      have h2 : (2 : ℚ) ^ (Int.log 2 x + 1) ≤ (2 : ℚ) ^ (ex + 1) := by
        apply zpow_le_zpow_right₀ (by norm_num)
        have : Int.log 2 x ≤ ex := by
          rw [hex, abs_of_pos hxpos]
          exact le_max_left _ _
        omega
      linarith
    have hmid : (2 : ℚ) ^ (ex + 1) ≤ (2 : ℚ) ^ ey :=
      zpow_le_zpow_right₀ (by norm_num) (by omega)
    have hfx : fl32 x ≤ (2 : ℚ) ^ (ex + 1) := by
      have hu : ulp32 x = (2 : ℚ) ^ (ex - 23) := ulp32_eq (ne_of_gt hxpos)
      have hq : x / ulp32 x ≤ ((2 ^ 24 : ℤ) : ℚ) := by
        rw [div_le_iff₀ (ulp32_pos x), hu]
        have : (((2 ^ 24 : ℤ) : ℚ)) * (2 : ℚ) ^ (ex - 23) = (2 : ℚ) ^ (ex + 1) := by
          have : ((2 ^ 24 : ℤ) : ℚ) = (2 : ℚ) ^ (24 : ℤ) := by norm_num
          rw [this, ← zpow_add₀ (by norm_num : (2 : ℚ) ≠ 0)]
          congr 1
          ring
        rw [this]
        exact hxup
      have := round_even_mono hq
      rw [round_even_intCast] at this
      unfold fl32
      calc (round_even (x / ulp32 x) : ℚ) * ulp32 x
          ≤ ((2 ^ 24 : ℤ) : ℚ) * ulp32 x :=
            mul_le_mul_of_nonneg_right (by exact_mod_cast this) (ulp32_pos x).le
        _ = (2 : ℚ) ^ (ex + 1) := by
            rw [hu]
            have : ((2 ^ 24 : ℤ) : ℚ) = (2 : ℚ) ^ (24 : ℤ) := by norm_num
            rw [this, ← zpow_add₀ (by norm_num : (2 : ℚ) ≠ 0)]
            congr 1
            ring
    have hfy : (2 : ℚ) ^ ey ≤ fl32 y := by
      have hu : ulp32 y = (2 : ℚ) ^ (ey - 23) := ulp32_eq (ne_of_gt hypos)
      have e23 : ((2 ^ 23 : ℤ) : ℚ) * (2 : ℚ) ^ (ey - 23) = (2 : ℚ) ^ ey := by
        have : ((2 ^ 23 : ℤ) : ℚ) = (2 : ℚ) ^ (23 : ℤ) := by norm_num
        rw [this, ← zpow_add₀ (by norm_num : (2 : ℚ) ≠ 0)]
        congr 1
        ring
      have hq : ((2 ^ 23 : ℤ) : ℚ) ≤ y / ulp32 y := by
        rw [le_div_iff₀ (ulp32_pos y), hu, e23]
        exact hylow
      have := round_even_mono hq
      rw [round_even_intCast] at this
      unfold fl32
      calc (2 : ℚ) ^ ey = ((2 ^ 23 : ℤ) : ℚ) * ulp32 y := by rw [hu, e23]
        _ ≤ (round_even (y / ulp32 y) : ℚ) * ulp32 y :=
            mul_le_mul_of_nonneg_right (by exact_mod_cast this) (ulp32_pos y).le
    linarith
/-! ## The machine reading: results of operations -/

theorem int_result_eq_some {n m : ℤ} :
    int_result n = some m ↔ m = n ∧ INT_MIN ≤ n ∧ n ≤ INT_MAX := by
  unfold int_result
  split_ifs with h
  · simp only [Option.some.injEq]
    constructor
    · intro e; exact ⟨e.symm, h⟩
    · intro e; exact e.1.symm
  · simp only [false_iff, not_and]
    intro _ h1 h2
    exact h ⟨h1, h2⟩

theorem int_result_of_range {n : ℤ} (h1 : INT_MIN ≤ n) (h2 : n ≤ INT_MAX) :
    int_result n = some n :=
  int_result_eq_some.mpr ⟨rfl, h1, h2⟩

theorem float_result_eq_some {x r : ℚ} :
    float_result x = some r ↔ r = fl32 x ∧ |fl32 x| ≤ FLT_MAX := by
  unfold float_result
  split_ifs with h
  · simp only [Option.some.injEq]
    constructor
    · intro e; exact ⟨e.symm, h⟩
    · intro e; exact e.1.symm
  · simp only [false_iff, not_and]
    intro _ h1
    exact h h1

theorem float_result_zero : float_result 0 = some 0 := by
  rw [float_result_eq_some, fl32_zero]
  exact ⟨rfl, by norm_num [FLT_MAX]⟩

/-- A non-negative exact value below one whose rounding is finite has a finite
rounding itself. -/
theorem float_result_of_le {x y r : ℚ} (h0 : 0 ≤ x) (h : x ≤ y)
    (hy : float_result y = some r) :
    float_result x = some (fl32 x) ∧ 0 ≤ fl32 x ∧ fl32 x ≤ r := by
  obtain ⟨hr, hfin⟩ := float_result_eq_some.mp hy
  have h1 := fl32_nonneg h0
  have h2 := fl32_mono h0 h
  have h3 : fl32 y ≤ FLT_MAX := le_trans (le_abs_self _) hfin
  refine ⟨float_result_eq_some.mpr ⟨rfl, ?_⟩, h1, by rw [hr]; exact h2⟩
  rw [abs_of_nonneg h1]
  linarith

theorem fdiv_eq_some {a b q : ℚ} :
    fdiv a b = some q ↔ b ≠ 0 ∧ float_result (a / b) = some q := by
  unfold fdiv
  split_ifs with h
  · simp [h]
  · simp [h]

theorem int_cast_nonpos {r : ℚ} (h : r ≤ 0) : int_cast r ≤ 0 := by
  unfold int_cast
  split_ifs with h0
  · have : r = 0 := le_antisymm h h0
    rw [this]
    simp
  · exact Int.ceil_le.mpr (by simpa using h)

theorem axis_dim_f32_eq_some {mx mn cw : ℚ} {d : ℤ} :
    axis_dim_f32 mx mn cw = some d ↔
      ∃ dd q, float_result (mx - mn) = some dd ∧ fdiv dd cw = some q
        ∧ int_result (int_cast q) = some (int_cast q)
        ∧ int_result (int_cast q + 2) = some d := by
  unfold axis_dim_f32 int_cast_f32
  constructor
  · intro h
    obtain ⟨dd, h1, h⟩ := Option.bind_eq_some.mp h
    obtain ⟨q, h2, h⟩ := Option.bind_eq_some.mp h
    obtain ⟨c, h3, h⟩ := Option.bind_eq_some.mp h
    have hc := (int_result_eq_some.mp h3).1
    subst hc
    exact ⟨dd, q, h1, h2, h3, h⟩
  · rintro ⟨dd, q, h1, h2, h3, h4⟩
    rw [h1, Option.some_bind, h2, Option.some_bind, h3, Option.some_bind, h4]

theorem axis_index_f32_eq_some {c mn cw : ℚ} {i : ℤ} :
    axis_index_f32 c mn cw = some i ↔
      ∃ dd q, float_result (c - mn) = some dd ∧ fdiv dd cw = some q
        ∧ int_result (int_cast q) = some i := by
  unfold axis_index_f32 int_cast_f32
  constructor
  · intro h
    obtain ⟨dd, h1, h⟩ := Option.bind_eq_some.mp h
    obtain ⟨q, h2, h⟩ := Option.bind_eq_some.mp h
    exact ⟨dd, q, h1, h2, h⟩
  · rintro ⟨dd, q, h1, h2, h3⟩
    rw [h1, Option.some_bind, h2, Option.some_bind, h3]

/-- Along one axis in the machine reading: when the dimension is defined, the
index of a coordinate between the scanned extrema is defined, it is the floor
of the rounded quotient, and the two vertices of its cell exist. -/
theorem axis_index_f32_bounds {mx mn c cw : ℚ} {d : ℤ} (hcw : 0 < cw) (h1 : mn ≤ c)
    (h2 : c ≤ mx) (hd : axis_dim_f32 mx mn cw = some d) :
    axis_index_f32 c mn cw = some ⌊fl32 (fl32 (c - mn) / cw)⌋
      ∧ 0 ≤ fl32 (fl32 (c - mn) / cw)
      ∧ 0 ≤ ⌊fl32 (fl32 (c - mn) / cw)⌋
      ∧ ⌊fl32 (fl32 (c - mn) / cw)⌋ + 1 ≤ d - 1
      ∧ d = ⌊fl32 (fl32 (mx - mn) / cw)⌋ + 2
      ∧ d ≤ INT_MAX := by
  obtain ⟨dd, q, f1, f2, f3, f4⟩ := axis_dim_f32_eq_some.mp hd
  obtain ⟨hne, f2'⟩ := fdiv_eq_some.mp f2
  obtain ⟨g1, g2, g3⟩ := float_result_of_le (sub_nonneg.mpr h1) (by linarith) f1
  have hdd : dd = fl32 (mx - mn) := (float_result_eq_some.mp f1).1
  have hq : q = fl32 (dd / cw) := (float_result_eq_some.mp f2').1
  obtain ⟨k1, k2, k3⟩ := float_result_of_le (div_nonneg g2 hcw.le)
    (div_le_div_of_nonneg_right g3 hcw.le) f2'
  have hq0 : 0 ≤ q := le_trans k2 k3
  have hcq : int_cast q = ⌊q⌋ := int_cast_of_nonneg hq0
  have hci : int_cast (fl32 (fl32 (c - mn) / cw)) = ⌊fl32 (fl32 (c - mn) / cw)⌋ :=
    int_cast_of_nonneg k2
  have hfl : ⌊fl32 (fl32 (c - mn) / cw)⌋ ≤ ⌊q⌋ := Int.floor_le_floor k3
  have hfl0 : 0 ≤ ⌊fl32 (fl32 (c - mn) / cw)⌋ := Int.floor_nonneg.mpr k2
  obtain ⟨-, r1, r2⟩ := int_result_eq_some.mp f3
  obtain ⟨r3, r4, r5⟩ := int_result_eq_some.mp f4
  rw [hcq] at r1 r2 r3 r4 r5
  refine ⟨?_, k2, hfl0, by omega, ?_, by omega⟩
  · apply axis_index_f32_eq_some.mpr
    refine ⟨fl32 (c - mn), fl32 (fl32 (c - mn) / cw), g1, fdiv_eq_some.mpr ⟨hne, k1⟩, ?_⟩
    rw [hci]
    apply int_result_of_range
    · have : INT_MIN ≤ 0 := by decide
      omega
    · omega
  · rw [r3, hq, hdd]

theorem construct_grid_f32_eq_some {x : ℕ → ℕ → rvec} {nframes natoms : ℕ} {cw : ℚ}
    {g : weighted_grid} (h : construct_grid_f32 x nframes natoms cw = some g) :
    axis_dim_f32 (scan_extrema x nframes natoms).maxx (scan_extrema x nframes natoms).minx cw
        = some g.dimx
    ∧ axis_dim_f32 (scan_extrema x nframes natoms).maxy
        (scan_extrema x nframes natoms).miny cw = some g.dimy
    ∧ axis_dim_f32 (scan_extrema x nframes natoms).maxz
        (scan_extrema x nframes natoms).minz cw = some g.dimz
    ∧ (INT_MIN ≤ g.dimx * g.dimy ∧ g.dimx * g.dimy ≤ INT_MAX)
    ∧ (0 ≤ g.dimx * g.dimy * g.dimz ∧ g.dimx * g.dimy * g.dimz ≤ INT_MAX)
    ∧ g.weights = List.replicate (g.dimx * g.dimy * g.dimz).toNat 0
    ∧ g.cell_width = cw
    ∧ g.minx = (scan_extrema x nframes natoms).minx
    ∧ g.miny = (scan_extrema x nframes natoms).miny
    ∧ g.minz = (scan_extrema x nframes natoms).minz := by
  unfold construct_grid_f32 at h
  simp only at h
  obtain ⟨dx, h1, h⟩ := Option.bind_eq_some.mp h
  obtain ⟨dy, h2, h⟩ := Option.bind_eq_some.mp h
  obtain ⟨dz, h3, h⟩ := Option.bind_eq_some.mp h
  obtain ⟨n, h4, h⟩ := Option.bind_eq_some.mp h
  obtain ⟨m, h5, h⟩ := Option.bind_eq_some.mp h
  obtain ⟨w, h6, h⟩ := Option.bind_eq_some.mp h
  injection h with h
  subst h
  obtain ⟨hn, n1, n2⟩ := int_result_eq_some.mp h4
  subst hn
  obtain ⟨hm, m1, m2⟩ := int_result_eq_some.mp h5
  subst hm
  unfold snew_f32 at h6
  split_ifs at h6 with h0
  injection h6 with h6
  exact ⟨h1, h2, h3, ⟨n1, n2⟩, ⟨h0, m2⟩, h6.symm, rfl, rfl, rfl, rfl⟩
theorem int_range_of_nonneg {n : ℤ} (h0 : 0 ≤ n) (h1 : n ≤ INT_MAX) :
    int_result n = some n :=
  int_result_of_range (le_trans (by decide) h0) h1

/-- The eight offsets in the machine reading, for a cell inside a grid whose
number of vertices fits an `int`: no product overflows and the offsets are the
row-major offsets of the eight corners, in program order. -/
theorem offsets_f32_in_grid {g : weighted_grid} {c : ℤ × ℤ × ℤ}
    (hx : 0 ≤ c.1 ∧ c.1 + 1 ≤ g.dimx - 1) (hy : 0 ≤ c.2.1 ∧ c.2.1 + 1 ≤ g.dimy - 1)
    (hz : 0 ≤ c.2.2 ∧ c.2.2 + 1 ≤ g.dimz - 1)
    (hP : g.dimx * g.dimy * g.dimz ≤ INT_MAX) :
    int_result (g.dimy * g.dimz) = some (g.dimy * g.dimz)
    ∧ offsets_f32 (g.dimy * g.dimz) g.dimz c
        = some (program_order.map (fun t =>
            flat_index g (c.1 + t.1) (c.2.1 + t.2.1) (c.2.2 + t.2.2))) := by
  obtain ⟨x0, x1⟩ := hx
  obtain ⟨y0, y1⟩ := hy
  obtain ⟨z0, z1⟩ := hz
  have hY : 0 ≤ g.dimy := by linarith
  have hZ : 0 ≤ g.dimz := by linarith
  have hYZ : 0 ≤ g.dimy * g.dimz := mul_nonneg hY hZ
  have hYZP : g.dimy * g.dimz ≤ g.dimx * g.dimy * g.dimz := by
    have : 1 * (g.dimy * g.dimz) ≤ g.dimx * (g.dimy * g.dimz) :=
      mul_le_mul_of_nonneg_right (by linarith) hYZ
    linarith [mul_assoc g.dimx g.dimy g.dimz]
  have hXP : g.dimx ≤ g.dimx * g.dimy * g.dimz := by
    have h1 : 1 ≤ g.dimy * g.dimz := by nlinarith
    have : g.dimx * 1 ≤ g.dimx * (g.dimy * g.dimz) :=
      mul_le_mul_of_nonneg_left h1 (by linarith)
    linarith [mul_assoc g.dimx g.dimy g.dimz]
  have hYP : g.dimy ≤ g.dimx * g.dimy * g.dimz := by
    have h1 : g.dimy * 1 ≤ g.dimy * g.dimz := mul_le_mul_of_nonneg_left (by linarith) hY
    linarith
  have px : ∀ a : ℤ, 0 ≤ a → a + 1 ≤ g.dimx →
      int_result (a * (g.dimy * g.dimz)) = some (a * (g.dimy * g.dimz)) := by
    intro a a0 a1
    apply int_range_of_nonneg (mul_nonneg a0 hYZ)
    have : a * (g.dimy * g.dimz) ≤ g.dimx * (g.dimy * g.dimz) :=
      mul_le_mul_of_nonneg_right (by linarith) hYZ
    linarith [mul_assoc g.dimx g.dimy g.dimz]
  have py : ∀ b : ℤ, 0 ≤ b → b + 1 ≤ g.dimy →
      int_result (b * g.dimz) = some (b * g.dimz) := by
    intro b b0 b1
    apply int_range_of_nonneg (mul_nonneg b0 hZ)
    have : b * g.dimz ≤ g.dimy * g.dimz := mul_le_mul_of_nonneg_right (by linarith) hZ
    linarith
  have i1 : int_result (c.1 + 1) = some (c.1 + 1) :=
    int_range_of_nonneg (by linarith) (by linarith)
  have i2 : int_result (c.2.1 + 1) = some (c.2.1 + 1) :=
    int_range_of_nonneg (by linarith) (by linarith)
  refine ⟨int_range_of_nonneg hYZ (le_trans hYZP hP), ?_⟩
  simp only [offsets_f32, offset_f32, i1, i2, Option.some_bind,
    px c.1 x0 (by linarith), px (c.1 + 1) (by linarith) (by linarith),
    py c.2.1 y0 (by linarith), py (c.2.1 + 1) (by linarith) (by linarith),
    program_order, List.map_cons, List.map_nil, flat_index, Option.some.injEq,
    List.cons.injEq, and_true]
  refine ⟨?_, ?_, ?_, ?_, ?_, ?_, ?_, ?_⟩ <;> ring

theorem mem_program_order {a b c : ℤ} :
    (a, b, c) ∈ program_order ↔ (a = 0 ∨ a = 1) ∧ (b = 0 ∨ b = 1) ∧ (c = 0 ∨ c = 1) := by
  rw [program_order_perm.mem_iff]
  exact mem_corners

theorem cell_index_f32_eq_some {g : weighted_grid} {p : rvec} {xi yi zi : ℤ}
    (hx : axis_index_f32 p.XX g.minx g.cell_width = some xi)
    (hy : axis_index_f32 p.YY g.miny g.cell_width = some yi)
    (hz : axis_index_f32 p.ZZ g.minz g.cell_width = some zi) :
    cell_index_f32 g p = some (xi, yi, zi) := by
  unfold cell_index_f32
  rw [hx, hy, hz]
  rfl

/-- The constants `0.1f` and `0.9f` of C are the binary32 numbers nearest to
`1/10` and `9/10`. -/
theorem tenths_values : fl32 (1 / 10) = tenth ∧ fl32 (9 / 10) = nine_tenths := by
  decide!

theorem construct_grid_f32_tenths :
    construct_grid_f32 tenths_x 1 2 tenth
      = some (tenths_grid (List.replicate 44 0)) := by
  decide!

/-! ## The machine reading: shape of the buffer -/

theorem add_at_f32_length {w w' : List ℚ} {i : ℤ} {v : ℚ} (h : add_at_f32 w i v = some w') :
    w'.length = w.length := by
  unfold add_at_f32 at h
  split_ifs at h with hb
  obtain ⟨s, -, hs⟩ := Option.map_eq_some'.mp h
  rw [← hs]
  simp

theorem foldlM_length {α : Type} (f : List ℚ → α → Option (List ℚ))
    (hf : ∀ w a w', f w a = some w' → w'.length = w.length) :
    ∀ (l : List α) (w w' : List ℚ), l.foldlM f w = some w' → w'.length = w.length := by
  intro l
  induction l with
  | nil =>
    intro w w' h
    simp only [List.foldlM_nil] at h
    injection h with h
    rw [h]
  | cons a t ih =>
    intro w w' h
    rw [List.foldlM_cons] at h
    obtain ⟨w1, h1, h2⟩ := Option.bind_eq_some.mp h
    rw [ih w1 w' h2, hf w a w1 h1]

theorem load_atom_f32_length {g : weighted_grid} {dimyz : ℤ} {diag : ℚ} {w w' : List ℚ}
    {p : rvec} (h : load_atom_f32 g dimyz diag w p = some w') : w'.length = w.length := by
  unfold load_atom_f32 at h
  obtain ⟨ds, -, h2⟩ := Option.bind_eq_some.mp h
  unfold apply_deposits_f32 at h2
  exact foldlM_length (fun (w : List ℚ) (d : ℤ × ℚ) => add_at_f32 w d.1 d.2)
    (fun _ _ _ hw => add_at_f32_length hw) ds w w' h2

theorem load_weights_f32_length {x : ℕ → ℕ → rvec} {nframes natoms : ℕ} {g : weighted_grid}
    {dimyz : ℤ} {diag : ℚ} {w w' : List ℚ}
    (h : load_weights_f32 x nframes natoms g dimyz diag w = some w') :
    w'.length = w.length := by
  unfold load_weights_f32 at h
  refine foldlM_length _ ?_ (List.range nframes) w w' h
  intro w1 fr w2 h2
  exact foldlM_length _ (fun _ _ _ hw => load_atom_f32_length hw) (List.range natoms) w1 w2 h2

theorem load_grid_f32_eq_some {x : ℕ → ℕ → rvec} {nframes natoms : ℕ} {g g' : weighted_grid}
    (h : load_grid_f32 x nframes natoms g = some g') :
    ∃ dimyz diag, int_result (g.dimy * g.dimz) = some dimyz
      ∧ diag_sq_f32 g.cell_width = some diag
      ∧ load_weights_f32 x nframes natoms g dimyz diag g.weights = some g'.weights
      ∧ g' = { g with weights := g'.weights } := by
  unfold load_grid_f32 at h
  obtain ⟨diag, h2, h⟩ := Option.bind_eq_some.mp h
  obtain ⟨dimyz, h1, h⟩ := Option.bind_eq_some.mp h
  obtain ⟨w, h3, h4⟩ := Option.map_eq_some'.mp h
  subst h4
  exact ⟨dimyz, diag, h1, h2, h3, rfl⟩

theorem load_grid_f32_fields {x : ℕ → ℕ → rvec} {nframes natoms : ℕ} {g g' : weighted_grid}
    (h : load_grid_f32 x nframes natoms g = some g') :
    g'.weights.length = g.weights.length ∧ g'.dimx = g.dimx ∧ g'.dimy = g.dimy
      ∧ g'.dimz = g.dimz ∧ g'.cell_width = g.cell_width ∧ g'.minx = g.minx
      ∧ g'.miny = g.miny ∧ g'.minz = g.minz := by
  obtain ⟨dimyz, diag, -, -, hw, he⟩ := load_grid_f32_eq_some h
  refine ⟨load_weights_f32_length hw, ?_, ?_, ?_, ?_, ?_, ?_, ?_⟩ <;> rw [he]

/-! ## The machine reading: cell widths that are not positive -/

theorem axis_dim_f32_zero_width (mx mn : ℚ) : axis_dim_f32 mx mn 0 = none := by
  unfold axis_dim_f32
  cases float_result (mx - mn) with
  | none => rfl
  | some d => simp [fdiv]

theorem construct_grid_f32_zero_width (x : ℕ → ℕ → rvec) (nframes natoms : ℕ) :
    construct_grid_f32 x nframes natoms 0 = none := by
  unfold construct_grid_f32
  simp only [axis_dim_f32_zero_width, Option.none_bind]

theorem axis_dim_f32_neg_width {mx mn cw : ℚ} {d : ℤ} (hcw : cw < 0) (h : mn ≤ mx)
    (hd : axis_dim_f32 mx mn cw = some d) : d ≤ 2 := by
  obtain ⟨dd, q, h1, h2, -, h4⟩ := axis_dim_f32_eq_some.mp hd
  obtain ⟨rfl, -⟩ := float_result_eq_some.mp h1
  obtain ⟨-, h5⟩ := fdiv_eq_some.mp h2
  obtain ⟨rfl, -⟩ := float_result_eq_some.mp h5
  obtain ⟨rfl, -, -⟩ := int_result_eq_some.mp h4
  have h0 : 0 ≤ fl32 (mx - mn) := fl32_nonneg (sub_nonneg.mpr h)
  have hq : fl32 (fl32 (mx - mn) / cw) ≤ 0 :=
    fl32_nonpos (div_nonpos_of_nonneg_of_nonpos h0 hcw.le)
  have := int_cast_nonpos hq
  linarith

theorem axis_dim_f32_self (p : ℚ) {cw : ℚ} (hcw : cw ≠ 0) : axis_dim_f32 p p cw = some 2 := by
  unfold axis_dim_f32
  rw [sub_self, float_result_zero]
  simp only [Option.some_bind, fdiv, if_neg hcw, zero_div, float_result_zero]
  decide

theorem is_largest_const {x : ℕ → ℕ → rvec} {nframes natoms : ℕ} {p : rvec}
    (hf : 0 < nframes) (ha : 0 < natoms)
    (hp : ∀ fr a, fr < nframes → a < natoms → x fr a = p) (c : rvec → ℚ) :
    is_largest x nframes natoms c (c p) :=
  ⟨fun fr a hfr haa => by rw [hp fr a hfr haa], 0, 0, hf, ha, by rw [hp 0 0 hf ha]⟩

theorem is_smallest_const {x : ℕ → ℕ → rvec} {nframes natoms : ℕ} {p : rvec}
    (hf : 0 < nframes) (ha : 0 < natoms)
    (hp : ∀ fr a, fr < nframes → a < natoms → x fr a = p) (c : rvec → ℚ) :
    is_smallest x nframes natoms c (c p) :=
  ⟨fun fr a hfr haa => by rw [hp fr a hfr haa], 0, 0, hf, ha, by rw [hp 0 0 hf ha]⟩

/-- The grid that `construct_grid` returns, in the machine reading, for a
non-empty sequence whose atoms all lie at one point `p` with coordinates in
`[FLT_MIN, FLT_MAX]`, for any cell width other than `0`. -/
theorem construct_grid_f32_coincident {x : ℕ → ℕ → rvec} {nframes natoms : ℕ} {p : rvec}
    {cw : ℚ} (hcw : cw ≠ 0) (hf : 0 < nframes) (ha : 0 < natoms)
    (hp : ∀ fr a, fr < nframes → a < natoms → x fr a = p)
    (hx : FLT_MIN ≤ p.XX ∧ p.XX ≤ FLT_MAX) (hy : FLT_MIN ≤ p.YY ∧ p.YY ≤ FLT_MAX)
    (hz : FLT_MIN ≤ p.ZZ ∧ p.ZZ ≤ FLT_MAX) :
    construct_grid_f32 x nframes natoms cw
      = some { weights := List.replicate 8 0, dimx := 2, dimy := 2, dimz := 2,
               cell_width := cw, minx := p.XX, miny := p.YY, minz := p.ZZ } := by
  obtain ⟨M1, M2, M3⟩ := scan_extrema_max (is_largest_const hf ha hp rvec.XX)
    (is_largest_const hf ha hp rvec.YY) (is_largest_const hf ha hp rvec.ZZ)
  obtain ⟨m1, m2, m3⟩ := scan_extrema_min (is_smallest_const hf ha hp rvec.XX)
    (is_smallest_const hf ha hp rvec.YY) (is_smallest_const hf ha hp rvec.ZZ)
  rw [max_eq_right hx.1] at M1
  rw [max_eq_right hy.1] at M2
  rw [max_eq_right hz.1] at M3
  rw [min_eq_right hx.2] at m1
  rw [min_eq_right hy.2] at m2
  rw [min_eq_right hz.2] at m3
  unfold construct_grid_f32
  simp only [M1, M2, M3, m1, m2, m3, axis_dim_f32_self _ hcw, Option.some_bind]
  rfl

/-! ## The machine reading: symmetry of the rounding -/

theorem round_even_neg (y : ℚ) : round_even (-y) = -round_even y := by
  by_cases hy : (⌊y⌋ : ℚ) = y
  · have h1 : ⌊-y⌋ = -⌊y⌋ := by
      rw [← hy, ← Int.cast_neg, Int.floor_intCast, Int.floor_intCast]
    unfold round_even
    rw [h1]
    have e1 : -y - ((-⌊y⌋ : ℤ) : ℚ) = 0 := by push_cast; rw [hy]; ring
    have e2 : y - (⌊y⌋ : ℚ) = 0 := by rw [hy]; ring
    rw [e1, e2]
    norm_num
  · have hlt : (⌊y⌋ : ℚ) < y := lt_of_le_of_ne (Int.floor_le y) hy
    have hlt2 : y < (⌊y⌋ : ℚ) + 1 := Int.lt_floor_add_one y
    have h1 : ⌊-y⌋ = -⌊y⌋ - 1 := by
      rw [Int.floor_eq_iff]
      push_cast
      constructor <;> linarith
    unfold round_even
    rw [h1]
    have e1 : -y - ((-⌊y⌋ - 1 : ℤ) : ℚ) = 1 - (y - ⌊y⌋) := by push_cast; ring
    rw [e1]
    split_ifs <;> first | omega | (exfalso; linarith)

theorem binade32_neg (x : ℚ) : binade32 (-x) = binade32 x := by
  unfold binade32
  rw [Rat.num_neg_eq_neg_num, Rat.den_neg_eq_den, Int.natAbs_neg, abs_neg]

theorem ulp32_neg (x : ℚ) : ulp32 (-x) = ulp32 x := by
  unfold ulp32
  rw [binade32_neg]

theorem fl32_neg (x : ℚ) : fl32 (-x) = -fl32 x := by
  unfold fl32
  rw [ulp32_neg, neg_div, round_even_neg]
  push_cast
  ring

/-- Rounding to binary32 is monotone. -/
theorem fl32_monotone {x y : ℚ} (h : x ≤ y) : fl32 x ≤ fl32 y := by
  rcases le_total 0 x with hx | hx
  · exact fl32_mono hx h
  · rcases le_total 0 y with hy | hy
    · exact le_trans (fl32_nonpos hx) (fl32_nonneg hy)
    · have := fl32_mono (neg_nonneg.mpr hy) (neg_le_neg h)
      rw [fl32_neg, fl32_neg] at this
      linarith

/-! ## The machine reading: an empty sequence -/

theorem construct_grid_f32_of_empty (x : ℕ → ℕ → rvec) {nframes natoms : ℕ}
    (h : nframes = 0 ∨ natoms = 0) (cw : ℚ) :
    construct_grid_f32 x nframes natoms cw = construct_grid_f32 x 0 0 cw := by
  unfold construct_grid_f32
  rw [scan_extrema_of_empty x h, scan_extrema_of_empty x (Or.inl rfl)]

theorem seeds_difference_f32 : float_result (FLT_MIN - FLT_MAX) = some (-FLT_MAX) := by
  decide!

theorem fl32_below_int_range : fl32 4294967040 = 4294967040 := by
  decide!

/-- The quotient of the seeds by a cell width below `2^96` in magnitude leaves
the range of `int`, so the conversion is not defined. -/
theorem axis_dim_f32_seeds_small {cw : ℚ} (h : |cw| < 2 ^ 96) :
    axis_dim_f32 FLT_MIN FLT_MAX cw = none := by
  by_cases h0 : cw = 0
  · rw [h0]
    exact axis_dim_f32_zero_width _ _
  unfold axis_dim_f32
  rw [seeds_difference_f32]
  simp only [Option.some_bind, fdiv, if_neg h0]
  cases hq : float_result (-FLT_MAX / cw) with
  | none => rfl
  | some q =>
    obtain ⟨rfl, -⟩ := float_result_eq_some.mp hq
    simp only [Option.some_bind, int_cast_f32]
    have hnone : int_result (int_cast (fl32 (-FLT_MAX / cw))) = none := by
      unfold int_result
      rw [if_neg]
      rintro ⟨l1, l2⟩
      rcases lt_or_gt_of_ne h0 with hneg | hpos
      · have hb : (4294967040 : ℚ) ≤ -FLT_MAX / cw := by
          rw [le_div_iff_of_neg hneg]
          have : -cw < 2 ^ 96 := by
            have := neg_abs_le cw
            have := abs_nonneg cw
            rw [abs_of_neg hneg] at h
            exact h
          unfold FLT_MAX
          nlinarith
        have hf := fl32_monotone hb
        rw [fl32_below_int_range] at hf
        have hc : (4294967040 : ℤ) ≤ int_cast (fl32 (-FLT_MAX / cw)) := by
          rw [int_cast_of_nonneg (le_trans (by norm_num) hf)]
          exact Int.le_floor.mpr (by exact_mod_cast hf)
        unfold INT_MAX at l2
        omega
      · have hb : -FLT_MAX / cw ≤ (-4294967040 : ℚ) := by
          rw [div_le_iff₀ hpos]
          rw [abs_of_pos hpos] at h
          unfold FLT_MAX
          nlinarith
        have hf := fl32_monotone hb
        rw [fl32_neg, fl32_below_int_range] at hf
        have hc : int_cast (fl32 (-FLT_MAX / cw)) ≤ (-4294967040 : ℤ) + 1 := by
          unfold int_cast
          rw [if_neg (by linarith)]
          have := Int.ceil_lt_add_one (fl32 (-FLT_MAX / cw))
          have h3 : ((⌈fl32 (-FLT_MAX / cw)⌉ : ℤ) : ℚ) < ((-4294967040 + 1 : ℤ) : ℚ) + 1 := by
            push_cast
            linarith
          have h4 : (⌈fl32 (-FLT_MAX / cw)⌉ : ℤ) < (-4294967040 + 1 : ℤ) + 1 := by
            exact_mod_cast h3
          omega
        unfold INT_MIN at l1
        omega
    rw [hnone]
    rfl

theorem construct_grid_f32_empty_top :
    construct_grid_f32 traj_x 0 0 (2 ^ 127)
      = some { weights := [0], dimx := 1, dimy := 1, dimz := 1, cell_width := 2 ^ 127,
               minx := FLT_MAX, miny := FLT_MAX, minz := FLT_MAX } := by
  decide!

/-! ## The machine reading: the dimensions -/

/-- A dimension in the machine reading, for a positive cell width and
`min <= max`: the conversion is the floor of the rounded quotient of the rounded
difference. -/
theorem axis_dim_f32_floor {mx mn cw : ℚ} {d : ℤ} (hcw : 0 < cw) (h : mn ≤ mx)
    (hd : axis_dim_f32 mx mn cw = some d) :
    d = ⌊fl32 (fl32 (mx - mn) / cw)⌋ + 2 :=
  (axis_index_f32_bounds hcw (le_refl mn) h hd).2.2.2.2.1

theorem construct_grid_f32_tenths_up :
    construct_grid_f32 tenths_up_x 1 2 tenth
      = some { weights := List.replicate 44 0, dimx := 11, dimy := 2, dimz := 2,
               cell_width := tenth, minx := 0, miny := 1, minz := 1 } := by
  decide!

theorem tenths_up_largest :
    is_largest tenths_up_x 1 2 rvec.XX nine_tenths ∧ is_largest tenths_up_x 1 2 rvec.YY 1
      ∧ is_largest tenths_up_x 1 2 rvec.ZZ 1 := by
  refine ⟨⟨?_, 0, 1, by decide, by decide, rfl⟩, ⟨?_, 0, 0, by decide, by decide, rfl⟩,
    ⟨?_, 0, 0, by decide, by decide, rfl⟩⟩
  · intro fr a _ _
    unfold tenths_up_x
    split_ifs <;> norm_num [nine_tenths]
  · intro fr a _ _
    unfold tenths_up_x
    split_ifs <;> norm_num
  · intro fr a _ _
    unfold tenths_up_x
    split_ifs <;> norm_num

theorem tenths_up_smallest :
    is_smallest tenths_up_x 1 2 rvec.XX 0 ∧ is_smallest tenths_up_x 1 2 rvec.YY 1
      ∧ is_smallest tenths_up_x 1 2 rvec.ZZ 1 := by
  refine ⟨⟨?_, 0, 0, by decide, by decide, rfl⟩, ⟨?_, 0, 0, by decide, by decide, rfl⟩,
    ⟨?_, 0, 0, by decide, by decide, rfl⟩⟩
  · intro fr a _ _
    unfold tenths_up_x
    split_ifs <;> norm_num [nine_tenths]
  · intro fr a _ _
    unfold tenths_up_x
    split_ifs <;> norm_num
  · intro fr a _ _
    unfold tenths_up_x
    split_ifs <;> norm_num

/-! ## The machine reading: two frames -/

theorem load_weights_f32_weights (x : ℕ → ℕ → rvec) (nframes natoms : ℕ) (g : weighted_grid)
    (w0 : List ℚ) (dimyz : ℤ) (diag : ℚ) (w : List ℚ) :
    load_weights_f32 x nframes natoms { g with weights := w0 } dimyz diag w
      = load_weights_f32 x nframes natoms g dimyz diag w :=
  rfl

theorem load_weights_f32_two_frames (A B : ℕ → rvec) (natoms : ℕ) (g : weighted_grid)
    (dimyz : ℤ) (diag : ℚ) (w : List ℚ) :
    load_weights_f32 (two_frames A B) 2 natoms g dimyz diag w
      = (load_weights_f32 (one_frame A) 1 natoms g dimyz diag w).bind
          (load_weights_f32 (one_frame B) 1 natoms g dimyz diag) := by
  unfold load_weights_f32
  have h2 : List.range 2 = [0, 1] := rfl
  have h1 : List.range 1 = [0] := rfl
  rw [h2, h1]
  simp only [List.foldlM_cons, List.foldlM_nil, two_frames, one_frame, if_true,
    one_ne_zero, if_false, bind_pure, Option.bind_eq_bind]

/-- In the machine reading `load_grid` over `[A, B]` is `load_grid` over `[B]`
applied to the result of `load_grid` over `[A]`. -/
theorem load_grid_f32_two_frames (A B : ℕ → rvec) (natoms : ℕ) (g : weighted_grid) :
    load_grid_f32 (two_frames A B) 2 natoms g
      = (load_grid_f32 (one_frame A) 1 natoms g).bind
          (load_grid_f32 (one_frame B) 1 natoms) := by
  unfold load_grid_f32
  cases h2 : diag_sq_f32 g.cell_width with
  | none => rfl
  | some diag =>
    cases h1 : int_result (g.dimy * g.dimz) with
    | none => rfl
    | some dimyz =>
      simp only [Option.some_bind]
      rw [load_weights_f32_two_frames]
      cases h3 : load_weights_f32 (one_frame A) 1 natoms g dimyz diag g.weights with
      | none => rfl
      | some wA =>
        simp only [Option.some_bind, Option.map_some', h1, h2, load_weights_f32_weights]

theorem unit_grid_zero : ∀ v ∈ (unit_grid (List.replicate 27 0)).weights, v = 0 := by
  intro v hv
  exact (List.mem_replicate.mp hv).2

/-! ## The machine reading: the rounding error -/

theorem round_even_error (y : ℚ) : |(round_even y : ℚ) - y| ≤ 1 / 2 := by
  have h1 := Int.floor_le y
  have h2 := Int.lt_floor_add_one y
  unfold round_even
  rw [abs_le]
  split_ifs <;> push_cast <;> constructor <;> linarith

/-- The binary32 number nearest to `x` differs from `x` by at most half the
spacing of the binary32 numbers around `x`. -/
theorem fl32_error (x : ℚ) : |fl32 x - x| ≤ ulp32 x / 2 := by
  have hu := ulp32_pos x
  have h := round_even_error (x / ulp32 x)
  have e : fl32 x - x = ((round_even (x / ulp32 x) : ℚ) - x / ulp32 x) * ulp32 x := by
    unfold fl32
    field_simp
  rw [e, abs_mul, abs_of_pos hu]
  calc |(round_even (x / ulp32 x) : ℚ) - x / ulp32 x| * ulp32 x
      ≤ 1 / 2 * ulp32 x := mul_le_mul_of_nonneg_right h hu.le
    _ = ulp32 x / 2 := by ring

theorem load_grid_f32_tenths :
    ∃ h', load_grid_f32 tenths_x 1 2 (tenths_grid (List.replicate 44 0)) = some h' := by
  have h : (load_grid_f32 tenths_x 1 2 (tenths_grid (List.replicate 44 0))).isSome = true := by
    decide!
  exact Option.isSome_iff_exists.mp h

/-! ## Claims -/

/-- Claim C1 (bounds safety), refuted as stated. One frame holding the atoms
`(0, 0, 0)` and `(2000, 2000, 2000)`, cell width `1` (all binary32 numbers,
every operation exact): `construct_grid` computes `2002` vertices along each
axis, and the `int` product `dimx * dimy * dimz = 8024024008` exceeds
`INT_MAX`, so the count of the buffer is not defined and no offset is bounded by
it. -/
theorem bounds_safety_int_overflow :
    (∀ fr a, apart_x fr a = if a = 0 then ⟨0, 0, 0⟩ else ⟨2000, 2000, 2000⟩)
    ∧ axis_dim_f32 (scan_extrema apart_x 1 2).maxx (scan_extrema apart_x 1 2).minx 1
        = some 2002
    ∧ axis_dim_f32 (scan_extrema apart_x 1 2).maxy (scan_extrema apart_x 1 2).miny 1
        = some 2002
    ∧ axis_dim_f32 (scan_extrema apart_x 1 2).maxz (scan_extrema apart_x 1 2).minz 1
        = some 2002
    ∧ INT_MAX < 2002 * 2002 * 2002
    ∧ int_result (2002 * 2002 * 2002) = none
    ∧ construct_grid_f32 apart_x 1 2 1 = none := by
  refine ⟨fun _ _ => rfl, ?_⟩
  decide!

/-- Claim C1 (bounds safety), amended, in the machine reading (binary32 reals,
32-bit `int`). For every point sequence and every cell width `> 0` for which
`construct_grid` is defined (each cast `(int)((max - min) / cell_width)` is in
the range of `int` and the count `dimx * dimy * dimz` does not overflow), the
buffer has `dimx * dimy * dimz` entries and, for every atom of the sequence, the
cell indices that `load_grid` computes are defined and satisfy `0 <= xi, yi, zi`,
`xi + 1 <= dimx - 1`, `yi + 1 <= dimy - 1`, `zi + 1 <= dimz - 1`; the eight
offsets it forms overflow no `int`, are the row-major offsets of the eight
corners and lie in `[0, dimx * dimy * dimz)`, inside the buffer. -/
theorem bounds_safety_f32 (x : ℕ → ℕ → rvec) (nframes natoms : ℕ) (cell_width : ℚ)
    (g : weighted_grid) (hcw : 0 < cell_width)
    (hg : construct_grid_f32 x nframes natoms cell_width = some g) :
    (g.weights.length : ℤ) = g.dimx * g.dimy * g.dimz
    ∧ g.dimx * g.dimy * g.dimz ≤ INT_MAX
    ∧ ∀ fr a, fr < nframes → a < natoms →
        ∃ c, cell_index_f32 g (x fr a) = some c
          ∧ (0 ≤ c.1 ∧ c.1 + 1 ≤ g.dimx - 1)
          ∧ (0 ≤ c.2.1 ∧ c.2.1 + 1 ≤ g.dimy - 1)
          ∧ (0 ≤ c.2.2 ∧ c.2.2 + 1 ≤ g.dimz - 1)
          ∧ int_result (g.dimy * g.dimz) = some (g.dimy * g.dimz)
          ∧ offsets_f32 (g.dimy * g.dimz) g.dimz c
              = some (program_order.map (fun t =>
                  flat_index g (c.1 + t.1) (c.2.1 + t.2.1) (c.2.2 + t.2.2)))
          ∧ ∀ t ∈ program_order,
              0 ≤ flat_index g (c.1 + t.1) (c.2.1 + t.2.1) (c.2.2 + t.2.2)
              ∧ flat_index g (c.1 + t.1) (c.2.1 + t.2.1) (c.2.2 + t.2.2)
                  < g.dimx * g.dimy * g.dimz
              ∧ (flat_index g (c.1 + t.1) (c.2.1 + t.2.1) (c.2.2 + t.2.2)).toNat
                  < g.weights.length := by
  obtain ⟨dx, dy, dz, -, ⟨p0, p1⟩, hw, hc, mx, my, mz⟩ := construct_grid_f32_eq_some hg
  have hlen : (g.weights.length : ℤ) = g.dimx * g.dimy * g.dimz := by
    rw [hw, List.length_replicate]
    exact Int.toNat_of_nonneg p0
  refine ⟨hlen, p1, ?_⟩
  intro fr a hfr ha
  obtain ⟨h1, h2, h3, h4, h5, h6⟩ := scan_extrema_bounds (x := x) hfr ha
  rw [← mx] at h1 dx
  rw [← my] at h2 dy
  rw [← mz] at h3 dz
  rw [← hc] at hcw dx dy dz
  obtain ⟨ix, -, ix0, ix1, -, -⟩ := axis_index_f32_bounds hcw h1 h4 dx
  obtain ⟨iy, -, iy0, iy1, -, -⟩ := axis_index_f32_bounds hcw h2 h5 dy
  obtain ⟨iz, -, iz0, iz1, -, -⟩ := axis_index_f32_bounds hcw h3 h6 dz
  have hci := cell_index_f32_eq_some ix iy iz
  obtain ⟨o1, o2⟩ := offsets_f32_in_grid (g := g)
    (c := (⌊fl32 (fl32 ((x fr a).XX - g.minx) / g.cell_width)⌋,
           ⌊fl32 (fl32 ((x fr a).YY - g.miny) / g.cell_width)⌋,
           ⌊fl32 (fl32 ((x fr a).ZZ - g.minz) / g.cell_width)⌋))
    ⟨ix0, ix1⟩ ⟨iy0, iy1⟩ ⟨iz0, iz1⟩ p1
  refine ⟨_, hci, ⟨ix0, ix1⟩, ⟨iy0, iy1⟩, ⟨iz0, iz1⟩, o1, o2, ?_⟩
  intro t ht
  obtain ⟨ta, tb, tc⟩ := t
  obtain ⟨ha', hb', hc'⟩ := mem_program_order.mp ht
  have hb := flat_index_bounds (X := g.dimx) (Y := g.dimy) (Z := g.dimz)
    (a := ⌊fl32 (fl32 ((x fr a).XX - g.minx) / g.cell_width)⌋ + ta)
    (b := ⌊fl32 (fl32 ((x fr a).YY - g.miny) / g.cell_width)⌋ + tb)
    (c := ⌊fl32 (fl32 ((x fr a).ZZ - g.minz) / g.cell_width)⌋ + tc)
    (by rcases ha' with rfl | rfl <;> linarith) (by rcases ha' with rfl | rfl <;> linarith)
    (by rcases hb' with rfl | rfl <;> linarith) (by rcases hb' with rfl | rfl <;> linarith)
    (by rcases hc' with rfl | rfl <;> linarith) (by rcases hc' with rfl | rfl <;> linarith)
  refine ⟨hb.1, hb.2, ?_⟩
  have h9 : ((flat_index g
      (⌊fl32 (fl32 ((x fr a).XX - g.minx) / g.cell_width)⌋ + ta)
      (⌊fl32 (fl32 ((x fr a).YY - g.miny) / g.cell_width)⌋ + tb)
      (⌊fl32 (fl32 ((x fr a).ZZ - g.minz) / g.cell_width)⌋ + tc)).toNat
        : ℤ) < (g.weights.length : ℤ) := by
    unfold flat_index
    rw [Int.toNat_of_nonneg hb.1, hlen]
    exact hb.2
  exact_mod_cast h9

/-- Claim C1, amended, at one frame holding the atoms `(0, 0, 0)` and
`(0.9f, 0, 0)` with the cell width `0.1f`, where the grid has `11 x 2 x 2`
vertices. -/
theorem bounds_safety_f32_witness :
    construct_grid_f32 tenths_x 1 2 tenth = some (tenths_grid (List.replicate 44 0))
    ∧ ∃ c, cell_index_f32 (tenths_grid (List.replicate 44 0)) (tenths_x 0 1) = some c
        ∧ c.1 + 1 ≤ (tenths_grid (List.replicate 44 0)).dimx - 1 := by
  obtain ⟨c, h1, h2, -⟩ := (bounds_safety_f32 tenths_x 1 2 tenth
    (tenths_grid (List.replicate 44 0)) (by norm_num [tenth]) construct_grid_f32_tenths).2.2
    0 1 (by decide) (by decide)
  exact ⟨construct_grid_f32_tenths, c, h1, h2.2⟩

/-- Claim C2 (dimension formula), the code at a failing input. One frame with
one atom at `(-5, -5, -5)` and cell width `1`: the bounding box has
`max = min = -5` on each axis, so the formula gives
`floor((max - min) / 1) + 2 = 2`, but `construct_grid` returns `7` on each axis,
because the running maxima start at `FLT_MIN > -5` and are never lowered. -/
theorem dimension_formula_below_zero :
    (∀ fr a, below_zero_x fr a = ⟨-5, -5, -5⟩)
    ∧ ⌊((-5 : ℚ) - (-5)) / 1⌋ + 2 = 2
    ∧ (construct_grid below_zero_x 1 1 1).dimx = 7
    ∧ (construct_grid below_zero_x 1 1 1).dimy = 7
    ∧ (construct_grid below_zero_x 1 1 1).dimz = 7 := by
  have h : scan_extrema below_zero_x 1 1 = ⟨-5, -5, -5, FLT_MIN, FLT_MIN, FLT_MIN⟩ := by
    simp [scan_extrema, scan_atom, extrema_init, FLT_MAX, FLT_MIN, List.range_succ,
      below_zero_x]
    norm_num
  have hc : int_cast ((FLT_MIN - (-5)) / 1) = 5 := by
    apply int_cast_eq_of <;> norm_num [FLT_MIN]
  refine ⟨fun _ _ => rfl, by norm_num, ?_, ?_, ?_⟩ <;>
    simp only [construct_grid, h, hc] <;> norm_num

/-- Claim C3 (non-negativity). For every point sequence and every positive
cell width, `construct_grid` followed by `load_grid` on the same sequence
completes and leaves no negative entry in the weight buffer. -/
theorem weights_nonneg (x : ℕ → ℕ → rvec) (nframes natoms : ℕ) (cell_width : ℚ)
    (hcw : 0 < cell_width) :
    ∃ g', load_grid x nframes natoms (construct_grid x nframes natoms cell_width) = some g'
      ∧ ∀ v ∈ g'.weights, 0 ≤ v := by
  obtain ⟨g', hg'⟩ : ∃ g', load_grid x nframes natoms
      (construct_grid x nframes natoms cell_width) = some g' := load_sized_grid hcw
  refine ⟨g', hg', ?_⟩
  obtain ⟨hap, -⟩ := load_grid_eq_some hg'
  obtain ⟨-, -, hget⟩ := apply_deposits_eq_some hap
  have hds : ∀ d ∈ (atoms x nframes natoms).flatMap
      (deposits (construct_grid x nframes natoms cell_width)), 0 ≤ d.2 := by
    intro d hd
    obtain ⟨p, hp, hdp⟩ := List.mem_flatMap.mp hd
    obtain ⟨fr, hfr, a, ha, rfl⟩ := mem_atoms.mp hp
    obtain ⟨i, j, k, hi, hj, hk, rfl⟩ := mem_deposits hdp
    obtain ⟨h1, h2, h3, -⟩ := scan_extrema_bounds (x := x) hfr ha
    exact corner_deposit_nonneg (g := construct_grid x nframes natoms cell_width) hcw h1 h2 h3 hi hj hk
  intro v hv
  obtain ⟨n, hn, rfl⟩ := List.getElem_of_mem hv
  have := hget n
  have hz : (construct_grid x nframes natoms cell_width).weights.getD n 0 = 0 :=
    snew_getD _ n
  rw [hz, zero_add] at this
  have h2 : g'.weights.getD n 0 = g'.weights[n] := by
    simp [List.getD_eq_getElem?_getD, hn]
  rw [← h2, this]
  exact total_at_nonneg hds n

/-- Claim C3 at one frame of two atoms and cell width `1`. -/
theorem weights_nonneg_witness :
    (0 : ℚ) < 1 ∧ ∃ g', load_grid sample_x 1 2 (construct_grid sample_x 1 2 1) = some g'
      ∧ ∀ v ∈ g'.weights, 0 ≤ v :=
  ⟨by norm_num, weights_nonneg sample_x 1 2 1 (by norm_num)⟩

/-- Claim C4 (additivity), refuted as stated, in the machine reading. On the
grid of `3 x 3 x 3` vertices with origin `0`, cell width `1` and a zero buffer,
with `A` two atoms on the vertex `(1, 1, 1)` and `B` two atoms at
`(2^(-23), 0, 0)`: the weight left at the vertex `(1, 1, 1)`, offset `13`, is
`6` by `[A]` alone, `2^(-21)` by `[B]` alone and `6` by `[A, B]`, not their sum
`6 + 2^(-21)` (which is a binary32 number); the exact sum would be
`6 + 2^(-21) - 2^(-45)`. -/
theorem additivity_fails_f32 :
    (load_grid_f32 (one_frame frame_A) 1 2 (unit_grid (List.replicate 27 0))).map
        (fun g => g.weights.getD 13 0) = some 6
    ∧ (load_grid_f32 (one_frame frame_B) 1 2 (unit_grid (List.replicate 27 0))).map
        (fun g => g.weights.getD 13 0) = some (1 / 2097152)
    ∧ (load_grid_f32 (two_frames frame_A frame_B) 2 2 (unit_grid (List.replicate 27 0))).map
        (fun g => g.weights.getD 13 0) = some 6
    ∧ fl32 (6 + 1 / 2097152) = 6 + 1 / 2097152
    ∧ (6 : ℚ) ≠ 6 + 1 / 2097152 := by
  decide!

/-- Claim C4 (additivity), amended. For a fixed grid and any two frames `A`, `B`
of `natoms` atoms, `load_grid` over `[A, B]` is `load_grid` over `[B]` applied
to the buffer produced by `load_grid` over `[A]`: this holds in the machine
reading (binary32 reals, 32-bit `int`) and in exact arithmetic, on any buffer.
In exact arithmetic, from a zero buffer, when the loads of `[A]` alone and of
`[B]` alone complete, so does the load of `[A, B]`, it leaves the buffer length
unchanged and at every offset exactly the sum of the two weights left there by
`[A]` alone and by `[B]` alone. -/
theorem additivity_f32 (g : weighted_grid) (A B : ℕ → rvec) (natoms : ℕ)
    (hz : ∀ v ∈ g.weights, v = 0) :
    load_grid_f32 (two_frames A B) 2 natoms g
        = (load_grid_f32 (one_frame A) 1 natoms g).bind
            (load_grid_f32 (one_frame B) 1 natoms)
    ∧ load_grid (two_frames A B) 2 natoms g
        = (load_grid (one_frame A) 1 natoms g).bind
            (fun gA => load_grid (one_frame B) 1 natoms gA)
    ∧ ∀ gA gB, load_grid (one_frame A) 1 natoms g = some gA →
        load_grid (one_frame B) 1 natoms g = some gB →
        ∃ gAB, load_grid (two_frames A B) 2 natoms g = some gAB
          ∧ gAB.weights.length = g.weights.length
          ∧ ∀ n : ℕ, gAB.weights.getD n 0 = gA.weights.getD n 0 + gB.weights.getD n 0 := by
  have hseq : load_grid (two_frames A B) 2 natoms g
        = (load_grid (one_frame A) 1 natoms g).bind
            (fun gA => load_grid (one_frame B) 1 natoms gA) := by
    simp only [load_grid_eq, atoms_two_frames, List.flatMap_append, apply_deposits_append]
    cases apply_deposits g.weights
        ((atoms (one_frame A) 1 natoms).flatMap (deposits g)) with
    | none => rfl
    | some w => rfl
  refine ⟨load_grid_f32_two_frames A B natoms g, hseq, ?_⟩
  intro gA gB hA hB
  obtain ⟨hA1, -⟩ := load_grid_eq_some hA
  obtain ⟨hB1, -⟩ := load_grid_eq_some hB
  obtain ⟨hlA, hbA, hgA⟩ := apply_deposits_eq_some hA1
  obtain ⟨hlB, hbB, hgB⟩ := apply_deposits_eq_some hB1
  obtain ⟨w, hw⟩ := @apply_deposits_of_bounds
    ((atoms (two_frames A B) 2 natoms).flatMap (deposits g)) g.weights (by
      intro d hd
      rw [atoms_two_frames, List.flatMap_append] at hd
      rcases List.mem_append.mp hd with h | h
      · exact hbA d h
      · exact hbB d h)
  obtain ⟨hl, -, hg⟩ := apply_deposits_eq_some hw
  refine ⟨{ g with weights := w }, by rw [load_grid_eq, hw]; rfl, hl, ?_⟩
  intro n
  have h0 := zero_buffer_getD hz n
  show w.getD n 0 = _
  rw [hg n, hgA n, hgB n, h0, atoms_two_frames, List.flatMap_append, total_at_append]
  ring

/-- Claim C4, amended, on the grid of `3 x 3 x 3` vertices with origin `0`, cell
width `1` and a zero buffer, with `A` two atoms on the vertex `(1, 1, 1)` and
`B` two atoms at `(2^(-23), 0, 0)`: in the machine reading the load of `[A, B]`
is the load of `[B]` after the load of `[A]` and completes. -/
theorem additivity_f32_witness :
    (∀ v ∈ (unit_grid (List.replicate 27 0)).weights, v = 0)
    ∧ ∃ gA gAB, load_grid_f32 (one_frame frame_A) 1 2 (unit_grid (List.replicate 27 0))
          = some gA
        ∧ load_grid_f32 (one_frame frame_B) 1 2 gA = some gAB
        ∧ load_grid_f32 (two_frames frame_A frame_B) 2 2 (unit_grid (List.replicate 27 0))
            = some gAB := by
  have h := (additivity_f32 (unit_grid (List.replicate 27 0)) frame_A frame_B 2
    unit_grid_zero).1
  have hA : (load_grid_f32 (one_frame frame_A) 1 2
      (unit_grid (List.replicate 27 0))).isSome = true := by decide!
  obtain ⟨gA, hgA⟩ := Option.isSome_iff_exists.mp hA
  have hAB : (load_grid_f32 (two_frames frame_A frame_B) 2 2
      (unit_grid (List.replicate 27 0))).isSome = true := by decide!
  obtain ⟨gAB, hgAB⟩ := Option.isSome_iff_exists.mp hAB
  refine ⟨unit_grid_zero, gA, gAB, hgA, ?_, hgAB⟩
  rw [h, hgA] at hgAB
  exact hgAB

/-- Claim C5 (exact-corner case), refuted as stated, in the machine reading. On
the grid with origin `0`, cell width `0.3f` and `18 x 2 x 2` vertices, the
coordinates that the program computes for the vertex `(15, 0, 0)` are
`(4.5, 0, 0)`; for a point placed there `load_grid` computes the cell
`(14, 0, 0)`, so its eight updates go to the offsets `56 .. 63` of the cell
`(14..15, 0..1, 0..1)`, and the corners `(16, j, k)` of the cell of the claim,
from offset `64` on, receive nothing. -/
theorem exact_corner_fails_f32 :
    fl32 (3 / 10) = three_tenths
    ∧ axis_origin_f32 0 15 three_tenths = some (9 / 2)
    ∧ cell_index_f32 (thirds_grid []) ⟨9 / 2, 0, 0⟩ = some (14, 0, 0)
    ∧ offsets_f32 ((thirds_grid []).dimy * (thirds_grid []).dimz) (thirds_grid []).dimz
        (14, 0, 0) = some [56, 60, 62, 58, 59, 57, 61, 63]
    ∧ flat_index (thirds_grid []) 15 0 0 = 60
    ∧ flat_index (thirds_grid []) 16 0 0 = 64 := by
  decide!

/-- Claim C5 (exact-corner case), amended: in exact arithmetic. On a grid with
positive cell width, for a point `p` placed exactly on the lattice vertex
`(i, j, k)` whose cell `(i..i+1, j..j+1, k..k+1)` is in bounds, `load_grid`
finds the cell `(i, j, k)`, its eight updates complete, the weight of the
vertex `(i, j, k)` grows by exactly `3 * cw^2`, the weight of every corner
`(i+a, j+b, k+c)` of the cell grows by `3 * cw^2` minus the squared distance
from `p` to that corner, and no other entry of the buffer changes. -/
theorem exact_corner (g : weighted_grid) (w : List ℚ) (i j k : ℤ)
    (hcw : 0 < g.cell_width)
    (hi : 0 ≤ i ∧ i + 1 ≤ g.dimx - 1) (hj : 0 ≤ j ∧ j + 1 ≤ g.dimy - 1)
    (hk : 0 ≤ k ∧ k + 1 ≤ g.dimz - 1)
    (hw : w.length = (g.dimx * g.dimy * g.dimz).toNat) :
    cell_index g (vertex g i j k) = (i, j, k)
    ∧ ∃ w', load_atom g w (vertex g i j k) = some w'
      ∧ w'.length = w.length
      ∧ w'.getD (flat_index g i j k).toNat 0
          = w.getD (flat_index g i j k).toNat 0 + 3 * g.cell_width * g.cell_width
      ∧ (∀ a b c : ℤ, (a = 0 ∨ a = 1) → (b = 0 ∨ b = 1) → (c = 0 ∨ c = 1) →
          w'.getD (flat_index g (i + a) (j + b) (k + c)).toNat 0
            = w.getD (flat_index g (i + a) (j + b) (k + c)).toNat 0
              + (3 * g.cell_width * g.cell_width
                  - distance2 (vertex g i j k) (vertex g (i + a) (j + b) (k + c))))
      ∧ (∀ n : ℕ, (∀ a b c : ℤ, (a = 0 ∨ a = 1) → (b = 0 ∨ b = 1) → (c = 0 ∨ c = 1) →
            flat_index g (i + a) (j + b) (k + c) ≠ (n : ℤ)) →
          w'.getD n 0 = w.getD n 0) := by
  have hci := cell_index_vertex g hcw i j k
  have hx : 0 ≤ (cell_index g (vertex g i j k)).1
      ∧ (cell_index g (vertex g i j k)).1 + 1 ≤ g.dimx - 1 := by rw [hci]; exact hi
  have hy : 0 ≤ (cell_index g (vertex g i j k)).2.1
      ∧ (cell_index g (vertex g i j k)).2.1 + 1 ≤ g.dimy - 1 := by rw [hci]; exact hj
  have hz : 0 ≤ (cell_index g (vertex g i j k)).2.2
      ∧ (cell_index g (vertex g i j k)).2.2 + 1 ≤ g.dimz - 1 := by rw [hci]; exact hk
  have hbounds : ∀ d ∈ deposits g (vertex g i j k), 0 ≤ d.1 ∧ d.1.toNat < w.length := by
    intro d hd
    obtain ⟨a, b, c, ha, hb, hc, rfl⟩ := mem_deposits hd
    have hb := corner_deposit_bounds hx hy hz ha hb hc
    rw [hw]
    exact ⟨hb.1, (Int.toNat_lt_toNat (lt_of_le_of_lt hb.1 hb.2)).mpr hb.2⟩
  obtain ⟨w', hw'⟩ := apply_deposits_of_bounds hbounds
  obtain ⟨hl, -, hg⟩ := apply_deposits_eq_some hw'
  have hnd := deposits_nodup g (vertex g i j k) (by linarith [hj.1, hj.2])
    (by linarith [hk.1, hk.2])
  have hcd : ∀ a b c : ℤ, corner_deposit g (vertex g i j k) a b c
      = (flat_index g (i + a) (j + b) (k + c),
         3 * g.cell_width * g.cell_width
           - distance2 (vertex g i j k) (vertex g (i + a) (j + b) (k + c))) := by
    intro a b c
    simp only [corner_deposit, hci]
  have hcorner : ∀ a b c : ℤ, (a = 0 ∨ a = 1) → (b = 0 ∨ b = 1) → (c = 0 ∨ c = 1) →
      w'.getD (flat_index g (i + a) (j + b) (k + c)).toNat 0
        = w.getD (flat_index g (i + a) (j + b) (k + c)).toNat 0
          + (3 * g.cell_width * g.cell_width
              - distance2 (vertex g i j k) (vertex g (i + a) (j + b) (k + c))) := by
    intro a b c ha hb hc
    have hmem : corner_deposit g (vertex g i j k) a b c ∈ deposits g (vertex g i j k) := by
      rw [deposits_eq]
      rcases ha with rfl | rfl <;> rcases hb with rfl | rfl <;> rcases hc with rfl | rfl <;>
        simp
    have h0 := (corner_deposit_bounds hx hy hz ha hb hc).1
    have ht := total_at_of_nodup hnd hmem h0
    rw [hcd] at ht
    rw [hg, ht]
  refine ⟨hci, w', hw', hl, ?_, hcorner, ?_⟩
  · have := hcorner 0 0 0 (Or.inl rfl) (Or.inl rfl) (Or.inl rfl)
    simp only [add_zero] at this
    rw [this]
    simp [distance2]
  · intro n hn
    rw [hg, total_at_eq_zero, add_zero]
    intro d hd
    obtain ⟨a, b, c, ha, hb, hc, rfl⟩ := mem_deposits hd
    rw [hcd]
    exact hn a b c ha hb hc

/-- Claim C5, amended, on the grid of `2 x 2 x 2` vertices with cell width `1`,
for the point on the vertex `(0, 0, 0)`. -/
theorem exact_corner_witness :
    ∃ w', load_atom (centre_grid [0, 0, 0, 0, 0, 0, 0, 0])
        [0, 0, 0, 0, 0, 0, 0, 0] (vertex (centre_grid [0, 0, 0, 0, 0, 0, 0, 0]) 0 0 0) = some w'
      ∧ w'.getD (flat_index (centre_grid [0, 0, 0, 0, 0, 0, 0, 0]) 0 0 0).toNat 0
          = ([0, 0, 0, 0, 0, 0, 0, 0] : List ℚ).getD
              (flat_index (centre_grid [0, 0, 0, 0, 0, 0, 0, 0]) 0 0 0).toNat 0
            + 3 * (centre_grid [0, 0, 0, 0, 0, 0, 0, 0]).cell_width
                * (centre_grid [0, 0, 0, 0, 0, 0, 0, 0]).cell_width := by
  obtain ⟨-, w', h1, -, h2, -⟩ :=
    exact_corner (centre_grid [0, 0, 0, 0, 0, 0, 0, 0]) [0, 0, 0, 0, 0, 0, 0, 0] 0 0 0
      (by simp [centre_grid]) (by simp [centre_grid]) (by simp [centre_grid])
      (by simp [centre_grid]) (by simp [centre_grid])
  exact ⟨w', h1, h2⟩

/-- Claim C6 (end-to-end scenario), refuted as stated. For one frame holding one
point at `(1/2, 1/2, 1/2)` and cell width `1`, it is not the case that all eight
weights equal `9/4` after `construct_grid` and `load_grid`. -/
theorem end_to_end_not_uniform :
    ¬ ∃ g, f_tessellate_area centre_x 1 1 1 = some g ∧ ∀ v ∈ g.weights, v = 9 / 4 := by
  rintro ⟨g, hg, hv⟩
  rw [f_tessellate_area_centre] at hg
  injection hg with hg
  subst hg
  have := hv 3 (by simp [centre_grid])
  norm_num at this

/-- Claim C6 (end-to-end scenario), amended. For one frame holding one point at
`(1/2, 1/2, 1/2)` and cell width `1`, `construct_grid` yields the grid of
`2 x 2 x 2` vertices with origin `(1/2, 1/2, 1/2)`, so the point is the lattice
vertex `(0, 0, 0)`; after `load_grid` the weight of the vertex `(a, b, c)` is
`3 - (a + b + c)`, that is the buffer is `[3, 2, 2, 1, 2, 1, 1, 0]`. -/
theorem end_to_end_scenario :
    (∀ fr a, centre_x fr a = ⟨1 / 2, 1 / 2, 1 / 2⟩)
    ∧ construct_grid centre_x 1 1 1 =
        { weights := [0, 0, 0, 0, 0, 0, 0, 0], dimx := 2, dimy := 2, dimz := 2,
          cell_width := 1, minx := 1 / 2, miny := 1 / 2, minz := 1 / 2 }
    ∧ load_grid centre_x 1 1 (construct_grid centre_x 1 1 1) =
        some { weights := [3, 2, 2, 1, 2, 1, 1, 0], dimx := 2, dimy := 2, dimz := 2,
               cell_width := 1, minx := 1 / 2, miny := 1 / 2, minz := 1 / 2 }
    ∧ cell_index (construct_grid centre_x 1 1 1) (centre_x 0 0) = (0, 0, 0) := by
  refine ⟨fun _ _ => rfl, construct_grid_centre, f_tessellate_area_centre, ?_⟩
  rw [construct_grid_centre]
  simp [cell_index, centre_grid, centre_x, int_cast_zero]

/-- Claim C7 (grid origin). For every non-empty point sequence whose
coordinates do not exceed `FLT_MAX`, `construct_grid` stores the caller's cell
width unchanged and stores as `minx`, `miny`, `minz` the smallest `x`, `y`, `z`
coordinate over all atoms of all frames: a lower bound of every atom that is
attained by some atom, with no margin. -/
theorem grid_origin (x : ℕ → ℕ → rvec) (nframes natoms : ℕ) (cell_width : ℚ)
    (hf : 0 < nframes) (ha : 0 < natoms)
    (hmax : ∀ fr a, fr < nframes → a < natoms →
      (x fr a).XX ≤ FLT_MAX ∧ (x fr a).YY ≤ FLT_MAX ∧ (x fr a).ZZ ≤ FLT_MAX) :
    let g := construct_grid x nframes natoms cell_width
    g.cell_width = cell_width
    ∧ (∀ fr a, fr < nframes → a < natoms →
        g.minx ≤ (x fr a).XX ∧ g.miny ≤ (x fr a).YY ∧ g.minz ≤ (x fr a).ZZ)
    ∧ (∃ fr a, fr < nframes ∧ a < natoms ∧ g.minx = (x fr a).XX)
    ∧ (∃ fr a, fr < nframes ∧ a < natoms ∧ g.miny = (x fr a).YY)
    ∧ (∃ fr a, fr < nframes ∧ a < natoms ∧ g.minz = (x fr a).ZZ) := by
  intro g
  have hb : ∀ fr a, fr < nframes → a < natoms →
      g.minx ≤ (x fr a).XX ∧ g.miny ≤ (x fr a).YY ∧ g.minz ≤ (x fr a).ZZ := by
    intro fr a hfr haa
    obtain ⟨h1, h2, h3, -⟩ := scan_extrema_bounds (x := x) hfr haa
    exact ⟨h1, h2, h3⟩
  obtain ⟨a1, a2, a3, -⟩ := scan_foldl_attained (atoms x nframes natoms) extrema_init
  rw [← scan_extrema_eq_foldl] at a1 a2 a3
  have h00 := hb 0 0 hf ha
  have m00 := hmax 0 0 hf ha
  refine ⟨rfl, hb, ?_, ?_, ?_⟩
  · rcases a1 with h | ⟨p, hp, h⟩
    · refine ⟨0, 0, hf, ha, le_antisymm h00.1 ?_⟩
      exact le_trans m00.1 (le_of_eq h.symm)
    · obtain ⟨fr, hfr, a, haa, rfl⟩ := mem_atoms.mp hp
      exact ⟨fr, a, hfr, haa, h⟩
  · rcases a2 with h | ⟨p, hp, h⟩
    · refine ⟨0, 0, hf, ha, le_antisymm h00.2.1 ?_⟩
      exact le_trans m00.2.1 (le_of_eq h.symm)
    · obtain ⟨fr, hfr, a, haa, rfl⟩ := mem_atoms.mp hp
      exact ⟨fr, a, hfr, haa, h⟩
  · rcases a3 with h | ⟨p, hp, h⟩
    · refine ⟨0, 0, hf, ha, le_antisymm h00.2.2 ?_⟩
      exact le_trans m00.2.2 (le_of_eq h.symm)
    · obtain ⟨fr, hfr, a, haa, rfl⟩ := mem_atoms.mp hp
      exact ⟨fr, a, hfr, haa, h⟩

/-- Claim C7 at one frame holding one atom at `(1/2, 1/2, 1/2)`. -/
theorem grid_origin_witness :
    (construct_grid centre_x 1 1 1).cell_width = 1
      ∧ ∃ fr a, fr < 1 ∧ a < 1 ∧ (construct_grid centre_x 1 1 1).minx = (centre_x fr a).XX :=
  have h := grid_origin centre_x 1 1 1 (by decide) (by decide)
    (by intro fr a _ _; simp only [centre_x, FLT_MAX]; norm_num)
  ⟨h.1, h.2.2.1⟩

/-- Claim C8 (degenerate input), the code at a failing input. Two frames of one
atom each, every atom at `(-1, -1, -1)`, cell width `1/2`: all points coincide,
yet `construct_grid` returns `4` vertices on each axis instead of `2`, because
the running maxima stay at `FLT_MIN`. -/
theorem degenerate_below_zero :
    (∀ fr a, repeated_x fr a = ⟨-1, -1, -1⟩)
    ∧ (construct_grid repeated_x 2 1 (1 / 2)).dimx = 4
    ∧ (construct_grid repeated_x 2 1 (1 / 2)).dimy = 4
    ∧ (construct_grid repeated_x 2 1 (1 / 2)).dimz = 4 := by
  have h : scan_extrema repeated_x 2 1 = ⟨-1, -1, -1, FLT_MIN, FLT_MIN, FLT_MIN⟩ := by
    simp [scan_extrema, scan_atom, extrema_init, FLT_MAX, FLT_MIN, List.range_succ,
      repeated_x]
    norm_num
  have hc : int_cast ((FLT_MIN - (-1)) / (1 / 2)) = 2 := by
    apply int_cast_eq_of <;> norm_num [FLT_MIN]
  refine ⟨fun _ _ => rfl, ?_, ?_, ?_⟩ <;>
    simp only [construct_grid, h, hc] <;> norm_num

/-- Claim C9 (buffer shape invariant), refuted as stated. One frame holding the
atoms `(0, 0, 0)` and `(10, 0, 0)`, cell width `-1` (all operations exact):
`construct_grid` computes `dimx = -8`, `dimy = dimz = 2`, so
`dimx * dimy * dimz = -32`, and no buffer has that many entries. -/
theorem buffer_shape_negative_count :
    (∀ fr a, ten_apart_x fr a = if a = 0 then ⟨0, 0, 0⟩ else ⟨10, 0, 0⟩)
    ∧ axis_dim_f32 (scan_extrema ten_apart_x 1 2).maxx (scan_extrema ten_apart_x 1 2).minx
        (-1) = some (-8)
    ∧ axis_dim_f32 (scan_extrema ten_apart_x 1 2).maxy (scan_extrema ten_apart_x 1 2).miny
        (-1) = some 2
    ∧ axis_dim_f32 (scan_extrema ten_apart_x 1 2).maxz (scan_extrema ten_apart_x 1 2).minz
        (-1) = some 2
    ∧ ((construct_grid ten_apart_x 1 2 (-1)).dimx, (construct_grid ten_apart_x 1 2 (-1)).dimy,
        (construct_grid ten_apart_x 1 2 (-1)).dimz) = (-8, 2, 2)
    ∧ (-8 : ℤ) * 2 * 2 = -32
    ∧ (∀ w : List ℚ, (w.length : ℤ) ≠ -8 * 2 * 2)
    ∧ construct_grid_f32 ten_apart_x 1 2 (-1) = none := by
  refine ⟨fun _ _ => rfl, by decide!, by decide!, by decide!, by decide!, by decide, ?_,
    by decide!⟩
  intro w h
  have : (0 : ℤ) ≤ (w.length : ℤ) := Int.natCast_nonneg _
  omega

/-- Claim C9, amended, in the machine reading (binary32 reals, 32-bit `int`).
Whenever `construct_grid` is defined, which includes that the count
`dimx * dimy * dimz` lies in `[0, INT_MAX]`, the weight buffer has exactly
`dimx * dimy * dimz` entries, all zero; and a completed `load_grid`, on any grid
and any sequence, changes neither the length of the buffer nor `dimx`, `dimy`,
`dimz`, `cell_width` or the origin, so the equality of the length with
`dimx * dimy * dimz` still holds after it. -/
theorem buffer_shape_f32 (x : ℕ → ℕ → rvec) (nframes natoms : ℕ) (cell_width : ℚ)
    (g : weighted_grid) (hg : construct_grid_f32 x nframes natoms cell_width = some g) :
    (g.weights.length : ℤ) = g.dimx * g.dimy * g.dimz
    ∧ (0 ≤ g.dimx * g.dimy * g.dimz ∧ g.dimx * g.dimy * g.dimz ≤ INT_MAX)
    ∧ (∀ v ∈ g.weights, v = 0)
    ∧ (∀ (y : ℕ → ℕ → rvec) (nf na : ℕ) (h h' : weighted_grid),
        load_grid_f32 y nf na h = some h' →
        h'.weights.length = h.weights.length ∧ h'.dimx = h.dimx ∧ h'.dimy = h.dimy
          ∧ h'.dimz = h.dimz ∧ h'.cell_width = h.cell_width ∧ h'.minx = h.minx
          ∧ h'.miny = h.miny ∧ h'.minz = h.minz
          ∧ ((h.weights.length : ℤ) = h.dimx * h.dimy * h.dimz →
              (h'.weights.length : ℤ) = h'.dimx * h'.dimy * h'.dimz)) := by
  obtain ⟨-, -, -, -, ⟨p0, p1⟩, hw, -⟩ := construct_grid_f32_eq_some hg
  refine ⟨?_, ⟨p0, p1⟩, ?_, ?_⟩
  · rw [hw, List.length_replicate]
    exact Int.toNat_of_nonneg p0
  · intro v hv
    rw [hw] at hv
    exact (List.mem_replicate.mp hv).2
  · intro y nf na h h' hload
    obtain ⟨e0, e1, e2, e3, e4, e5, e6, e7⟩ := load_grid_f32_fields hload
    refine ⟨e0, e1, e2, e3, e4, e5, e6, e7, ?_⟩
    intro hh
    rw [e0, e1, e2, e3]
    exact hh

/-- Claim C9, amended, at one frame holding the atoms `(0, 0, 0)` and
`(0.9f, 0, 0)`, cell width `0.1f`, before and after `load_grid`. -/
theorem buffer_shape_f32_witness :
    ((tenths_grid (List.replicate 44 0)).weights.length : ℤ)
        = (tenths_grid (List.replicate 44 0)).dimx * (tenths_grid (List.replicate 44 0)).dimy
            * (tenths_grid (List.replicate 44 0)).dimz
    ∧ ∃ h', load_grid_f32 tenths_x 1 2 (tenths_grid (List.replicate 44 0)) = some h'
        ∧ (h'.weights.length : ℤ) = h'.dimx * h'.dimy * h'.dimz := by
  have hs := buffer_shape_f32 tenths_x 1 2 tenth (tenths_grid (List.replicate 44 0))
    construct_grid_f32_tenths
  obtain ⟨h', hh'⟩ := load_grid_f32_tenths
  exact ⟨hs.1, h', hh', (hs.2.2.2 tenths_x 1 2 _ h' hh').2.2.2.2.2.2.2.2 hs.1⟩

/-- Claim C10 (non-positive cell width is rejected), refuted as stated, in the
machine reading. With the cell width `-1` and one frame holding one atom at
`(1/2, 1/2, 1/2)` (every operation is exact), `construct_grid` scans the atom
(the origin is the atom, not the seed `FLT_MAX`) and produces a grid of
`2 x 2 x 2` vertices, and `f_tessellate_area` goes on to load it, leaving the
weights `3, 2, 2, 1, 2, 1, 1, 0`: nothing is rejected. -/
theorem nonpositive_width_not_rejected_f32 :
    (∀ fr a, centre_x fr a = ⟨1 / 2, 1 / 2, 1 / 2⟩)
    ∧ construct_grid_f32 centre_x 1 1 (-1) =
      some { weights := [0, 0, 0, 0, 0, 0, 0, 0], dimx := 2, dimy := 2, dimz := 2,
             cell_width := -1, minx := 1 / 2, miny := 1 / 2, minz := 1 / 2 }
    ∧ f_tessellate_area_f32 centre_x 1 1 (-1) =
      some { weights := [3, 2, 2, 1, 2, 1, 1, 0], dimx := 2, dimy := 2, dimz := 2,
             cell_width := -1, minx := 1 / 2, miny := 1 / 2, minz := 1 / 2 } := by
  refine ⟨fun _ _ => rfl, ?_⟩
  decide!

/-- Claim C10, amended, in the machine reading (binary32 reals, 32-bit `int`).
`construct_grid` and `f_tessellate_area` reject no cell width `<= 0`. With the
cell width `0` every quotient `(max - min) / cell_width` is a division by zero,
whose conversion to `int` is not defined: neither function has a defined result.
With a cell width `< 0`, whenever `construct_grid` is defined it has scanned
every atom (its origin is a lower bound of all of them), it stores the cell
width unchanged, and for a non-empty sequence each dimension is at most `2`;
and for every non-empty sequence whose atoms all lie at one point with
coordinates in `[FLT_MIN, FLT_MAX]` it is defined and returns the grid of
`2 x 2 x 2` vertices with that point as origin and eight zero weights. -/
theorem nonpositive_width_f32 (x : ℕ → ℕ → rvec) (nframes natoms : ℕ) (cell_width : ℚ)
    (hcw : cell_width ≤ 0) :
    (cell_width = 0 →
        construct_grid_f32 x nframes natoms cell_width = none
        ∧ f_tessellate_area_f32 x nframes natoms cell_width = none)
    ∧ (∀ g, construct_grid_f32 x nframes natoms cell_width = some g →
        cell_width < 0 ∧ g.cell_width = cell_width
        ∧ (∀ fr a, fr < nframes → a < natoms →
            g.minx ≤ (x fr a).XX ∧ g.miny ≤ (x fr a).YY ∧ g.minz ≤ (x fr a).ZZ)
        ∧ (0 < nframes → 0 < natoms → g.dimx ≤ 2 ∧ g.dimy ≤ 2 ∧ g.dimz ≤ 2))
    ∧ (cell_width < 0 → 0 < nframes → 0 < natoms → ∀ p : rvec,
        (∀ fr a, fr < nframes → a < natoms → x fr a = p) →
        FLT_MIN ≤ p.XX ∧ p.XX ≤ FLT_MAX → FLT_MIN ≤ p.YY ∧ p.YY ≤ FLT_MAX →
        FLT_MIN ≤ p.ZZ ∧ p.ZZ ≤ FLT_MAX →
        construct_grid_f32 x nframes natoms cell_width
          = some { weights := List.replicate 8 0, dimx := 2, dimy := 2, dimz := 2,
                   cell_width := cell_width, minx := p.XX, miny := p.YY, minz := p.ZZ }) := by
  refine ⟨?_, ?_, ?_⟩
  · intro h0
    subst h0
    have h := construct_grid_f32_zero_width x nframes natoms
    refine ⟨h, ?_⟩
    unfold f_tessellate_area_f32
    rw [h]
    rfl
  · intro g hg
    have hne : cell_width ≠ 0 := by
      intro h0
      subst h0
      rw [construct_grid_f32_zero_width] at hg
      exact Option.noConfusion hg
    have hlt : cell_width < 0 := lt_of_le_of_ne hcw hne
    obtain ⟨dx, dy, dz, -, -, -, hc, mx, my, mz⟩ := construct_grid_f32_eq_some hg
    refine ⟨hlt, hc, ?_, ?_⟩
    · intro fr a hfr ha
      obtain ⟨h1, h2, h3, -⟩ := scan_extrema_bounds (x := x) hfr ha
      rw [mx, my, mz]
      exact ⟨h1, h2, h3⟩
    · intro hf ha
      obtain ⟨h1, h2, h3, h4, h5, h6⟩ := scan_extrema_bounds (x := x) hf ha
      exact ⟨axis_dim_f32_neg_width hlt (le_trans h1 h4) dx,
        axis_dim_f32_neg_width hlt (le_trans h2 h5) dy,
        axis_dim_f32_neg_width hlt (le_trans h3 h6) dz⟩
  · intro hlt hf ha p hp hx hy hz
    exact construct_grid_f32_coincident (ne_of_lt hlt) hf ha hp hx hy hz

/-- Claim C10, amended, at the cell width `-1` and one frame holding one atom
at `(1/2, 1/2, 1/2)`. -/
theorem nonpositive_width_f32_witness :
    (-1 : ℚ) ≤ 0
    ∧ construct_grid_f32 centre_x 1 1 (-1)
        = some { weights := List.replicate 8 0, dimx := 2, dimy := 2, dimz := 2,
                 cell_width := -1, minx := 1 / 2, miny := 1 / 2, minz := 1 / 2 } :=
  ⟨by norm_num, (nonpositive_width_f32 centre_x 1 1 (-1) (by norm_num)).2.2 (by norm_num)
    (by decide) (by decide) ⟨1 / 2, 1 / 2, 1 / 2⟩ (fun _ _ _ _ => rfl)
    (by norm_num [FLT_MIN, FLT_MAX]) (by norm_num [FLT_MIN, FLT_MAX])
    (by norm_num [FLT_MIN, FLT_MAX])⟩

/-- Claim C11 (empty input is rejected), refuted as stated, in the machine
reading. With zero frames and the cell width `2^127`, `construct_grid` reports
nothing and produces a grid from the seeds of the extrema: the quotient
`(FLT_MIN - FLT_MAX) / 2^127` is `-(2 - 2^(-23))`, its conversion to `int` is
`-1`, so the grid has one vertex per axis, one weight, and the origin
`(FLT_MAX, FLT_MAX, FLT_MAX)`. -/
theorem empty_input_not_rejected_f32 :
    float_result (FLT_MIN - FLT_MAX) = some (-FLT_MAX)
    ∧ fdiv (-FLT_MAX) (2 ^ 127) = some (-(2 - 1 / 2 ^ 23))
    ∧ int_cast_f32 (-(2 - 1 / 2 ^ 23)) = some (-1)
    ∧ axis_dim_f32 FLT_MIN FLT_MAX (2 ^ 127) = some 1
    ∧ construct_grid_f32 traj_x 0 3 (2 ^ 127)
      = some { weights := [0], dimx := 1, dimy := 1, dimz := 1, cell_width := 2 ^ 127,
               minx := FLT_MAX, miny := FLT_MAX, minz := FLT_MAX } := by
  decide!

/-- Claim C11, amended, in the machine reading (binary32 reals, 32-bit `int`).
`construct_grid` has no check of the counts. With zero frames or zero atoms per
frame both loops run zero times and the extrema keep their seeds; whenever
`construct_grid` is defined, the grid it returns has the origin
`(FLT_MAX, FLT_MAX, FLT_MAX)`, the cell width given, on each axis the dimension
`(int)((FLT_MIN - FLT_MAX) / cell_width) + 2` and `dimx * dimy * dimz` weights.
It is defined for the cell width `2^127`, where the grid has one vertex and one
weight; for every cell width below `2^96` in magnitude, `0` included, the
quotient is outside the range of `int` or a division by zero, and the
behaviour is not defined. In no case is an error reported. -/
theorem empty_input_f32 (x : ℕ → ℕ → rvec) (nframes natoms : ℕ) (cell_width : ℚ)
    (h : nframes = 0 ∨ natoms = 0) :
    scan_extrema x nframes natoms = extrema_init
    ∧ (∀ g, construct_grid_f32 x nframes natoms cell_width = some g →
        g.minx = FLT_MAX ∧ g.miny = FLT_MAX ∧ g.minz = FLT_MAX
        ∧ g.cell_width = cell_width
        ∧ axis_dim_f32 FLT_MIN FLT_MAX cell_width = some g.dimx
        ∧ g.dimy = g.dimx ∧ g.dimz = g.dimx
        ∧ (g.weights.length : ℤ) = g.dimx * g.dimy * g.dimz)
    ∧ (cell_width = 2 ^ 127 →
        construct_grid_f32 x nframes natoms cell_width
          = some { weights := [0], dimx := 1, dimy := 1, dimz := 1, cell_width := 2 ^ 127,
                   minx := FLT_MAX, miny := FLT_MAX, minz := FLT_MAX })
    ∧ (|cell_width| < 2 ^ 96 → construct_grid_f32 x nframes natoms cell_width = none) := by
  have he := scan_extrema_of_empty x h
  refine ⟨he, ?_, ?_, ?_⟩
  · intro g hg
    obtain ⟨dx, dy, dz, -, ⟨p0, -⟩, hw, hc, mx, my, mz⟩ := construct_grid_f32_eq_some hg
    rw [he] at dx dy dz mx my mz
    have ex : extrema_init.maxx = FLT_MIN ∧ extrema_init.minx = FLT_MAX := ⟨rfl, rfl⟩
    have ey : extrema_init.maxy = FLT_MIN ∧ extrema_init.miny = FLT_MAX := ⟨rfl, rfl⟩
    have ez : extrema_init.maxz = FLT_MIN ∧ extrema_init.minz = FLT_MAX := ⟨rfl, rfl⟩
    rw [ex.1, ex.2] at dx
    rw [ey.1, ey.2] at dy
    rw [ez.1, ez.2] at dz
    rw [ex.2] at mx
    rw [ey.2] at my
    rw [ez.2] at mz
    refine ⟨mx, my, mz, hc, dx, ?_, ?_, ?_⟩
    · rw [dx] at dy
      exact (Option.some.inj dy).symm
    · rw [dx] at dz
      exact (Option.some.inj dz).symm
    · rw [hw, List.length_replicate]
      exact Int.toNat_of_nonneg p0
  · intro hcw
    rw [hcw, construct_grid_f32_of_empty x h]
    exact construct_grid_f32_empty_top
  · intro hcw
    unfold construct_grid_f32
    rw [he]
    have ex : extrema_init.maxx = FLT_MIN ∧ extrema_init.minx = FLT_MAX := ⟨rfl, rfl⟩
    simp only [ex.1, ex.2, axis_dim_f32_seeds_small hcw, Option.none_bind]

/-- Claim C11, amended, at two frames of zero atoms each, for the cell widths
`2^127` and `1`. -/
theorem empty_input_f32_witness :
    ((2 : ℕ) = 0 ∨ (0 : ℕ) = 0)
    ∧ construct_grid_f32 traj_x 2 0 (2 ^ 127)
        = some { weights := [0], dimx := 1, dimy := 1, dimz := 1, cell_width := 2 ^ 127,
                 minx := FLT_MAX, miny := FLT_MAX, minz := FLT_MAX }
    ∧ construct_grid_f32 traj_x 2 0 1 = none :=
  ⟨Or.inr rfl, (empty_input_f32 traj_x 2 0 (2 ^ 127) (Or.inr rfl)).2.2.1 rfl,
    (empty_input_f32 traj_x 2 0 1 (Or.inr rfl)).2.2.2 (by norm_num)⟩

/-- Claim C12 (order independence). For a fixed grid, `load_grid` gives the same
result, weight by weight, when the frames are taken in any other order and the
atoms of each frame in any other order; and when it completes, the weight left
at every offset is the initial weight plus the sum, over the atoms of the
sequence counted once each, of what the eight updates of that atom add
there. -/
theorem order_independence (g : weighted_grid) (x : ℕ → ℕ → rvec) (nframes natoms : ℕ)
    (s : ℕ → ℕ) (t : ℕ → ℕ → ℕ)
    (hs : ∀ i, i < nframes → s i < nframes)
    (hsinj : ∀ i, i < nframes → ∀ j, j < nframes → s i = s j → i = j)
    (ht : ∀ fr, fr < nframes → ∀ a, a < natoms → t fr a < natoms)
    (htinj : ∀ fr, fr < nframes → ∀ a, a < natoms → ∀ b, b < natoms →
      t fr a = t fr b → a = b) :
    load_grid (reorder x s t) nframes natoms g = load_grid x nframes natoms g
    ∧ ∀ g', load_grid x nframes natoms g = some g' → ∀ n : ℕ,
        g'.weights.getD n 0
          = g.weights.getD n 0
            + ((atoms x nframes natoms).map (fun p => total_at (deposits g p) n)).sum := by
  refine ⟨load_grid_perm (atoms_reorder_perm x hs hsinj ht htinj) g, ?_⟩
  intro g' hg' n
  obtain ⟨hap, -⟩ := load_grid_eq_some hg'
  obtain ⟨-, -, hget⟩ := apply_deposits_eq_some hap
  rw [hget n, total_at_flatMap]

/-- Claim C12 for two frames of three atoms, with the frames swapped and the
atoms of each frame reversed, on the grid sized from them. -/
theorem order_independence_witness :
    ∃ g', load_grid traj_x 2 3 (construct_grid traj_x 2 3 1) = some g'
      ∧ load_grid (reorder traj_x (fun i => 1 - i) (fun _ a => 2 - a)) 2 3
          (construct_grid traj_x 2 3 1) = some g' := by
  obtain ⟨g', hg'⟩ : ∃ g', load_grid traj_x 2 3 (construct_grid traj_x 2 3 1) = some g' :=
    load_sized_grid (by norm_num)
  have h := (order_independence (construct_grid traj_x 2 3 1) traj_x 2 3
    (fun i => 1 - i) (fun _ a => 2 - a)
    (by intro i hi; dsimp only; omega) (by intro i hi j hj h; dsimp only at h; omega)
    (by intro fr _ a ha; dsimp only; omega)
    (by intro fr _ a ha b hb h; dsimp only at h; omega)).1
  exact ⟨g', hg', h.trans hg'⟩

/-- Claim C13 (index filter). When an index group `id[0..n)` is supplied and
every identifier lies in `[0, natoms)`, the sequence handed to
`f_tessellate_area` has the same number of frames, `n` atoms per frame, and in
every frame `i` its `j`-th atom is the atom number `id[j]` of the frame `i` of
the trajectory (identifiers in their own order, repeats included); when no
index file is supplied the trajectory is handed on unchanged. -/
theorem index_filter (pre_x : ℕ → ℕ → rvec) (nframes natoms isize : ℕ) (indx : ℕ → ℤ)
    (hid : ∀ j, j < isize → 0 ≤ indx j ∧ indx j < (natoms : ℤ)) :
    (∃ x, core_input pre_x nframes natoms (some (isize, indx)) = some (x, nframes, isize)
        ∧ ∀ i j, i < nframes → j < isize → x i j = pre_x i (indx j).toNat)
    ∧ core_input pre_x nframes natoms none = some (pre_x, nframes, natoms) :=
  ⟨⟨_, core_input_filter hid, fun _ _ _ _ => rfl⟩, rfl⟩

/-- Claim C13 for two frames of three atoms and the identifiers `2, 0, 2`. -/
theorem index_filter_witness :
    ∃ x, core_input traj_x 2 3 (some (3, sample_indx)) = some (x, 2, 3)
      ∧ ∀ i j, i < 2 → j < 3 → x i j = traj_x i (sample_indx j).toNat :=
  (index_filter traj_x 2 3 3 sample_indx (by
    intro j _
    simp only [sample_indx]
    split_ifs <;> norm_num)).1

/-- Claim C14 (fixed return value). Whatever the trajectory, the optional index
group and the cell width, a completed `tessellate_area` returns `0`, the grid
built by `construct_grid` and `load_grid` being discarded; and it does complete
for every positive cell width when the identifiers of the index group, if one is
supplied, lie in `[0, natoms)`. -/
theorem fixed_return (pre_x : ℕ → ℕ → rvec) (nframes natoms : ℕ)
    (ndx : Option (ℕ × (ℕ → ℤ))) (cell_width : ℚ) :
    (∀ r, tessellate_area pre_x nframes natoms ndx cell_width = some r → r = 0)
    ∧ (0 < cell_width →
        (∀ isize indx, ndx = some (isize, indx) →
          ∀ j, j < isize → 0 ≤ indx j ∧ indx j < (natoms : ℤ)) →
        tessellate_area pre_x nframes natoms ndx cell_width = some 0) := by
  constructor
  · intro r hr
    unfold tessellate_area at hr
    cases hc : core_input pre_x nframes natoms ndx with
    | none => rw [hc] at hr; simp at hr
    | some c =>
      rw [hc] at hr
      simp only [Option.some_bind] at hr
      cases hf : f_tessellate_area c.1 c.2.1 c.2.2 cell_width with
      | none => rw [hf] at hr; simp at hr
      | some g =>
        rw [hf] at hr
        simp only [Option.map_some'] at hr
        injection hr with hr
        exact hr.symm
  · intro hcw hid
    have hrun : ∀ (y : ℕ → ℕ → rvec) (nf na : ℕ),
        (f_tessellate_area y nf na cell_width).map (fun _ => (0 : ℚ)) = some 0 := by
      intro y nf na
      obtain ⟨g', hg'⟩ : ∃ g', load_grid y nf na (construct_grid y nf na cell_width)
          = some g' := load_sized_grid hcw
      rw [f_tessellate_area, hg']
      rfl
    unfold tessellate_area
    cases ndx with
    | none => exact hrun pre_x nframes natoms
    | some c =>
      obtain ⟨isize, indx⟩ := c
      rw [core_input_filter (hid isize indx rfl)]
      exact hrun _ nframes isize

/-- Claim C14 for two frames of three atoms filtered by the identifiers
`2, 0, 2`, cell width `1`. -/
theorem fixed_return_witness :
    tessellate_area traj_x 2 3 (some (3, sample_indx)) 1 = some 0 :=
  (fixed_return traj_x 2 3 (some (3, sample_indx)) 1).2 (by norm_num) (by
    intro isize indx h j hj
    injection h with h
    injection h with h1 h2
    subst h1 h2
    simp only [sample_indx]
    split_ifs <;> norm_num)

/-- Claim C15 (eight-corner deposit), refuted as stated, in the machine reading.
On the grid with origin `0` and cell width `0.1f`, for the point
`(0.25, 0, 0)` in the cell `(2, 0, 0)`: `grid_point[XX]` starts at the
coordinate `0.2000000030` of the vertices with `x = 2`, but after `+= ` and
`-=` of the cell width it holds `0.2000000179` while the offsets of the
vertices `(2, 1, 0)`, `(2, 1, 1)`, `(2, 0, 1)` are written. -/
theorem grid_point_drift_f32 :
    cell_index_f32 (tenths_grid []) ⟨1 / 4, 0, 0⟩ = some (2, 0, 0)
    ∧ axis_origin_f32 (tenths_grid []).minx 2 (tenths_grid []).cell_width
        = some (13421773 / 67108864)
    ∧ (walk_f32 (tenths_grid []) (2, 0, 0)).map (fun l => l.map rvec.XX)
        = some [13421773 / 67108864, 5033165 / 16777216, 5033165 / 16777216,
                6710887 / 33554432, 6710887 / 33554432, 6710887 / 33554432,
                5033165 / 16777216, 5033165 / 16777216]
    ∧ (13421773 : ℚ) / 67108864 ≠ 6710887 / 33554432 := by
  decide!

/-- Claim C15 (the eight-corner deposit equals the reference definition),
amended. In the machine reading (32-bit `int`), for every in-bounds cell
`(xi, yi, zi)` of a grid whose number of vertices fits an `int`, the eight
offsets that `load_grid` forms are, in program order, the offsets
`(xi+a) * dimy * dimz + (yi+b) * dimz + (zi+c)` of the corners, each `(a, b, c)`
of `{0, 1}^3` once. In exact arithmetic, in the walk of `load_grid` for a point
`p`, at each of the eight steps `grid_point` holds the coordinates of the vertex
whose offset is written: the updates are those of the reference definition in
another order, and give the same buffer; when the cell indices of `p` are in
bounds, the walk completes, adds
`3 * cw^2 - |p - vertex (xi+a, yi+b, zi+c)|^2` at the offset of the corner
`(xi+a, yi+b, zi+c)` on top of the previous value for each `(a, b, c)`, and
leaves every other entry unchanged. -/
theorem eight_corner_deposit_f32 (g : weighted_grid) (p : rvec) (w : List ℚ)
    (hx : 0 ≤ (cell_index g p).1 ∧ (cell_index g p).1 + 1 ≤ g.dimx - 1)
    (hy : 0 ≤ (cell_index g p).2.1 ∧ (cell_index g p).2.1 + 1 ≤ g.dimy - 1)
    (hz : 0 ≤ (cell_index g p).2.2 ∧ (cell_index g p).2.2 + 1 ≤ g.dimz - 1)
    (hw : w.length = (g.dimx * g.dimy * g.dimz).toNat) :
    (∀ c : ℤ × ℤ × ℤ, 0 ≤ c.1 ∧ c.1 + 1 ≤ g.dimx - 1 → 0 ≤ c.2.1 ∧ c.2.1 + 1 ≤ g.dimy - 1 →
        0 ≤ c.2.2 ∧ c.2.2 + 1 ≤ g.dimz - 1 → g.dimx * g.dimy * g.dimz ≤ INT_MAX →
        offsets_f32 (g.dimy * g.dimz) g.dimz c
          = some (program_order.map (fun t =>
              flat_index g (c.1 + t.1) (c.2.1 + t.2.1) (c.2.2 + t.2.2))))
    ∧ program_order.Perm corners
    ∧ walk g p = program_order.map (fun t =>
        (flat_index g ((cell_index g p).1 + t.1) ((cell_index g p).2.1 + t.2.1)
            ((cell_index g p).2.2 + t.2.2),
         vertex g ((cell_index g p).1 + t.1) ((cell_index g p).2.1 + t.2.1)
            ((cell_index g p).2.2 + t.2.2)))
    ∧ deposits g p
        = (walk g p).map (fun s => (s.1, 3 * g.cell_width * g.cell_width - distance2 p s.2))
    ∧ (deposits g p).Perm (reference_deposits g p)
    ∧ load_atom g w p = apply_deposits w (reference_deposits g p)
    ∧ ∃ w', load_atom g w p = some w' ∧ w'.length = w.length
      ∧ (∀ a b c : ℤ, (a, b, c) ∈ corners →
          w'.getD (flat_index g ((cell_index g p).1 + a) ((cell_index g p).2.1 + b)
              ((cell_index g p).2.2 + c)).toNat 0
            = w.getD (flat_index g ((cell_index g p).1 + a) ((cell_index g p).2.1 + b)
                ((cell_index g p).2.2 + c)).toNat 0
              + (3 * g.cell_width * g.cell_width
                  - distance2 p (vertex g ((cell_index g p).1 + a)
                      ((cell_index g p).2.1 + b) ((cell_index g p).2.2 + c))))
      ∧ (∀ n : ℕ, (∀ a b c : ℤ, (a, b, c) ∈ corners →
            flat_index g ((cell_index g p).1 + a) ((cell_index g p).2.1 + b)
              ((cell_index g p).2.2 + c) ≠ (n : ℤ)) →
          w'.getD n 0 = w.getD n 0) := by
  refine ⟨fun c cx cy cz hP => (offsets_f32_in_grid cx cy cz hP).2, program_order_perm,
    walk_eq g p, deposits_eq_walk g p, deposits_perm_reference g p,
    apply_deposits_perm (deposits_perm_reference g p) w, ?_⟩
  obtain ⟨w', h1, h2, h3, h4, -⟩ := load_atom_in_bounds hx hy hz hw
  refine ⟨w', h1, h2, ?_, ?_⟩
  · intro a b c habc
    obtain ⟨ha, hb, hc⟩ := mem_corners.mp habc
    exact h3 a b c ha hb hc
  · intro n hn
    apply h4 n
    intro a b c ha hb hc
    exact hn a b c (mem_corners.mpr ⟨ha, hb, hc⟩)

/-- Claim C15, amended, on the grid of `2 x 2 x 2` vertices with origin
`(1/2, 1/2, 1/2)` and cell width `1`, for the point `(1, 1, 1)` in the middle of
its only cell. -/
theorem eight_corner_deposit_f32_witness :
    offsets_f32 ((centre_grid [0, 0, 0, 0, 0, 0, 0, 0]).dimy
          * (centre_grid [0, 0, 0, 0, 0, 0, 0, 0]).dimz)
        (centre_grid [0, 0, 0, 0, 0, 0, 0, 0]).dimz (0, 0, 0)
      = some [0, 4, 6, 2, 3, 1, 5, 7]
    ∧ ∃ w', load_atom (centre_grid [0, 0, 0, 0, 0, 0, 0, 0]) [0, 0, 0, 0, 0, 0, 0, 0] ⟨1, 1, 1⟩
        = some w' ∧ w'.length = 8 := by
  have hc : cell_index (centre_grid [0, 0, 0, 0, 0, 0, 0, 0]) ⟨1, 1, 1⟩ = (0, 0, 0) := by
    have h : int_cast ((1 : ℚ) - 1 / 2) = 0 := by
      apply int_cast_eq_of <;> norm_num
    simp only [cell_index, centre_grid, div_one, h]
  have h := eight_corner_deposit_f32 (centre_grid [0, 0, 0, 0, 0, 0, 0, 0])
    ⟨1, 1, 1⟩ [0, 0, 0, 0, 0, 0, 0, 0]
    (by rw [hc]; simp [centre_grid]) (by rw [hc]; simp [centre_grid])
    (by rw [hc]; simp [centre_grid]) (by simp [centre_grid])
  obtain ⟨w', h1, h2, -⟩ := h.2.2.2.2.2.2
  refine ⟨?_, w', h1, h2⟩
  rw [h.1 (0, 0, 0) (by simp [centre_grid]) (by simp [centre_grid]) (by simp [centre_grid])
    (by decide)]
  decide

/-- Claim C16 (maximum seeding), refuted as stated, in the machine reading. One
frame holding the atoms `(0, 1, 1)` and `(0.9f, 1, 1)`, cell width `0.1f`: the
largest coordinates `0.9f, 1, 1` are all `>= FLT_MIN`, the true extent along
`x` is `0.9f - 0` and `floor(0.9f / 0.1f) + 2 = 10`, but the program computes
`dimx = 11`, because the binary32 quotient `0.9f / 0.1f` is `9`. -/
theorem dims_formula_fails_f32 :
    (∀ fr a, tenths_up_x fr a = if a = 0 then ⟨0, 1, 1⟩ else ⟨nine_tenths, 1, 1⟩)
    ∧ FLT_MIN ≤ nine_tenths
    ∧ ⌊(nine_tenths - 0) / tenth⌋ + 2 = 10
    ∧ fdiv nine_tenths tenth = some 9
    ∧ (construct_grid_f32 tenths_up_x 1 2 tenth).map (fun g => (g.dimx, g.dimy, g.dimz))
        = some (11, 2, 2) := by
  refine ⟨fun _ _ => rfl, ?_⟩
  decide!

/-- Claim C16 (maximum seeding), amended. `construct_grid` seeds each running
maximum with `FLT_MIN`, so for a point sequence whose largest coordinates are
`Mx, My, Mz` the maxima it computes are `max(FLT_MIN, Mx)`, `max(FLT_MIN, My)`,
`max(FLT_MIN, Mz)` (the scan only compares and copies, so this holds in either
reading); each equals the true maximum when that is `>= FLT_MIN`. When this
holds on all three axes, the cell width is positive and the smallest
coordinates `mx, my, mz` are at most `FLT_MAX`: in the machine reading, whenever
`construct_grid` is defined, each dimension is
`floor(fl(fl(M - m) / cell_width)) + 2`, where `fl` rounds to binary32; in exact
arithmetic each dimension is `floor((M - m) / cell_width) + 2`. -/
theorem maximum_seeding_f32 (x : ℕ → ℕ → rvec) (nframes natoms : ℕ) (cell_width : ℚ)
    (Mx My Mz : ℚ)
    (hx : is_largest x nframes natoms rvec.XX Mx)
    (hy : is_largest x nframes natoms rvec.YY My)
    (hz : is_largest x nframes natoms rvec.ZZ Mz) :
    (extrema_init.maxx = FLT_MIN ∧ extrema_init.maxy = FLT_MIN
      ∧ extrema_init.maxz = FLT_MIN)
    ∧ ((scan_extrema x nframes natoms).maxx = max FLT_MIN Mx
      ∧ (scan_extrema x nframes natoms).maxy = max FLT_MIN My
      ∧ (scan_extrema x nframes natoms).maxz = max FLT_MIN Mz)
    ∧ (FLT_MIN ≤ Mx → (scan_extrema x nframes natoms).maxx = Mx)
    ∧ (FLT_MIN ≤ My → (scan_extrema x nframes natoms).maxy = My)
    ∧ (FLT_MIN ≤ Mz → (scan_extrema x nframes natoms).maxz = Mz)
    ∧ (FLT_MIN ≤ Mx → FLT_MIN ≤ My → FLT_MIN ≤ Mz → 0 < cell_width →
        ∀ mx my mz : ℚ, is_smallest x nframes natoms rvec.XX mx →
          is_smallest x nframes natoms rvec.YY my →
          is_smallest x nframes natoms rvec.ZZ mz →
          mx ≤ FLT_MAX → my ≤ FLT_MAX → mz ≤ FLT_MAX →
          (∀ g, construct_grid_f32 x nframes natoms cell_width = some g →
            g.dimx = ⌊fl32 (fl32 (Mx - mx) / cell_width)⌋ + 2
            ∧ g.dimy = ⌊fl32 (fl32 (My - my) / cell_width)⌋ + 2
            ∧ g.dimz = ⌊fl32 (fl32 (Mz - mz) / cell_width)⌋ + 2)
          ∧ (construct_grid x nframes natoms cell_width).dimx
              = ⌊(Mx - mx) / cell_width⌋ + 2
          ∧ (construct_grid x nframes natoms cell_width).dimy
              = ⌊(My - my) / cell_width⌋ + 2
          ∧ (construct_grid x nframes natoms cell_width).dimz
              = ⌊(Mz - mz) / cell_width⌋ + 2) := by
  obtain ⟨h1, h2, h3⟩ := scan_extrema_max hx hy hz
  refine ⟨⟨rfl, rfl, rfl⟩, ⟨h1, h2, h3⟩, fun h => by rw [h1, max_eq_right h],
    fun h => by rw [h2, max_eq_right h], fun h => by rw [h3, max_eq_right h], ?_⟩
  intro gx gy gz hcw mx my mz smx smy smz bx bmy bmz
  obtain ⟨m1, m2, m3⟩ := scan_extrema_min smx smy smz
  have e1 : (scan_extrema x nframes natoms).maxx = Mx := by rw [h1, max_eq_right gx]
  have e2 : (scan_extrema x nframes natoms).maxy = My := by rw [h2, max_eq_right gy]
  have e3 : (scan_extrema x nframes natoms).maxz = Mz := by rw [h3, max_eq_right gz]
  rw [min_eq_right bx] at m1
  rw [min_eq_right bmy] at m2
  rw [min_eq_right bmz] at m3
  refine ⟨?_, ?_⟩
  · intro g hg
    obtain ⟨dx, dy, dz, -⟩ := construct_grid_f32_eq_some hg
    rw [e1, m1] at dx
    rw [e2, m2] at dy
    rw [e3, m3] at dz
    exact ⟨axis_dim_f32_floor hcw (smallest_le_largest smx hx) dx,
      axis_dim_f32_floor hcw (smallest_le_largest smy hy) dy,
      axis_dim_f32_floor hcw (smallest_le_largest smz hz) dz⟩
  · simp only [construct_grid, e1, e2, e3, m1, m2, m3]
    rw [int_cast_of_nonneg (div_nonneg (sub_nonneg.mpr (smallest_le_largest smx hx)) hcw.le),
      int_cast_of_nonneg (div_nonneg (sub_nonneg.mpr (smallest_le_largest smy hy)) hcw.le),
      int_cast_of_nonneg (div_nonneg (sub_nonneg.mpr (smallest_le_largest smz hz)) hcw.le)]
    exact ⟨rfl, rfl, rfl⟩

/-- Claim C16, amended, at one frame holding the atoms `(0, 1, 1)` and
`(0.9f, 1, 1)`, cell width `0.1f`: the maxima are the true ones, the machine
reading has `dimx = floor(fl(fl(0.9f - 0) / 0.1f)) + 2`, which is `11`, and the
exact reading has `dimx = floor((0.9f - 0) / 0.1f) + 2`, which is `10`. -/
theorem maximum_seeding_f32_witness :
    (scan_extrema tenths_up_x 1 2).maxx = nine_tenths
    ∧ (∃ g, construct_grid_f32 tenths_up_x 1 2 tenth = some g
        ∧ g.dimx = ⌊fl32 (fl32 (nine_tenths - 0) / tenth)⌋ + 2 ∧ g.dimx = 11)
    ∧ (construct_grid tenths_up_x 1 2 tenth).dimx = ⌊(nine_tenths - 0) / tenth⌋ + 2 := by
  have hmin : FLT_MIN ≤ nine_tenths ∧ FLT_MIN ≤ 1 := by
    constructor <;> norm_num [FLT_MIN, nine_tenths]
  have hmax : (0 : ℚ) ≤ FLT_MAX ∧ (1 : ℚ) ≤ FLT_MAX := by
    constructor <;> norm_num [FLT_MAX]
  have h := maximum_seeding_f32 tenths_up_x 1 2 tenth nine_tenths 1 1
    tenths_up_largest.1 tenths_up_largest.2.1 tenths_up_largest.2.2
  have h6 := h.2.2.2.2.2 hmin.1 hmin.2 hmin.2 (by norm_num [tenth]) 0 1 1
    tenths_up_smallest.1 tenths_up_smallest.2.1 tenths_up_smallest.2.2 hmax.1 hmax.2 hmax.2
  exact ⟨h.2.2.1 hmin.1, ⟨_, construct_grid_f32_tenths_up,
    (h6.1 _ construct_grid_f32_tenths_up).1, rfl⟩, h6.2.1⟩

/-- Claim C17 (weights never decrease), refuted as stated, in the machine
reading. One frame holding the atoms `(0, 0, 0)` and `(0.9f, 0, 0)`, cell width
`0.1f`, on the grid that `construct_grid` sizes from them: the eight values
added for the second atom end with `-2^(-28)` at the offset `43`, whose weight
drops from `0` to `-2^(-28)`. -/
theorem negative_contribution_f32 :
    construct_grid_f32 tenths_x 1 2 tenth = some (tenths_grid (List.replicate 44 0))
    ∧ diag_sq_f32 tenth = some (1006633 / 33554432)
    ∧ deposits_f32 (tenths_grid (List.replicate 44 0)) 4 (1006633 / 33554432) (tenths_x 0 1)
        = some [(36, 1006633 / 33554432), (40, 1342177 / 67108864),
                (42, 5368707 / 536870912), (38, 5368709 / 268435456),
                (39, 5368709 / 536870912), (37, 5368709 / 268435456),
                (41, 5368707 / 536870912), (43, -1 / 268435456)]
    ∧ (f_tessellate_area_f32 tenths_x 1 2 tenth).map (fun g => g.weights.getD 43 0)
        = some (-1 / 268435456) := by
  decide!

/-- Claim C17 (weights never decrease), amended: in exact arithmetic. On the
grid that `construct_grid` sizes from a point sequence with a positive cell
width, for every atom of that sequence: at each of the eight steps the squared
distance from the atom to `grid_point` is at most `3 * cw^2`, each of the eight
values added is `>= 0`, and on any buffer of the length of the grid the eight
updates complete and leave every entry at least as large as before. -/
theorem weights_never_decrease (x : ℕ → ℕ → rvec) (nframes natoms : ℕ) (cell_width : ℚ)
    (fr a : ℕ) (w : List ℚ) (hcw : 0 < cell_width) (hfr : fr < nframes) (ha : a < natoms)
    (hw : w.length = (construct_grid x nframes natoms cell_width).weights.length) :
    (∀ s ∈ walk (construct_grid x nframes natoms cell_width) (x fr a),
        distance2 (x fr a) s.2 ≤ 3 * cell_width * cell_width)
    ∧ (∀ d ∈ deposits (construct_grid x nframes natoms cell_width) (x fr a), 0 ≤ d.2)
    ∧ ∃ w', load_atom (construct_grid x nframes natoms cell_width) w (x fr a) = some w'
        ∧ w'.length = w.length ∧ ∀ n : ℕ, w.getD n 0 ≤ w'.getD n 0 := by
  have hnn := sized_deposits_nonneg (x := x) hcw hfr ha
  obtain ⟨hx, hy, hz⟩ := cell_index_in_grid (x := x) hcw hfr ha
  have hlen := construct_grid_length x nframes natoms cell_width
  obtain ⟨w', h1, h2, -, -, h5⟩ := load_atom_in_bounds (w := w) hx hy hz (hw.trans hlen)
  refine ⟨?_, hnn, w', h1, h2, ?_⟩
  · intro s hs
    have hm : (s.1, 3 * (construct_grid x nframes natoms cell_width).cell_width
          * (construct_grid x nframes natoms cell_width).cell_width - distance2 (x fr a) s.2)
        ∈ deposits (construct_grid x nframes natoms cell_width) (x fr a) := by
      rw [deposits_eq_walk]
      exact List.mem_map.mpr ⟨s, hs, rfl⟩
    have := hnn _ hm
    have hcwe : (construct_grid x nframes natoms cell_width).cell_width = cell_width := rfl
    rw [hcwe] at this
    simpa using this
  · intro n
    rw [h5 n]
    have := total_at_nonneg hnn n
    linarith

/-- Claim C17, amended, at the second atom of one frame of two atoms, cell
width `1`, on the buffer that `construct_grid` allocated. -/
theorem weights_never_decrease_witness :
    ∃ w', load_atom (construct_grid sample_x 1 2 1) (construct_grid sample_x 1 2 1).weights
        (sample_x 0 1) = some w'
      ∧ ∀ n : ℕ, (construct_grid sample_x 1 2 1).weights.getD n 0 ≤ w'.getD n 0 := by
  obtain ⟨w', h1, -, h2⟩ := (weights_never_decrease sample_x 1 2 1 0 1
    (construct_grid sample_x 1 2 1).weights (by norm_num) (by decide) (by decide) rfl).2.2
  exact ⟨w', h1, h2⟩

/-- Claim C18 (inconsistent input can leave the buffer). With the cell width `1`
and the grid sized from one frame holding one atom at `(1/2, 1/2, 1/2)`, which
has `2 x 2 x 2` vertices and `8` weights: for the atom `(5, 5, 5)` of another
sequence `load_grid` computes the cell `(4, 4, 4)` and the offsets `28 .. 35`,
all `>= 8`; for the atom `(-5, -5, -5)` it computes the cell `(-5, -5, -5)` and
negative offsets; it checks nothing and in both cases its first update falls
outside the buffer. -/
theorem inconsistent_input_leaves_buffer :
    (0 : ℚ) < 1
    ∧ construct_grid centre_x 1 1 1 = centre_grid [0, 0, 0, 0, 0, 0, 0, 0]
    ∧ (centre_grid [0, 0, 0, 0, 0, 0, 0, 0]).dimx * (centre_grid [0, 0, 0, 0, 0, 0, 0, 0]).dimy
        * (centre_grid [0, 0, 0, 0, 0, 0, 0, 0]).dimz = 8
    ∧ cell_index (construct_grid centre_x 1 1 1) (far_x 0 0) = (4, 4, 4)
    ∧ (deposits (construct_grid centre_x 1 1 1) (far_x 0 0)).map Prod.fst
        = [28, 32, 34, 30, 31, 29, 33, 35]
    ∧ load_grid far_x 1 1 (construct_grid centre_x 1 1 1) = none
    ∧ cell_index (construct_grid centre_x 1 1 1) (below_zero_x 0 0) = (-5, -5, -5)
    ∧ (deposits (construct_grid centre_x 1 1 1) (below_zero_x 0 0)).map Prod.fst
        = [-35, -31, -29, -33, -32, -34, -30, -28]
    ∧ load_grid below_zero_x 1 1 (construct_grid centre_x 1 1 1) = none := by
  have c1 : int_cast (((5 : ℚ) - 1 / 2) / 1) = 4 := by
    apply int_cast_eq_of <;> norm_num
  have c2 : int_cast (((-5 : ℚ) - 1 / 2) / 1) = -5 := by
    unfold int_cast
    rw [if_neg (by norm_num), Int.ceil_eq_iff]
    norm_num
  have i1 : cell_index (centre_grid [0, 0, 0, 0, 0, 0, 0, 0]) (far_x 0 0) = (4, 4, 4) := by
    simp only [cell_index, centre_grid, far_x, c1]
  have i2 : cell_index (centre_grid [0, 0, 0, 0, 0, 0, 0, 0]) (below_zero_x 0 0)
      = (-5, -5, -5) := by
    simp only [cell_index, centre_grid, below_zero_x, c2]
  have d1 : (deposits (centre_grid [0, 0, 0, 0, 0, 0, 0, 0]) (far_x 0 0)).map Prod.fst
      = [28, 32, 34, 30, 31, 29, 33, 35] := by
    rw [deposits_eq]
    simp only [List.map_cons, List.map_nil, corner_deposit, flat_index, i1]
    simp [centre_grid]
  have d2 : (deposits (centre_grid [0, 0, 0, 0, 0, 0, 0, 0]) (below_zero_x 0 0)).map Prod.fst
      = [-35, -31, -29, -33, -32, -34, -30, -28] := by
    rw [deposits_eq]
    simp only [List.map_cons, List.map_nil, corner_deposit, flat_index, i2]
    simp [centre_grid]
  rw [construct_grid_centre]
  refine ⟨by norm_num, rfl, by simp [centre_grid], i1, d1, ?_, i2, d2, ?_⟩
  · have hm : corner_deposit (centre_grid [0, 0, 0, 0, 0, 0, 0, 0]) (far_x 0 0) 0 0 0
        ∈ deposits (centre_grid [0, 0, 0, 0, 0, 0, 0, 0]) (far_x 0 0) :=
      corner_deposit_mem (Or.inl rfl) (Or.inl rfl) (Or.inl rfl)
    apply load_grid_none_of_mem (by decide : 0 < 1) (by decide : 0 < 1) hm
    right
    simp only [corner_deposit, flat_index, i1]
    simp [centre_grid]
  · have hm : corner_deposit (centre_grid [0, 0, 0, 0, 0, 0, 0, 0]) (below_zero_x 0 0) 0 0 0
        ∈ deposits (centre_grid [0, 0, 0, 0, 0, 0, 0, 0]) (below_zero_x 0 0) :=
      corner_deposit_mem (Or.inl rfl) (Or.inl rfl) (Or.inl rfl)
    apply load_grid_none_of_mem (by decide : 0 < 1) (by decide : 0 < 1) hm
    left
    simp only [corner_deposit, flat_index, i2]
    simp [centre_grid]

/-- Claim C19 (cell enclosure), refuted as stated, in the machine reading. One
frame holding the atoms `(0, 0, 0)` and `(0.9f, 0, 0)`, cell width `0.1f`: for
the second atom the binary32 quotient is `9`, so `load_grid` takes `xi = 9`
where `floor((p.x - minx) / cell_width) = 8`, `construct_grid` takes
`dimx = 11` where the floor gives `10`, and the lower corner of the chosen cell,
`0.90000004`, lies above the atom. -/
theorem cell_enclosure_fails_f32 :
    construct_grid_f32 tenths_x 1 2 tenth = some (tenths_grid (List.replicate 44 0))
    ∧ cell_index_f32 (tenths_grid (List.replicate 44 0)) (tenths_x 0 1) = some (9, 0, 0)
    ∧ ⌊((tenths_x 0 1).XX - 0) / tenth⌋ = 8
    ∧ ⌊(nine_tenths - 0) / tenth⌋ + 2 = 10
    ∧ axis_origin_f32 0 9 tenth = some (15099495 / 16777216)
    ∧ (tenths_x 0 1).XX < 15099495 / 16777216 := by
  decide!

/-- Claim C19 (cell enclosure), amended. On the grid that `construct_grid` sizes
from a point sequence with a positive cell width, for every atom `p` of that
sequence and each axis. In the machine reading (binary32 reals, 32-bit `int`),
whenever `construct_grid` is defined: the rounded difference `fl(p - min)` and
the rounded quotient `fl(fl(p - min) / cw)` are `>= 0`, so the truncating cast
of `load_grid` is defined and is the floor of that rounded quotient, and
likewise the cast in `construct_grid` is the floor of `fl(fl(max - min) / cw)`.
In exact arithmetic: `p - min >= 0`, the cast equals `floor((p - min) / cw)`,
the cell it selects encloses the atom, `min + i * cw <= p < min + (i + 1) * cw`,
and the casts of `(max - min) / cw` in `construct_grid` are floors. -/
theorem cell_enclosure_f32 (x : ℕ → ℕ → rvec) (nframes natoms : ℕ) (cell_width : ℚ)
    (fr a : ℕ) (hcw : 0 < cell_width) (hfr : fr < nframes) (ha : a < natoms) :
    (∀ g, construct_grid_f32 x nframes natoms cell_width = some g →
      (0 ≤ fl32 ((x fr a).XX - g.minx)
        ∧ 0 ≤ fl32 (fl32 ((x fr a).XX - g.minx) / cell_width)
        ∧ g.dimx = ⌊fl32 (fl32 ((scan_extrema x nframes natoms).maxx - g.minx)
            / cell_width)⌋ + 2)
      ∧ (0 ≤ fl32 ((x fr a).YY - g.miny)
        ∧ 0 ≤ fl32 (fl32 ((x fr a).YY - g.miny) / cell_width)
        ∧ g.dimy = ⌊fl32 (fl32 ((scan_extrema x nframes natoms).maxy - g.miny)
            / cell_width)⌋ + 2)
      ∧ (0 ≤ fl32 ((x fr a).ZZ - g.minz)
        ∧ 0 ≤ fl32 (fl32 ((x fr a).ZZ - g.minz) / cell_width)
        ∧ g.dimz = ⌊fl32 (fl32 ((scan_extrema x nframes natoms).maxz - g.minz)
            / cell_width)⌋ + 2)
      ∧ cell_index_f32 g (x fr a)
          = some (⌊fl32 (fl32 ((x fr a).XX - g.minx) / cell_width)⌋,
                  ⌊fl32 (fl32 ((x fr a).YY - g.miny) / cell_width)⌋,
                  ⌊fl32 (fl32 ((x fr a).ZZ - g.minz) / cell_width)⌋))
    ∧ (0 ≤ (x fr a).XX - (construct_grid x nframes natoms cell_width).minx
      ∧ (cell_index (construct_grid x nframes natoms cell_width) (x fr a)).1
          = ⌊((x fr a).XX - (construct_grid x nframes natoms cell_width).minx) / cell_width⌋
      ∧ (construct_grid x nframes natoms cell_width).minx
          + ((cell_index (construct_grid x nframes natoms cell_width) (x fr a)).1 : ℚ)
            * cell_width ≤ (x fr a).XX
      ∧ (x fr a).XX < (construct_grid x nframes natoms cell_width).minx
          + (((cell_index (construct_grid x nframes natoms cell_width) (x fr a)).1 : ℚ) + 1)
            * cell_width)
    ∧ (0 ≤ (x fr a).YY - (construct_grid x nframes natoms cell_width).miny
      ∧ (cell_index (construct_grid x nframes natoms cell_width) (x fr a)).2.1
          = ⌊((x fr a).YY - (construct_grid x nframes natoms cell_width).miny) / cell_width⌋
      ∧ (construct_grid x nframes natoms cell_width).miny
          + ((cell_index (construct_grid x nframes natoms cell_width) (x fr a)).2.1 : ℚ)
            * cell_width ≤ (x fr a).YY
      ∧ (x fr a).YY < (construct_grid x nframes natoms cell_width).miny
          + (((cell_index (construct_grid x nframes natoms cell_width) (x fr a)).2.1 : ℚ) + 1)
            * cell_width)
    ∧ (0 ≤ (x fr a).ZZ - (construct_grid x nframes natoms cell_width).minz
      ∧ (cell_index (construct_grid x nframes natoms cell_width) (x fr a)).2.2
          = ⌊((x fr a).ZZ - (construct_grid x nframes natoms cell_width).minz) / cell_width⌋
      ∧ (construct_grid x nframes natoms cell_width).minz
          + ((cell_index (construct_grid x nframes natoms cell_width) (x fr a)).2.2 : ℚ)
            * cell_width ≤ (x fr a).ZZ
      ∧ (x fr a).ZZ < (construct_grid x nframes natoms cell_width).minz
          + (((cell_index (construct_grid x nframes natoms cell_width) (x fr a)).2.2 : ℚ) + 1)
            * cell_width)
    ∧ (0 ≤ (scan_extrema x nframes natoms).maxx - (scan_extrema x nframes natoms).minx
      ∧ (construct_grid x nframes natoms cell_width).dimx
          = ⌊((scan_extrema x nframes natoms).maxx - (scan_extrema x nframes natoms).minx)
              / cell_width⌋ + 2)
    ∧ (0 ≤ (scan_extrema x nframes natoms).maxy - (scan_extrema x nframes natoms).miny
      ∧ (construct_grid x nframes natoms cell_width).dimy
          = ⌊((scan_extrema x nframes natoms).maxy - (scan_extrema x nframes natoms).miny)
              / cell_width⌋ + 2)
    ∧ (0 ≤ (scan_extrema x nframes natoms).maxz - (scan_extrema x nframes natoms).minz
      ∧ (construct_grid x nframes natoms cell_width).dimz
          = ⌊((scan_extrema x nframes natoms).maxz - (scan_extrema x nframes natoms).minz)
              / cell_width⌋ + 2) := by
  obtain ⟨h1, h2, h3, h4, h5, h6⟩ := scan_extrema_bounds (x := x) hfr ha
  obtain ⟨x1, x2, x3⟩ := axis_enclosure hcw h1
  obtain ⟨y1, y2, y3⟩ := axis_enclosure hcw h2
  obtain ⟨z1, z2, z3⟩ := axis_enclosure hcw h3
  have mx : 0 ≤ (scan_extrema x nframes natoms).maxx - (scan_extrema x nframes natoms).minx :=
    sub_nonneg.mpr (le_trans h1 h4)
  have my : 0 ≤ (scan_extrema x nframes natoms).maxy - (scan_extrema x nframes natoms).miny :=
    sub_nonneg.mpr (le_trans h2 h5)
  have mz : 0 ≤ (scan_extrema x nframes natoms).maxz - (scan_extrema x nframes natoms).minz :=
    sub_nonneg.mpr (le_trans h3 h6)
  refine ⟨?_, ⟨sub_nonneg.mpr h1, x1, x2, x3⟩, ⟨sub_nonneg.mpr h2, y1, y2, y3⟩,
    ⟨sub_nonneg.mpr h3, z1, z2, z3⟩, ⟨mx, ?_⟩, ⟨my, ?_⟩, ⟨mz, ?_⟩⟩
  · intro g hg
    obtain ⟨dx, dy, dz, -, -, -, hc, ex, ey, ez⟩ := construct_grid_f32_eq_some hg
    rw [← ex] at h1 dx
    rw [← ey] at h2 dy
    rw [← ez] at h3 dz
    obtain ⟨ix, qx, -, -, fx, -⟩ := axis_index_f32_bounds hcw h1 h4 dx
    obtain ⟨iy, qy, -, -, fy, -⟩ := axis_index_f32_bounds hcw h2 h5 dy
    obtain ⟨iz, qz, -, -, fz, -⟩ := axis_index_f32_bounds hcw h3 h6 dz
    refine ⟨⟨fl32_nonneg (sub_nonneg.mpr h1), qx, fx⟩, ⟨fl32_nonneg (sub_nonneg.mpr h2), qy, fy⟩,
      ⟨fl32_nonneg (sub_nonneg.mpr h3), qz, fz⟩, ?_⟩
    rw [← hc] at ix iy iz
    have := cell_index_f32_eq_some ix iy iz
    rw [hc] at this
    exact this
  · show int_cast (((scan_extrema x nframes natoms).maxx - (scan_extrema x nframes natoms).minx)
      / cell_width) + 2 = _
    rw [int_cast_of_nonneg (div_nonneg mx hcw.le)]
  · show int_cast (((scan_extrema x nframes natoms).maxy - (scan_extrema x nframes natoms).miny)
      / cell_width) + 2 = _
    rw [int_cast_of_nonneg (div_nonneg my hcw.le)]
  · show int_cast (((scan_extrema x nframes natoms).maxz - (scan_extrema x nframes natoms).minz)
      / cell_width) + 2 = _
    rw [int_cast_of_nonneg (div_nonneg mz hcw.le)]

/-- Claim C19, amended, at the second atom of one frame holding the atoms
`(0, 0, 0)` and `(0.9f, 0, 0)`, cell width `0.1f`: the machine reading selects
the cell `floor(fl(fl(0.9f - 0) / 0.1f))`, and in exact arithmetic the selected
cell has its lower corner at or below the atom. -/
theorem cell_enclosure_f32_witness :
    cell_index_f32 (tenths_grid (List.replicate 44 0)) (tenths_x 0 1)
        = some (⌊fl32 (fl32 ((tenths_x 0 1).XX - 0) / tenth)⌋,
                ⌊fl32 (fl32 ((tenths_x 0 1).YY - 0) / tenth)⌋,
                ⌊fl32 (fl32 ((tenths_x 0 1).ZZ - 0) / tenth)⌋)
    ∧ (construct_grid tenths_x 1 2 tenth).minx
        + ((cell_index (construct_grid tenths_x 1 2 tenth) (tenths_x 0 1)).1 : ℚ) * tenth
      ≤ (tenths_x 0 1).XX := by
  have h := cell_enclosure_f32 tenths_x 1 2 tenth 0 1 (by norm_num [tenth]) (by decide)
    (by decide)
  exact ⟨(h.1 _ construct_grid_f32_tenths).2.2.2, h.2.1.2.2.1⟩

/-- Claim C20 (flat addressing is injective). On every grid the map
`(x, y, z) -> x * dimy * dimz + y * dimz + z` is injective on the triples with
`0 <= x < dimx`, `0 <= y < dimy`, `0 <= z < dimz` and takes its values in
`[0, dimx * dimy * dimz)`; hence for every atom whose cell is in bounds the
eight offsets written by `load_grid` are pairwise distinct entries of the
buffer. -/
theorem flat_addressing_injective (g : weighted_grid) :
    (∀ x y z u v w : ℤ, 0 ≤ x ∧ x < g.dimx → 0 ≤ y ∧ y < g.dimy → 0 ≤ z ∧ z < g.dimz →
        0 ≤ u ∧ u < g.dimx → 0 ≤ v ∧ v < g.dimy → 0 ≤ w ∧ w < g.dimz →
        flat_index g x y z = flat_index g u v w → x = u ∧ y = v ∧ z = w)
    ∧ (∀ x y z : ℤ, 0 ≤ x ∧ x < g.dimx → 0 ≤ y ∧ y < g.dimy → 0 ≤ z ∧ z < g.dimz →
        0 ≤ flat_index g x y z ∧ flat_index g x y z < g.dimx * g.dimy * g.dimz)
    ∧ (∀ p : rvec,
        0 ≤ (cell_index g p).1 ∧ (cell_index g p).1 + 1 ≤ g.dimx - 1 →
        0 ≤ (cell_index g p).2.1 ∧ (cell_index g p).2.1 + 1 ≤ g.dimy - 1 →
        0 ≤ (cell_index g p).2.2 ∧ (cell_index g p).2.2 + 1 ≤ g.dimz - 1 →
        ((deposits g p).map Prod.fst).Nodup
          ∧ ∀ d ∈ deposits g p, 0 ≤ d.1 ∧ d.1 < g.dimx * g.dimy * g.dimz) := by
  refine ⟨?_, ?_, ?_⟩
  · intro x y z u v w _ hy hz _ hv hw h
    exact flat_index_inj hy hz hv hw h
  · intro x y z hx hy hz
    exact flat_index_bounds hx.1 (by linarith [hx.2]) hy.1 (by linarith [hy.2]) hz.1
      (by linarith [hz.2])
  · intro p hx hy hz
    refine ⟨deposits_nodup g p (by linarith [hy.1, hy.2]) (by linarith [hz.1, hz.2]), ?_⟩
    intro d hd
    obtain ⟨a, b, c, ha, hb, hc, rfl⟩ := mem_deposits hd
    exact corner_deposit_bounds hx hy hz ha hb hc

/-- Claim C20 on the grid of `2 x 2 x 2` vertices: the vertices `(0, 1, 1)` and
`(1, 0, 0)` have different offsets, and the eight offsets written for the point
on the vertex `(0, 0, 0)` are pairwise distinct. -/
theorem flat_addressing_injective_witness :
    flat_index (centre_grid []) 0 1 1 ≠ flat_index (centre_grid []) 1 0 0
    ∧ ((deposits (centre_grid []) (vertex (centre_grid []) 0 0 0)).map Prod.fst).Nodup := by
  have h := flat_addressing_injective (centre_grid [])
  have hc := cell_index_vertex (centre_grid []) (by simp [centre_grid]) 0 0 0
  refine ⟨?_, (h.2.2 (vertex (centre_grid []) 0 0 0) (by rw [hc]; simp [centre_grid])
    (by rw [hc]; simp [centre_grid]) (by rw [hc]; simp [centre_grid])).1⟩
  intro he
  have := (h.1 0 1 1 1 0 0 (by simp [centre_grid]) (by simp [centre_grid])
    (by simp [centre_grid]) (by simp [centre_grid]) (by simp [centre_grid])
    (by simp [centre_grid]) he).1
  exact absurd this (by decide)

end LLTessellation
